import Mathlib

/-!
Verification of the superannuation micro-savings engine against its
specification.  The JavaScript sources (`src/money.js`, the timestamp
codec, and the rule-pipeline engine) are shallowly embedded below:
BigInt arithmetic becomes `Int` (JS BigInt `%` is truncated remainder,
`Int.tmod`), JS `Math.floor(x / c)` and ECMAScript `modulo` for positive
constant `c` become `Int` `/` and `%` (Euclidean = floor for positive
divisors), strings become `String`, and fallible code returns `Except`.
-/

/-! ## JS primitives: decimal string rendering of integral numbers -/

/-- Fuel-driven core of `natToDigits` (structural recursion so that the
kernel can evaluate it). -/
def natToDigitsCore (fuel n : Nat) : List Char :=
  match fuel with
  | 0 => []
  | fuel + 1 =>
      if n < 10 then [Nat.digitChar n]
      else natToDigitsCore fuel (n / 10) ++ [Nat.digitChar (n % 10)]

/-- Decimal digit list of a natural number, most significant first.
Models ECMAScript ToString / BigInt.prototype.toString applied to a
non-negative integral value. -/
def natToDigits (n : Nat) : List Char := natToDigitsCore (n + 1) n

/-- Models JS stringification of an integral number (sign then decimal
digits); exact for integral values below the exponential-notation
threshold, which covers every value the engine stringifies. -/
def jsIntToString (n : Int) : String :=
  (if n < 0 then "-" else "") ++ String.mk (natToDigits n.natAbs)

/-- Models `String.prototype.padStart(2, '0')`. -/
def padStartTwo (s : String) : String :=
  if s.length = 0 then "00" else if s.length = 1 then "0" ++ s else s

/-- ECMAScript whitespace test used by `String.prototype.trim`
(ASCII part; the engine's inputs are ASCII). -/
def jsIsWhitespace (c : Char) : Bool :=
  c == ' ' || c == '\t' || c == '\n' || c == '\r' || c == Char.ofNat 11 || c == Char.ofNat 12

/-- Model of `String.prototype.trim`: strip leading and trailing
whitespace. -/
def jsTrim (s : String) : String :=
  String.mk (((s.toList.dropWhile jsIsWhitespace).reverse.dropWhile jsIsWhitespace).reverse)

/-! ## JS values

The engine receives JSON-decoded JavaScript values.  For the claims
under verification the relevant shapes are strings, integral numbers
(exactly representable; the engine's own bounds keep every accepted
number far below 2^53) and everything else, which the code only ever
inspects through `typeof`/`Array.isArray` checks. -/

inductive JsVal where
  | str (s : String)
  | numInt (n : Int)
  | undef
  | other
  deriving DecidableEq, Repr

-- Decidable equality of `Except` results, used to evaluate the embedded
-- functions on concrete inputs.
deriving instance DecidableEq for Except

/-! ## money.js -/

/-- Model of `normalizeMoneyInput` from `src/money.js`: numbers are
stringified, strings are trimmed and must be non-empty, anything else
is rejected. -/
def normalizeMoneyInput (raw : JsVal) : Except String String :=
  match raw with
  | .numInt n => .ok (jsIntToString n)
  | .str s =>
      let trimmed := jsTrim s
      if trimmed = "" then .error "must not be empty" else .ok trimmed
  | _ => .error "must be a number or numeric string"

/-- Matcher for `MONEY_RE = /^([+-]?)(\d+)(?:\.(\d+))?$/`.  Returns the
sign group (`true` iff the match is `'-'`), the integer digit group and
the optional fraction digit group. -/
def matchMoney (cs : List Char) : Option (Bool × List Char × Option (List Char)) :=
  let (neg, rest) :=
    match cs with
    | '-' :: r => (true, r)
    | '+' :: r => (false, r)
    | r => (false, r)
  let intDigits := rest.takeWhile Char.isDigit
  let afterInt := rest.dropWhile Char.isDigit
  if intDigits = [] then none
  else
    match afterInt with
    | [] => some (neg, intDigits, none)
    | '.' :: fr =>
        if fr ≠ [] ∧ fr.all Char.isDigit then some (neg, intDigits, some fr) else none
    | _ => none

/-- Numeric value of a list of decimal digit characters (models
`BigInt(digits)` / `Number(digits)` on an all-digit string). -/
def digitsVal (cs : List Char) : Nat :=
  cs.foldl (fun a c => 10 * a + (c.toNat - 48)) 0

/-- Value of a single digit character (models `Number(frac[i])`). -/
def digitVal (c : Char) : Nat := c.toNat - 48

/-- Model of `parseMoney` from `src/money.js`: parse a decimal string
into integer minor units (paise), half-up rounding on the third
fractional digit, with carry into the whole part. -/
def parseMoney (raw : JsVal) : Except String Int := do
  let text ← normalizeMoneyInput raw
  match matchMoney text.toList with
  | none => .error "must be a valid decimal value"
  | some (neg, intDigits, fracOpt) =>
      let sign : Int := if neg then -1 else 1
      let intPart : Int := (digitsVal intDigits : Nat)
      let frac := fracOpt.getD []
      let first : Nat := match frac.get? 0 with | some c => digitVal c | none => 0
      let second : Nat := match frac.get? 1 with | some c => digitVal c | none => 0
      let third : Nat := match frac.get? 2 with | some c => digitVal c | none => 0
      let cents : Int := (first * 10 + second : Nat)
      let cents := if third ≥ 5 then cents + 1 else cents
      let whole := intPart
      let (whole, cents) := if cents ≥ 100 then (whole + 1, cents - 100) else (whole, cents)
      pure (sign * (whole * 100 + cents))

/-- Model of `moneyToFixed2` from `src/money.js` up to the final
`Number(text)` conversion: the exact two-decimal text the function
builds (sign handled on the magnitude, fraction zero-padded). -/
def moneyToFixed2 (paise : Int) : String :=
  let negative := paise < 0
  let abs := if negative then -paise else paise
  let whole := abs / 100
  let frac := abs % 100
  (if negative then "-" else "") ++ jsIntToString whole ++ "." ++
    padStartTwo (jsIntToString frac)

/-- Model of `validateMoneyRange` from `src/money.js`. -/
def validateMoneyRange (paise minInclusive maxExclusive : Int) (fieldName : String) :
    Except String Unit :=
  if paise < minInclusive ∨ paise ≥ maxExclusive then
    .error (fieldName ++ " out of allowed range")
  else .ok ()

/-- Model of `ceilTo100` from `src/money.js`.  `multiple` is the
literal `10000n` of the source and JS BigInt `%` is truncated
remainder (`Int.tmod`). -/
def ceilTo100 (paise : Int) : Int :=
  let multiple : Int := 10000
  let remainder := Int.tmod paise multiple
  if remainder = 0 then paise else paise + (multiple - remainder)

/-! ## C1 helper lemmas -/

/-- JS BigInt truncated remainder by 10000 in terms of Euclidean `%`. -/
theorem tmod_10000_eq (a : Int) :
    Int.tmod a 10000 =
      if 0 ≤ a then a % 10000 else a % 10000 - (if a % 10000 = 0 then 0 else 10000) := by
  rcases a with n | n
  · rw [Int.ofNat_eq_coe, if_pos (Int.ofNat_nonneg n),
      Int.tmod_eq_emod (Int.ofNat_nonneg n) (by norm_num)]
  · rw [if_neg (by rw [Int.negSucc_eq]; omega)]
    have ht : Int.tmod (Int.negSucc n) 10000 = -((((n + 1) % 10000 : Nat)) : Int) := by
      simp [Int.tmod]
    have he : (Int.negSucc n) % 10000 = 10000 - 1 - ((n % 10000 : Nat) : Int) :=
      Int.negSucc_emod n (by norm_num)
    rw [ht, he]
    split <;> omega

/-- Unfolding equation for `ceilTo100`. -/
theorem ceilTo100_eq (v : Int) :
    ceilTo100 v = if Int.tmod v 10000 = 0 then v else v + (10000 - Int.tmod v 10000) := rfl

/-- C1 counterexample: the claim says `ceilTo100` returns the smallest
multiple of 100 minor units that is ≥ v and returns v unchanged exactly
when v is a multiple of 100; at v = 100 (already a multiple of 100) the
code returns 10000, not 100. -/
theorem ceilTo100_claim_cex :
    ceilTo100 100 = 10000 ∧ (100 : Int) % 100 = 0 ∧ ceilTo100 100 ≠ 100 := by decide

/-- C1 (amended): `ceilTo100` rounds up to the next multiple of 10000
minor units (= 100 whole currency units).  For v ≥ 0 it returns the
smallest multiple of 10000 minor units that is ≥ v (hence divisible by
100 and by 10000, ≥ v, and equal to v iff v mod 10000 == 0).  For
negative v it returns v exactly when v is a multiple of 10000, and
otherwise overshoots the smallest multiple of 10000 ≥ v by exactly
10000, so negative inputs are not rounded toward positive infinity. -/
theorem ceilTo100_spec (v : Int) :
    (0 ≤ v →
      (ceilTo100 v) % 100 = 0 ∧ (ceilTo100 v) % 10000 = 0 ∧ v ≤ ceilTo100 v ∧
      (∀ w : Int, v ≤ w → w % 10000 = 0 → ceilTo100 v ≤ w) ∧
      (ceilTo100 v = v ↔ v % 10000 = 0)) ∧
    (v < 0 →
      (v % 10000 = 0 → ceilTo100 v = v) ∧
      (v % 10000 ≠ 0 → ceilTo100 v = (v - v % 10000 + 10000) + 10000)) := by
  have hpos : 0 ≤ v →
      ceilTo100 v = v - v % 10000 + (if v % 10000 = 0 then 0 else 10000) := by
    intro h0
    rw [ceilTo100_eq, tmod_10000_eq, if_pos h0]
    split_ifs <;> omega
  have hneg : v < 0 →
      ceilTo100 v = if v % 10000 = 0 then v else v + 20000 - v % 10000 := by
    intro h0
    rw [ceilTo100_eq, tmod_10000_eq, if_neg (show ¬ (0 : Int) ≤ v by omega)]
    split_ifs <;> omega
  refine ⟨fun h0 => ?_, fun hn => ?_⟩
  · have h := hpos h0
    exact ⟨by rw [h]; split_ifs <;> omega, by rw [h]; split_ifs <;> omega,
      by rw [h]; split_ifs <;> omega, fun w hw hmul => by rw [h]; split_ifs <;> omega,
      by rw [h]; split_ifs <;> omega⟩
  · have h := hneg hn
    exact ⟨fun hz => by rw [h, if_pos hz], fun hnz => by rw [h, if_neg hnz]; omega⟩

/-- C1 witness: the amended theorem applied at v = 250 and v = -50. -/
theorem ceilTo100_spec_witness :
    ((0 : Int) ≤ 250 ∧ (ceilTo100 250) % 10000 = 0 ∧ ceilTo100 250 = 10000) ∧
    ((-50 : Int) < 0 ∧ ceilTo100 (-50) = ((-50 : Int) - (-50 : Int) % 10000 + 10000) + 10000) :=
  ⟨⟨by decide, (((ceilTo100_spec 250).1 (by decide)).2.1), by decide⟩,
   ⟨by decide, ((ceilTo100_spec (-50)).2 (by decide)).2 (by decide)⟩⟩

/-! ## time.js and its ECMAScript Date model

`parseTimestampToEpochSeconds` calls `Date.UTC` and reads the result
back through the `getUTC*` accessors.  Those ECMAScript operations are
modelled below.  All time values handled by the code are multiples of
1000 ms and stay far below the 2^53 exactness bound, so the model works
in integer seconds: `Int` `/` and `%` coincide with ECMAScript's
`floor` division and sign-of-divisor `modulo` for the positive constant
divisors used here. -/

def IST_OFFSET_SECONDS : Int := 5 * 3600 + 30 * 60

/-- ECMAScript leap-year predicate (`DaysInYear(y) = 366`). -/
def isLeap (y : Int) : Bool := (y % 4 == 0 && y % 100 != 0) || (y % 400 == 0)

/-- Leap-day count of a year as an integer. -/
def leapDays (y : Int) : Int := if isLeap y then 1 else 0

/-- ECMAScript `DayFromYear(y)`: day number of January 1 of year `y`. -/
def dayFromYear (y : Int) : Int :=
  365 * (y - 1970) + (y - 1969) / 4 - (y - 1901) / 100 + (y - 1601) / 400

/-- Model of ECMAScript `YearFromTime` at day granularity: the unique
`y` with `dayFromYear y ≤ day < dayFromYear (y + 1)`, computed by a
linear approximation plus at most one correction in each direction
(see `yearFromDay_spec`). -/
def yearFromDay (day : Int) : Int :=
  let y0 := 1970 + (400 * day) / 146097
  let y1 := if day < dayFromYear y0 then y0 - 1 else y0
  if dayFromYear (y1 + 1) ≤ day then y1 + 1 else y1

/-- Days in the year strictly before 1-based month `m`, with `L` the
year's leap-day count (ECMAScript's month table). -/
def daysBeforeMonth (m L : Int) : Int :=
  if m = 1 then 0 else if m = 2 then 31 else if m = 3 then 59 + L
  else if m = 4 then 90 + L else if m = 5 then 120 + L else if m = 6 then 151 + L
  else if m = 7 then 181 + L else if m = 8 then 212 + L else if m = 9 then 243 + L
  else if m = 10 then 273 + L else if m = 11 then 304 + L else 334 + L

/-- Days in 1-based month `m` of a year with leap-day count `L`. -/
def daysInMonth (m L : Int) : Int :=
  if m = 2 then 28 + L
  else if m = 4 ∨ m = 6 ∨ m = 9 ∨ m = 11 then 30 else 31

/-- ECMAScript `MonthFromTime` (returned 1-based) from a day-within-year
and the year's leap-day count. -/
def monthFromDwy (dwy L : Int) : Int :=
  if dwy < 31 then 1 else if dwy < 59 + L then 2 else if dwy < 90 + L then 3
  else if dwy < 120 + L then 4 else if dwy < 151 + L then 5 else if dwy < 181 + L then 6
  else if dwy < 212 + L then 7 else if dwy < 243 + L then 8 else if dwy < 273 + L then 9
  else if dwy < 304 + L then 10 else if dwy < 334 + L then 11 else 12

/-- ECMAScript `DateFromTime` from a day-within-year and leap count. -/
def dateFromDwy (dwy L : Int) : Int :=
  dwy - daysBeforeMonth (monthFromDwy dwy L) L + 1

/-- ECMAScript `MakeDay(y, m, dt)` with 0-based month `m` (arbitrary
integers; month and day overflow roll over into adjacent periods). -/
def makeDay (y m dt : Int) : Int :=
  let ym := y + m / 12
  let mn := m % 12
  dayFromYear ym + daysBeforeMonth (mn + 1) (leapDays ym) + dt - 1

/-- `Date.UTC(y, m, d, h, mi, s)` in integer seconds, including the
two-digit-year rule (`0 ≤ y ≤ 99` is interpreted as `1900 + y`). -/
def dateUTC (y m d h mi s : Int) : Int :=
  let yi := if 0 ≤ y ∧ y ≤ 99 then 1900 + y else y
  makeDay yi m d * 86400 + (h * 3600 + mi * 60 + s)

/-- ECMAScript `Day(t)` at second granularity. -/
def jsDay (t : Int) : Int := t / 86400

/-- `getUTCFullYear` of a time value in seconds. -/
def getUTCFullYear (t : Int) : Int := yearFromDay (jsDay t)

/-- `getUTCMonth() + 1` (1-based month) of a time value in seconds. -/
def getUTCMonth1 (t : Int) : Int :=
  monthFromDwy (jsDay t - dayFromYear (getUTCFullYear t)) (leapDays (getUTCFullYear t))

/-- `getUTCDate` of a time value in seconds. -/
def getUTCDate (t : Int) : Int :=
  dateFromDwy (jsDay t - dayFromYear (getUTCFullYear t)) (leapDays (getUTCFullYear t))

/-- `getUTCHours` of a time value in seconds (ECMAScript
`HourFromTime`). -/
def getUTCHours (t : Int) : Int := (t / 3600) % 24

/-- `getUTCMinutes` of a time value in seconds. -/
def getUTCMinutes (t : Int) : Int := (t / 60) % 60

/-- `getUTCSeconds` of a time value in seconds. -/
def getUTCSeconds (t : Int) : Int := t % 60

/-- Matcher for `TIMESTAMP_RE =
/^(\d{4})-(\d{2})-(\d{2}) (\d{2}):(\d{2}):(\d{2})$/`, returning the six
numeric fields. -/
def matchTimestamp (cs : List Char) : Option (Nat × Nat × Nat × Nat × Nat × Nat) :=
  match cs with
  | [y1, y2, y3, y4, '-', m1, m2, '-', d1, d2, ' ', h1, h2, ':', n1, n2, ':', s1, s2] =>
      if (y1.isDigit ∧ y2.isDigit ∧ y3.isDigit ∧ y4.isDigit ∧ m1.isDigit ∧ m2.isDigit ∧
          d1.isDigit ∧ d2.isDigit ∧ h1.isDigit ∧ h2.isDigit ∧ n1.isDigit ∧ n2.isDigit ∧
          s1.isDigit ∧ s2.isDigit) then
        some (digitsVal [y1, y2, y3, y4], digitsVal [m1, m2], digitsVal [d1, d2],
          digitsVal [h1, h2], digitsVal [n1, n2], digitsVal [s1, s2])
      else none
  | _ => none

/-- Model of `parseTimestampToEpochSeconds` from the timestamp codec:
trim, exact regex match, `Date.UTC` normalization check, then the
instant shifted by the fixed UTC+5:30 offset. -/
def parseTimestampToEpochSeconds (value : JsVal) (fieldName : String) : Except String Int :=
  match value with
  | .str s =>
      let trimmed := jsTrim s
      match matchTimestamp trimmed.toList with
      | none => .error (fieldName ++ " must follow YYYY-MM-DD HH:mm:ss")
      | some (year, month, day, hour, minute, second) =>
          let utc := dateUTC year ((month : Int) - 1) day hour minute second
          if getUTCFullYear utc = year ∧ getUTCMonth1 utc = month ∧
              getUTCDate utc = day ∧ getUTCHours utc = hour ∧
              getUTCMinutes utc = minute ∧ getUTCSeconds utc = second then
            .ok (utc - IST_OFFSET_SECONDS)
          else .error (fieldName ++ " is not a valid calendar timestamp")
  | _ => .error (fieldName ++ " must be a string in format YYYY-MM-DD HH:mm:ss")

/-- Model of `formatEpochSecondsToTimestamp`: shift into the fixed
UTC+5:30 zone, read the calendar fields, zero-pad all fields except the
year (the source pads only month through second). -/
def formatEpochSecondsToTimestamp (epochSeconds : Int) : String :=
  let localSec := epochSeconds + IST_OFFSET_SECONDS
  jsIntToString (getUTCFullYear localSec) ++ "-" ++
    padStartTwo (jsIntToString (getUTCMonth1 localSec)) ++ "-" ++
    padStartTwo (jsIntToString (getUTCDate localSec)) ++ " " ++
    padStartTwo (jsIntToString (getUTCHours localSec)) ++ ":" ++
    padStartTwo (jsIntToString (getUTCMinutes localSec)) ++ ":" ++
    padStartTwo (jsIntToString (getUTCSeconds localSec))

/-- Model of `parseTimestampLike`: use `value` when it is a string,
else fall back to `fallbackValue`; error when neither is a string. -/
def parseTimestampLike (value fallbackValue : JsVal) (fieldName : String) :
    Except String String :=
  let chosen := match value with | .str _ => value | _ => fallbackValue
  match chosen with
  | .str s => .ok s
  | _ => .error (fieldName ++ " is required")

/-! ## Calendar lemmas for the ECMAScript Date model -/

theorem leapDays_eq (y : Int) :
    leapDays y = if (y % 4 = 0 ∧ y % 100 ≠ 0) ∨ y % 400 = 0 then 1 else 0 := by
  rw [leapDays]
  by_cases h : (y % 4 = 0 ∧ y % 100 ≠ 0) ∨ y % 400 = 0
  · rw [if_pos (by simpa [isLeap] using h), if_pos h]
  · rw [if_neg (by simpa [isLeap] using h), if_neg h]

theorem dayFromYear_step (y : Int) :
    dayFromYear (y + 1) = dayFromYear y + 365 + leapDays y := by
  rw [leapDays_eq, dayFromYear, dayFromYear]; split <;> omega

theorem yearFromDay_spec (day : Int) :
    dayFromYear (yearFromDay day) ≤ day ∧ day < dayFromYear (yearFromDay day + 1) := by
  simp only [yearFromDay, dayFromYear]
  split_ifs <;> omega

theorem dayFromYear_mono {a b : Int} (h : a ≤ b) : dayFromYear a ≤ dayFromYear b := by
  rw [dayFromYear, dayFromYear]
  have h4 : (a - 1969) / 4 ≤ (b - 1969) / 4 := Int.ediv_le_ediv (by norm_num) (by omega)
  have h400 : (a - 1601) / 400 ≤ (b - 1601) / 400 := Int.ediv_le_ediv (by norm_num) (by omega)
  have h100 : (b - 1901) / 100 ≤ (a - 1901) / 100 + (b - a) := by
    have h2 : (b - 1901) / 100 ≤ ((a - 1901) + (b - a) * 100) / 100 :=
      Int.ediv_le_ediv (by norm_num) (by omega)
    rwa [Int.add_mul_ediv_right _ _ (by norm_num : (100:Int) ≠ 0)] at h2
  omega

theorem yearFromDay_uniq {day y : Int} (h1 : dayFromYear y ≤ day)
    (h2 : day < dayFromYear (y + 1)) : yearFromDay day = y := by
  have hs := yearFromDay_spec day
  rcases lt_trichotomy (yearFromDay day) y with h | h | h
  · have : dayFromYear (yearFromDay day + 1) ≤ dayFromYear y := dayFromYear_mono (by omega)
    omega
  · exact h
  · have : dayFromYear (y + 1) ≤ dayFromYear (yearFromDay day) := dayFromYear_mono (by omega)
    omega

-- day-within-year range
theorem dwy_range (day : Int) :
    0 ≤ day - dayFromYear (yearFromDay day) ∧
    day - dayFromYear (yearFromDay day) < 365 + leapDays (yearFromDay day) := by
  have hs := yearFromDay_spec day
  have := dayFromYear_step (yearFromDay day)
  omega

theorem daysBeforeMonth_val (L : Int) :
    daysBeforeMonth 1 L = 0 ∧ daysBeforeMonth 2 L = 31 ∧ daysBeforeMonth 3 L = 59 + L ∧
    daysBeforeMonth 4 L = 90 + L ∧ daysBeforeMonth 5 L = 120 + L ∧
    daysBeforeMonth 6 L = 151 + L ∧ daysBeforeMonth 7 L = 181 + L ∧
    daysBeforeMonth 8 L = 212 + L ∧ daysBeforeMonth 9 L = 243 + L ∧
    daysBeforeMonth 10 L = 273 + L ∧ daysBeforeMonth 11 L = 304 + L ∧
    daysBeforeMonth 12 L = 334 + L := by
  norm_num [daysBeforeMonth]

theorem daysInMonth_val (L : Int) :
    daysInMonth 1 L = 31 ∧ daysInMonth 2 L = 28 + L ∧ daysInMonth 3 L = 31 ∧
    daysInMonth 4 L = 30 ∧ daysInMonth 5 L = 31 ∧ daysInMonth 6 L = 30 ∧
    daysInMonth 7 L = 31 ∧ daysInMonth 8 L = 31 ∧ daysInMonth 9 L = 30 ∧
    daysInMonth 10 L = 31 ∧ daysInMonth 11 L = 30 ∧ daysInMonth 12 L = 31 := by
  norm_num [daysInMonth]

theorem monthFromDwy_cases (dwy L : Int) :
    (monthFromDwy dwy L = 1 ∧ dwy < 31) ∨
    (monthFromDwy dwy L = 2 ∧ 31 ≤ dwy ∧ dwy < 59 + L) ∨
    (monthFromDwy dwy L = 3 ∧ 59 + L ≤ dwy ∧ dwy < 90 + L) ∨
    (monthFromDwy dwy L = 4 ∧ 90 + L ≤ dwy ∧ dwy < 120 + L) ∨
    (monthFromDwy dwy L = 5 ∧ 120 + L ≤ dwy ∧ dwy < 151 + L) ∨
    (monthFromDwy dwy L = 6 ∧ 151 + L ≤ dwy ∧ dwy < 181 + L) ∨
    (monthFromDwy dwy L = 7 ∧ 181 + L ≤ dwy ∧ dwy < 212 + L) ∨
    (monthFromDwy dwy L = 8 ∧ 212 + L ≤ dwy ∧ dwy < 243 + L) ∨
    (monthFromDwy dwy L = 9 ∧ 243 + L ≤ dwy ∧ dwy < 273 + L) ∨
    (monthFromDwy dwy L = 10 ∧ 273 + L ≤ dwy ∧ dwy < 304 + L) ∨
    (monthFromDwy dwy L = 11 ∧ 304 + L ≤ dwy ∧ dwy < 334 + L) ∨
    (monthFromDwy dwy L = 12 ∧ 334 + L ≤ dwy) := by
  rw [monthFromDwy]
  by_cases c1 : dwy < 31
  · simp only [true_and, if_pos c1]; omega
  simp only [if_neg c1]
  by_cases c2 : dwy < 59 + L
  · simp only [true_and, if_pos c2]; omega
  simp only [if_neg c2]
  by_cases c3 : dwy < 90 + L
  · simp only [true_and, if_pos c3]; omega
  simp only [if_neg c3]
  by_cases c4 : dwy < 120 + L
  · simp only [true_and, if_pos c4]; omega
  simp only [if_neg c4]
  by_cases c5 : dwy < 151 + L
  · simp only [true_and, if_pos c5]; omega
  simp only [if_neg c5]
  by_cases c6 : dwy < 181 + L
  · simp only [true_and, if_pos c6]; omega
  simp only [if_neg c6]
  by_cases c7 : dwy < 212 + L
  · simp only [true_and, if_pos c7]; omega
  simp only [if_neg c7]
  by_cases c8 : dwy < 243 + L
  · simp only [true_and, if_pos c8]; omega
  simp only [if_neg c8]
  by_cases c9 : dwy < 273 + L
  · simp only [true_and, if_pos c9]; omega
  simp only [if_neg c9]
  by_cases c10 : dwy < 304 + L
  · simp only [true_and, if_pos c10]; omega
  simp only [if_neg c10]
  by_cases c11 : dwy < 334 + L
  · simp only [true_and, if_pos c11]; omega
  simp only [if_neg c11]
  iterate 11 right
  exact ⟨trivial, by omega⟩


theorem monthRecoverAux1 {d L : Int} (hL : L = 0 ∨ L = 1) (h3 : 1 ≤ d)
    (h4 : d ≤ daysInMonth 1 L) :
    monthFromDwy (daysBeforeMonth 1 L + d - 1) L = 1 ∧
    dateFromDwy (daysBeforeMonth 1 L + d - 1) L = d := by
  have hC : daysBeforeMonth 1 L = 0 := by norm_num [daysBeforeMonth]
  have hD : daysInMonth 1 L = 31 := by norm_num [daysInMonth]
  rw [hD] at h4
  rw [hC]
  have hm : monthFromDwy (0 + d - 1) L = 1 := by
    rcases monthFromDwy_cases (0 + d - 1) L with ⟨hm, hr⟩ | ⟨hm, hr⟩ | ⟨hm, hr⟩ | ⟨hm, hr⟩ | ⟨hm, hr⟩ | ⟨hm, hr⟩ | ⟨hm, hr⟩ | ⟨hm, hr⟩ | ⟨hm, hr⟩ | ⟨hm, hr⟩ | ⟨hm, hr⟩ | ⟨hm, hr⟩ <;> omega
  refine ⟨hm, ?_⟩
  rw [dateFromDwy, hm, hC]
  omega


theorem monthRecoverAux2 {d L : Int} (hL : L = 0 ∨ L = 1) (h3 : 1 ≤ d)
    (h4 : d ≤ daysInMonth 2 L) :
    monthFromDwy (daysBeforeMonth 2 L + d - 1) L = 2 ∧
    dateFromDwy (daysBeforeMonth 2 L + d - 1) L = d := by
  have hC : daysBeforeMonth 2 L = 31 := by norm_num [daysBeforeMonth]
  have hD : daysInMonth 2 L = 28 + L := by norm_num [daysInMonth]
  rw [hD] at h4
  rw [hC]
  have hm : monthFromDwy (31 + d - 1) L = 2 := by
    rcases monthFromDwy_cases (31 + d - 1) L with ⟨hm, hr⟩ | ⟨hm, hr⟩ | ⟨hm, hr⟩ | ⟨hm, hr⟩ | ⟨hm, hr⟩ | ⟨hm, hr⟩ | ⟨hm, hr⟩ | ⟨hm, hr⟩ | ⟨hm, hr⟩ | ⟨hm, hr⟩ | ⟨hm, hr⟩ | ⟨hm, hr⟩ <;> omega
  refine ⟨hm, ?_⟩
  rw [dateFromDwy, hm, hC]
  omega


theorem monthRecoverAux3 {d L : Int} (hL : L = 0 ∨ L = 1) (h3 : 1 ≤ d)
    (h4 : d ≤ daysInMonth 3 L) :
    monthFromDwy (daysBeforeMonth 3 L + d - 1) L = 3 ∧
    dateFromDwy (daysBeforeMonth 3 L + d - 1) L = d := by
  have hC : daysBeforeMonth 3 L = 59 + L := by norm_num [daysBeforeMonth]
  have hD : daysInMonth 3 L = 31 := by norm_num [daysInMonth]
  rw [hD] at h4
  rw [hC]
  have hm : monthFromDwy (59 + L + d - 1) L = 3 := by
    rcases monthFromDwy_cases (59 + L + d - 1) L with ⟨hm, hr⟩ | ⟨hm, hr⟩ | ⟨hm, hr⟩ | ⟨hm, hr⟩ | ⟨hm, hr⟩ | ⟨hm, hr⟩ | ⟨hm, hr⟩ | ⟨hm, hr⟩ | ⟨hm, hr⟩ | ⟨hm, hr⟩ | ⟨hm, hr⟩ | ⟨hm, hr⟩ <;> omega
  refine ⟨hm, ?_⟩
  rw [dateFromDwy, hm, hC]
  omega


theorem monthRecoverAux4 {d L : Int} (hL : L = 0 ∨ L = 1) (h3 : 1 ≤ d)
    (h4 : d ≤ daysInMonth 4 L) :
    monthFromDwy (daysBeforeMonth 4 L + d - 1) L = 4 ∧
    dateFromDwy (daysBeforeMonth 4 L + d - 1) L = d := by
  have hC : daysBeforeMonth 4 L = 90 + L := by norm_num [daysBeforeMonth]
  have hD : daysInMonth 4 L = 30 := by norm_num [daysInMonth]
  rw [hD] at h4
  rw [hC]
  have hm : monthFromDwy (90 + L + d - 1) L = 4 := by
    rcases monthFromDwy_cases (90 + L + d - 1) L with ⟨hm, hr⟩ | ⟨hm, hr⟩ | ⟨hm, hr⟩ | ⟨hm, hr⟩ | ⟨hm, hr⟩ | ⟨hm, hr⟩ | ⟨hm, hr⟩ | ⟨hm, hr⟩ | ⟨hm, hr⟩ | ⟨hm, hr⟩ | ⟨hm, hr⟩ | ⟨hm, hr⟩ <;> omega
  refine ⟨hm, ?_⟩
  rw [dateFromDwy, hm, hC]
  omega


theorem monthRecoverAux5 {d L : Int} (hL : L = 0 ∨ L = 1) (h3 : 1 ≤ d)
    (h4 : d ≤ daysInMonth 5 L) :
    monthFromDwy (daysBeforeMonth 5 L + d - 1) L = 5 ∧
    dateFromDwy (daysBeforeMonth 5 L + d - 1) L = d := by
  have hC : daysBeforeMonth 5 L = 120 + L := by norm_num [daysBeforeMonth]
  have hD : daysInMonth 5 L = 31 := by norm_num [daysInMonth]
  rw [hD] at h4
  rw [hC]
  have hm : monthFromDwy (120 + L + d - 1) L = 5 := by
    rcases monthFromDwy_cases (120 + L + d - 1) L with ⟨hm, hr⟩ | ⟨hm, hr⟩ | ⟨hm, hr⟩ | ⟨hm, hr⟩ | ⟨hm, hr⟩ | ⟨hm, hr⟩ | ⟨hm, hr⟩ | ⟨hm, hr⟩ | ⟨hm, hr⟩ | ⟨hm, hr⟩ | ⟨hm, hr⟩ | ⟨hm, hr⟩ <;> omega
  refine ⟨hm, ?_⟩
  rw [dateFromDwy, hm, hC]
  omega


theorem monthRecoverAux6 {d L : Int} (hL : L = 0 ∨ L = 1) (h3 : 1 ≤ d)
    (h4 : d ≤ daysInMonth 6 L) :
    monthFromDwy (daysBeforeMonth 6 L + d - 1) L = 6 ∧
    dateFromDwy (daysBeforeMonth 6 L + d - 1) L = d := by
  have hC : daysBeforeMonth 6 L = 151 + L := by norm_num [daysBeforeMonth]
  have hD : daysInMonth 6 L = 30 := by norm_num [daysInMonth]
  rw [hD] at h4
  rw [hC]
  have hm : monthFromDwy (151 + L + d - 1) L = 6 := by
    rcases monthFromDwy_cases (151 + L + d - 1) L with ⟨hm, hr⟩ | ⟨hm, hr⟩ | ⟨hm, hr⟩ | ⟨hm, hr⟩ | ⟨hm, hr⟩ | ⟨hm, hr⟩ | ⟨hm, hr⟩ | ⟨hm, hr⟩ | ⟨hm, hr⟩ | ⟨hm, hr⟩ | ⟨hm, hr⟩ | ⟨hm, hr⟩ <;> omega
  refine ⟨hm, ?_⟩
  rw [dateFromDwy, hm, hC]
  omega


theorem monthRecoverAux7 {d L : Int} (hL : L = 0 ∨ L = 1) (h3 : 1 ≤ d)
    (h4 : d ≤ daysInMonth 7 L) :
    monthFromDwy (daysBeforeMonth 7 L + d - 1) L = 7 ∧
    dateFromDwy (daysBeforeMonth 7 L + d - 1) L = d := by
  have hC : daysBeforeMonth 7 L = 181 + L := by norm_num [daysBeforeMonth]
  have hD : daysInMonth 7 L = 31 := by norm_num [daysInMonth]
  rw [hD] at h4
  rw [hC]
  have hm : monthFromDwy (181 + L + d - 1) L = 7 := by
    rcases monthFromDwy_cases (181 + L + d - 1) L with ⟨hm, hr⟩ | ⟨hm, hr⟩ | ⟨hm, hr⟩ | ⟨hm, hr⟩ | ⟨hm, hr⟩ | ⟨hm, hr⟩ | ⟨hm, hr⟩ | ⟨hm, hr⟩ | ⟨hm, hr⟩ | ⟨hm, hr⟩ | ⟨hm, hr⟩ | ⟨hm, hr⟩ <;> omega
  refine ⟨hm, ?_⟩
  rw [dateFromDwy, hm, hC]
  omega


theorem monthRecoverAux8 {d L : Int} (hL : L = 0 ∨ L = 1) (h3 : 1 ≤ d)
    (h4 : d ≤ daysInMonth 8 L) :
    monthFromDwy (daysBeforeMonth 8 L + d - 1) L = 8 ∧
    dateFromDwy (daysBeforeMonth 8 L + d - 1) L = d := by
  have hC : daysBeforeMonth 8 L = 212 + L := by norm_num [daysBeforeMonth]
  have hD : daysInMonth 8 L = 31 := by norm_num [daysInMonth]
  rw [hD] at h4
  rw [hC]
  have hm : monthFromDwy (212 + L + d - 1) L = 8 := by
    rcases monthFromDwy_cases (212 + L + d - 1) L with ⟨hm, hr⟩ | ⟨hm, hr⟩ | ⟨hm, hr⟩ | ⟨hm, hr⟩ | ⟨hm, hr⟩ | ⟨hm, hr⟩ | ⟨hm, hr⟩ | ⟨hm, hr⟩ | ⟨hm, hr⟩ | ⟨hm, hr⟩ | ⟨hm, hr⟩ | ⟨hm, hr⟩ <;> omega
  refine ⟨hm, ?_⟩
  rw [dateFromDwy, hm, hC]
  omega


theorem monthRecoverAux9 {d L : Int} (hL : L = 0 ∨ L = 1) (h3 : 1 ≤ d)
    (h4 : d ≤ daysInMonth 9 L) :
    monthFromDwy (daysBeforeMonth 9 L + d - 1) L = 9 ∧
    dateFromDwy (daysBeforeMonth 9 L + d - 1) L = d := by
  have hC : daysBeforeMonth 9 L = 243 + L := by norm_num [daysBeforeMonth]
  have hD : daysInMonth 9 L = 30 := by norm_num [daysInMonth]
  rw [hD] at h4
  rw [hC]
  have hm : monthFromDwy (243 + L + d - 1) L = 9 := by
    rcases monthFromDwy_cases (243 + L + d - 1) L with ⟨hm, hr⟩ | ⟨hm, hr⟩ | ⟨hm, hr⟩ | ⟨hm, hr⟩ | ⟨hm, hr⟩ | ⟨hm, hr⟩ | ⟨hm, hr⟩ | ⟨hm, hr⟩ | ⟨hm, hr⟩ | ⟨hm, hr⟩ | ⟨hm, hr⟩ | ⟨hm, hr⟩ <;> omega
  refine ⟨hm, ?_⟩
  rw [dateFromDwy, hm, hC]
  omega


theorem monthRecoverAux10 {d L : Int} (hL : L = 0 ∨ L = 1) (h3 : 1 ≤ d)
    (h4 : d ≤ daysInMonth 10 L) :
    monthFromDwy (daysBeforeMonth 10 L + d - 1) L = 10 ∧
    dateFromDwy (daysBeforeMonth 10 L + d - 1) L = d := by
  have hC : daysBeforeMonth 10 L = 273 + L := by norm_num [daysBeforeMonth]
  have hD : daysInMonth 10 L = 31 := by norm_num [daysInMonth]
  rw [hD] at h4
  rw [hC]
  have hm : monthFromDwy (273 + L + d - 1) L = 10 := by
    rcases monthFromDwy_cases (273 + L + d - 1) L with ⟨hm, hr⟩ | ⟨hm, hr⟩ | ⟨hm, hr⟩ | ⟨hm, hr⟩ | ⟨hm, hr⟩ | ⟨hm, hr⟩ | ⟨hm, hr⟩ | ⟨hm, hr⟩ | ⟨hm, hr⟩ | ⟨hm, hr⟩ | ⟨hm, hr⟩ | ⟨hm, hr⟩ <;> omega
  refine ⟨hm, ?_⟩
  rw [dateFromDwy, hm, hC]
  omega


theorem monthRecoverAux11 {d L : Int} (hL : L = 0 ∨ L = 1) (h3 : 1 ≤ d)
    (h4 : d ≤ daysInMonth 11 L) :
    monthFromDwy (daysBeforeMonth 11 L + d - 1) L = 11 ∧
    dateFromDwy (daysBeforeMonth 11 L + d - 1) L = d := by
  have hC : daysBeforeMonth 11 L = 304 + L := by norm_num [daysBeforeMonth]
  have hD : daysInMonth 11 L = 30 := by norm_num [daysInMonth]
  rw [hD] at h4
  rw [hC]
  have hm : monthFromDwy (304 + L + d - 1) L = 11 := by
    rcases monthFromDwy_cases (304 + L + d - 1) L with ⟨hm, hr⟩ | ⟨hm, hr⟩ | ⟨hm, hr⟩ | ⟨hm, hr⟩ | ⟨hm, hr⟩ | ⟨hm, hr⟩ | ⟨hm, hr⟩ | ⟨hm, hr⟩ | ⟨hm, hr⟩ | ⟨hm, hr⟩ | ⟨hm, hr⟩ | ⟨hm, hr⟩ <;> omega
  refine ⟨hm, ?_⟩
  rw [dateFromDwy, hm, hC]
  omega


theorem monthRecoverAux12 {d L : Int} (hL : L = 0 ∨ L = 1) (h3 : 1 ≤ d)
    (h4 : d ≤ daysInMonth 12 L) :
    monthFromDwy (daysBeforeMonth 12 L + d - 1) L = 12 ∧
    dateFromDwy (daysBeforeMonth 12 L + d - 1) L = d := by
  have hC : daysBeforeMonth 12 L = 334 + L := by norm_num [daysBeforeMonth]
  have hD : daysInMonth 12 L = 31 := by norm_num [daysInMonth]
  rw [hD] at h4
  rw [hC]
  have hm : monthFromDwy (334 + L + d - 1) L = 12 := by
    rcases monthFromDwy_cases (334 + L + d - 1) L with ⟨hm, hr⟩ | ⟨hm, hr⟩ | ⟨hm, hr⟩ | ⟨hm, hr⟩ | ⟨hm, hr⟩ | ⟨hm, hr⟩ | ⟨hm, hr⟩ | ⟨hm, hr⟩ | ⟨hm, hr⟩ | ⟨hm, hr⟩ | ⟨hm, hr⟩ | ⟨hm, hr⟩ <;> omega
  refine ⟨hm, ?_⟩
  rw [dateFromDwy, hm, hC]
  omega


theorem month_recover {m d L : Int} (hL : L = 0 ∨ L = 1) (h1 : 1 ≤ m) (h2 : m ≤ 12)
    (h3 : 1 ≤ d) (h4 : d ≤ daysInMonth m L) :
    monthFromDwy (daysBeforeMonth m L + d - 1) L = m ∧
    dateFromDwy (daysBeforeMonth m L + d - 1) L = d := by
  interval_cases m
  exacts [monthRecoverAux1 hL h3 h4, monthRecoverAux2 hL h3 h4, monthRecoverAux3 hL h3 h4,
    monthRecoverAux4 hL h3 h4, monthRecoverAux5 hL h3 h4, monthRecoverAux6 hL h3 h4,
    monthRecoverAux7 hL h3 h4, monthRecoverAux8 hL h3 h4, monthRecoverAux9 hL h3 h4,
    monthRecoverAux10 hL h3 h4, monthRecoverAux11 hL h3 h4, monthRecoverAux12 hL h3 h4]

set_option maxHeartbeats 1600000 in
theorem dwy_decomp {dwy L : Int} (hL : L = 0 ∨ L = 1) (h1 : 0 ≤ dwy)
    (h2 : dwy < 365 + L) :
    1 ≤ monthFromDwy dwy L ∧ monthFromDwy dwy L ≤ 12 ∧
    1 ≤ dateFromDwy dwy L ∧ dateFromDwy dwy L ≤ daysInMonth (monthFromDwy dwy L) L ∧
    daysBeforeMonth (monthFromDwy dwy L) L + dateFromDwy dwy L - 1 = dwy := by
  rcases monthFromDwy_cases dwy L with ⟨hm, hr⟩ | ⟨hm, hr⟩ | ⟨hm, hr⟩ | ⟨hm, hr⟩ | ⟨hm, hr⟩ | ⟨hm, hr⟩ | ⟨hm, hr⟩ | ⟨hm, hr⟩ | ⟨hm, hr⟩ | ⟨hm, hr⟩ | ⟨hm, hr⟩ | ⟨hm, hr⟩ <;>
    rw [dateFromDwy, hm] <;> norm_num [daysBeforeMonth, daysInMonth] <;> omega

/-! ## Round-trip properties of the timestamp codec -/

theorem leapDays_cases (y : Int) : leapDays y = 0 ∨ leapDays y = 1 := by
  rw [leapDays]; split <;> simp

theorem makeDay_canonical (y m d : Int) (h1 : 1 ≤ m) (h2 : m ≤ 12) :
    makeDay y (m - 1) d = dayFromYear y + daysBeforeMonth m (leapDays y) + d - 1 := by
  simp only [makeDay]
  have e1 : (m - 1) / 12 = 0 := by omega
  have e2 : (m - 1) % 12 = m - 1 := by omega
  rw [e1, e2]
  norm_num

set_option maxHeartbeats 1600000 in
theorem dbm_dim_bound (m L : Int) (h1 : 1 ≤ m) (h2 : m ≤ 12) (hL : L = 0 ∨ L = 1) :
    0 ≤ daysBeforeMonth m L ∧ daysBeforeMonth m L + daysInMonth m L ≤ 365 + L := by
  have hv := daysBeforeMonth_val L
  have hdim := daysInMonth_val L
  interval_cases m <;> omega

theorem yearFromDay_ge {x day : Int} (h : dayFromYear x ≤ day) : x ≤ yearFromDay day := by
  have hs := yearFromDay_spec day
  by_contra hc
  have : dayFromYear (yearFromDay day + 1) ≤ dayFromYear x := dayFromYear_mono (by omega)
  omega

theorem utc_fields_of_canonical (y m d h mi s t : Int)
    (ht : t = makeDay y (m - 1) d * 86400 + (h * 3600 + mi * 60 + s))
    (hm : 1 ≤ m ∧ m ≤ 12) (hd : 1 ≤ d ∧ d ≤ daysInMonth m (leapDays y))
    (hh : 0 ≤ h ∧ h ≤ 23) (hmi : 0 ≤ mi ∧ mi ≤ 59) (hs : 0 ≤ s ∧ s ≤ 59) :
    getUTCFullYear t = y ∧ getUTCMonth1 t = m ∧ getUTCDate t = d ∧
    getUTCHours t = h ∧ getUTCMinutes t = mi ∧ getUTCSeconds t = s := by
  have hL := leapDays_cases y
  have hmd := makeDay_canonical y m d hm.1 hm.2
  have hbb := dbm_dim_bound m (leapDays y) hm.1 hm.2 hL
  have hstep := dayFromYear_step y
  have hday : jsDay t = dayFromYear y + (daysBeforeMonth m (leapDays y) + d - 1) := by
    rw [jsDay, ht, hmd]; omega
  have hyear : getUTCFullYear t = y := by
    rw [getUTCFullYear, hday]
    exact yearFromDay_uniq (by omega) (by omega)
  have hmr := month_recover (m := m) (d := d) (L := leapDays y) hL hm.1 hm.2 hd.1 hd.2
  have harg : jsDay t - dayFromYear (getUTCFullYear t) =
      daysBeforeMonth m (leapDays y) + d - 1 := by
    rw [hyear, hday]; ring
  refine ⟨hyear, ?_, ?_, ?_, ?_, ?_⟩
  · rw [getUTCMonth1, harg, hyear]; exact hmr.1
  · rw [getUTCDate, harg, hyear]; exact hmr.2
  · rw [getUTCHours, ht]; omega
  · rw [getUTCMinutes, ht]; omega
  · rw [getUTCSeconds, ht]; omega

theorem getUTC_time_ranges (t : Int) :
    0 ≤ getUTCHours t ∧ getUTCHours t ≤ 23 ∧ 0 ≤ getUTCMinutes t ∧ getUTCMinutes t ≤ 59 ∧
    0 ≤ getUTCSeconds t ∧ getUTCSeconds t ≤ 59 := by
  rw [getUTCHours, getUTCMinutes, getUTCSeconds]
  omega

theorem month_date_ranges (t : Int) :
    1 ≤ getUTCMonth1 t ∧ getUTCMonth1 t ≤ 12 ∧ 1 ≤ getUTCDate t ∧
    getUTCDate t ≤ daysInMonth (getUTCMonth1 t) (leapDays (getUTCFullYear t)) := by
  have hL := leapDays_cases (getUTCFullYear t)
  have hr := dwy_range (jsDay t)
  have hd := @dwy_decomp (jsDay t - dayFromYear (yearFromDay (jsDay t)))
    (leapDays (yearFromDay (jsDay t)))
    (by rw [getUTCFullYear] at hL; exact hL) (by omega) (by omega)
  rw [getUTCMonth1, getUTCDate, getUTCFullYear]
  rw [getUTCFullYear] at hL
  exact ⟨hd.1, hd.2.1, hd.2.2.1, hd.2.2.2.1⟩

set_option maxHeartbeats 1600000 in
theorem dbm_nonneg (mm L : Int) (h1 : 1 ≤ mm) (h2 : mm ≤ 12) (hL : 0 ≤ L) :
    0 ≤ daysBeforeMonth mm L := by
  have hv := daysBeforeMonth_val L
  interval_cases mm <;> omega

theorem getUTCFullYear_lower (Y mo d h mi s t : Int)
    (ht : t = makeDay Y (mo - 1) d * 86400 + (h * 3600 + mi * 60 + s))
    (hmo : 0 ≤ mo ∧ mo ≤ 99) (hd : 0 ≤ d ∧ d ≤ 99) (hh : 0 ≤ h ∧ h ≤ 99)
    (hmi : 0 ≤ mi ∧ mi ≤ 99) (hs : 0 ≤ s ∧ s ≤ 99) :
    Y - 2 ≤ getUTCFullYear t := by
  have hA : makeDay Y (mo - 1) d =
      dayFromYear (Y + (mo - 1) / 12) +
        daysBeforeMonth ((mo - 1) % 12 + 1) (leapDays (Y + (mo - 1) / 12)) + d - 1 := rfl
  have hym : Y - 1 ≤ Y + (mo - 1) / 12 := by omega
  have hmono : dayFromYear (Y - 1) ≤ dayFromYear (Y + (mo - 1) / 12) := dayFromYear_mono hym
  have hL1 := leapDays_cases (Y + (mo - 1) / 12)
  have hL2 := leapDays_cases (Y - 2)
  have hdbm : 0 ≤ daysBeforeMonth ((mo - 1) % 12 + 1) (leapDays (Y + (mo - 1) / 12)) :=
    dbm_nonneg _ _ (by omega) (by omega) (by omega)
  have hstep : dayFromYear (Y - 1) = dayFromYear (Y - 2) + 365 + leapDays (Y - 2) := by
    have h := dayFromYear_step (Y - 2)
    rwa [show Y - 2 + 1 = Y - 1 from by ring] at h
  have hjs : dayFromYear (Y - 2) ≤ jsDay t := by
    rw [jsDay, ht, hA]; omega
  have := yearFromDay_ge hjs
  rw [getUTCFullYear]
  omega

theorem digit_toNat {c : Char} (h : c.isDigit = true) : 48 ≤ c.toNat ∧ c.toNat ≤ 57 := by
  simp only [Char.isDigit, Bool.and_eq_true, decide_eq_true_eq, ge_iff_le] at h
  exact ⟨h.1, h.2⟩

theorem digitsVal_two (a b : Char) :
    digitsVal [a, b] = 10 * (a.toNat - 48) + (b.toNat - 48) := by
  simp [digitsVal]

theorem digitsVal_four (a b c d : Char) :
    digitsVal [a, b, c, d] =
      10 * (10 * (10 * (a.toNat - 48) + (b.toNat - 48)) + (c.toNat - 48)) + (d.toNat - 48) := by
  simp [digitsVal]

/-- Destructuring of a successful `matchTimestamp`. -/
theorem matchTimestamp_some {cs : List Char} {y mo d h mi sec : Nat}
    (hm : matchTimestamp cs = some (y, mo, d, h, mi, sec)) :
    ∃ y1 y2 y3 y4 m1 m2 d1 d2 e1 e2 n1 n2 s1 s2 : Char,
      cs = [y1, y2, y3, y4, '-', m1, m2, '-', d1, d2, ' ', e1, e2, ':', n1, n2, ':', s1, s2] ∧
      y1.isDigit ∧ y2.isDigit ∧ y3.isDigit ∧ y4.isDigit ∧ m1.isDigit ∧ m2.isDigit ∧
      d1.isDigit ∧ d2.isDigit ∧ e1.isDigit ∧ e2.isDigit ∧ n1.isDigit ∧ n2.isDigit ∧
      s1.isDigit ∧ s2.isDigit ∧
      y = digitsVal [y1, y2, y3, y4] ∧ mo = digitsVal [m1, m2] ∧ d = digitsVal [d1, d2] ∧
      h = digitsVal [e1, e2] ∧ mi = digitsVal [n1, n2] ∧ sec = digitsVal [s1, s2] := by
  rw [matchTimestamp.eq_def] at hm
  split at hm
  all_goals try exact Option.noConfusion hm
  rename_i y1 y2 y3 y4 m1 m2 d1 d2 e1 e2 n1 n2 s1 s2
  split_ifs at hm with hdig
  · obtain ⟨h1, h2, h3, h4, h5, h6, h7, h8, h9, h10, h11, h12, h13, h14⟩ := hdig
    injection hm with hm
    simp only [Prod.mk.injEq] at hm
    obtain ⟨hy, hmo, hd, hh, hmi, hsec⟩ := hm
    exact ⟨y1, y2, y3, y4, m1, m2, d1, d2, e1, e2, n1, n2, s1, s2, rfl,
      h1, h2, h3, h4, h5, h6, h7, h8, h9, h10, h11, h12, h13, h14,
      hy.symm, hmo.symm, hd.symm, hh.symm, hmi.symm, hsec.symm⟩

/-- Field bounds from a successful `matchTimestamp`. -/
theorem matchTimestamp_bounds {cs : List Char} {y mo d h mi sec : Nat}
    (hm : matchTimestamp cs = some (y, mo, d, h, mi, sec)) :
    y ≤ 9999 ∧ mo ≤ 99 ∧ d ≤ 99 ∧ h ≤ 99 ∧ mi ≤ 99 ∧ sec ≤ 99 := by
  obtain ⟨y1, y2, y3, y4, m1, m2, d1, d2, e1, e2, n1, n2, s1, s2, hcs,
    q1, q2, q3, q4, q5, q6, q7, q8, q9, q10, q11, q12, q13, q14,
    hy, hmo, hd, hh, hmi, hsec⟩ := matchTimestamp_some hm
  have b1 := digit_toNat q1; have b2 := digit_toNat q2
  have b3 := digit_toNat q3; have b4 := digit_toNat q4
  have b5 := digit_toNat q5; have b6 := digit_toNat q6
  have b7 := digit_toNat q7; have b8 := digit_toNat q8
  have b9 := digit_toNat q9; have b10 := digit_toNat q10
  have b11 := digit_toNat q11; have b12 := digit_toNat q12
  have b13 := digit_toNat q13; have b14 := digit_toNat q14
  subst hy hmo hd hh hmi hsec
  rw [digitsVal_four, digitsVal_two, digitsVal_two, digitsVal_two, digitsVal_two, digitsVal_two]
  omega

/-- Unfolding of `dateUTC` when the year is not remapped. -/
theorem dateUTC_of_ge_100 (y m d h mi s : Int) (hy : 100 ≤ y) :
    dateUTC y m d h mi s = makeDay y m d * 86400 + (h * 3600 + mi * 60 + s) := by
  rw [dateUTC]
  rw [if_neg (by omega)]

/-- Unfolding of `dateUTC` under the two-digit-year rule. -/
theorem dateUTC_of_le_99 (y m d h mi s : Int) (hy : 0 ≤ y ∧ y ≤ 99) :
    dateUTC y m d h mi s = makeDay (1900 + y) m d * 86400 + (h * 3600 + mi * 60 + s) := by
  rw [dateUTC]
  rw [if_pos hy]

set_option maxHeartbeats 1600000 in
theorem parseTimestamp_spec_aux (s fieldName : String) (e : Int) :
    parseTimestampToEpochSeconds (.str s) fieldName = .ok e ↔
      ∃ y mo d h mi sec : Nat,
        matchTimestamp (jsTrim s).toList = some (y, mo, d, h, mi, sec) ∧
        100 ≤ y ∧ 1 ≤ mo ∧ mo ≤ 12 ∧ 1 ≤ d ∧
        (d : Int) ≤ daysInMonth (mo : Int) (leapDays (y : Int)) ∧
        h ≤ 23 ∧ mi ≤ 59 ∧ sec ≤ 59 ∧
        e = makeDay (y : Int) ((mo : Int) - 1) (d : Int) * 86400 +
          ((h : Int) * 3600 + (mi : Int) * 60 + (sec : Int)) - IST_OFFSET_SECONDS := by
  cases hmt : matchTimestamp (jsTrim s).toList with
  | none =>
      simp only [parseTimestampToEpochSeconds, hmt]
      constructor
      · intro hcon; exact Except.noConfusion hcon
      · rintro ⟨y, mo, d, h, mi, sec, hsome, -⟩; exact Option.noConfusion hsome
  | some tup =>
      obtain ⟨y, mo, d, h, mi, sec⟩ := tup
      obtain ⟨hb1, hb2, hb3, hb4, hb5, hb6⟩ := matchTimestamp_bounds hmt
      simp only [parseTimestampToEpochSeconds, hmt]
      by_cases hc : getUTCFullYear (dateUTC (y : Int) ((mo : Int) - 1) (d : Int) (h : Int)
            (mi : Int) (sec : Int)) = (y : Int) ∧
          getUTCMonth1 (dateUTC (y : Int) ((mo : Int) - 1) (d : Int) (h : Int)
            (mi : Int) (sec : Int)) = (mo : Int) ∧
          getUTCDate (dateUTC (y : Int) ((mo : Int) - 1) (d : Int) (h : Int)
            (mi : Int) (sec : Int)) = (d : Int) ∧
          getUTCHours (dateUTC (y : Int) ((mo : Int) - 1) (d : Int) (h : Int)
            (mi : Int) (sec : Int)) = (h : Int) ∧
          getUTCMinutes (dateUTC (y : Int) ((mo : Int) - 1) (d : Int) (h : Int)
            (mi : Int) (sec : Int)) = (mi : Int) ∧
          getUTCSeconds (dateUTC (y : Int) ((mo : Int) - 1) (d : Int) (h : Int)
            (mi : Int) (sec : Int)) = (sec : Int)
      · rw [if_pos hc]
        obtain ⟨gy, gmo, gd, gh, gmi, gs⟩ := hc
        -- the accepted fields are canonical
        have hy100 : 100 ≤ y := by
          by_contra hylt
          have hle : (0 : Int) ≤ (y : Int) ∧ (y : Int) ≤ 99 := by
            constructor
            · positivity
            · exact_mod_cast by omega
          have hdU := dateUTC_of_le_99 (y : Int) ((mo : Int) - 1) (d : Int) (h : Int)
            (mi : Int) (sec : Int) hle
          have hlow := getUTCFullYear_lower (1900 + (y : Int)) (mo : Int) (d : Int) (h : Int)
            (mi : Int) (sec : Int) _ (by rw [← hdU])
            (by constructor <;> [positivity; exact_mod_cast hb2])
            (by constructor <;> [positivity; exact_mod_cast hb3])
            (by constructor <;> [positivity; exact_mod_cast hb4])
            (by constructor <;> [positivity; exact_mod_cast hb5])
            (by constructor <;> [positivity; exact_mod_cast hb6])
          rw [gy] at hlow
          have : (y : Int) ≤ 99 := hle.2
          omega
        have hdU := dateUTC_of_ge_100 (y : Int) ((mo : Int) - 1) (d : Int) (h : Int)
          (mi : Int) (sec : Int) (by exact_mod_cast hy100)
        have hmd := month_date_ranges (dateUTC (y : Int) ((mo : Int) - 1) (d : Int) (h : Int)
          (mi : Int) (sec : Int))
        have htm := getUTC_time_ranges (dateUTC (y : Int) ((mo : Int) - 1) (d : Int) (h : Int)
          (mi : Int) (sec : Int))
        rw [gmo, gd, gy] at hmd
        rw [gh, gmi, gs] at htm
        constructor
        · intro hok
          injection hok with hok
          refine ⟨y, mo, d, h, mi, sec, rfl, hy100, ?_, ?_, ?_, hmd.2.2.2, ?_, ?_, ?_, ?_⟩
          · exact_mod_cast hmd.1
          · exact_mod_cast hmd.2.1
          · exact_mod_cast hmd.2.2.1
          · exact_mod_cast htm.2.1
          · exact_mod_cast htm.2.2.2.1
          · exact_mod_cast htm.2.2.2.2.2
          · rw [← hok, hdU]
        · rintro ⟨y', mo', d', h', mi', sec', hsome, -, -, -, -, -, -, -, -, he⟩
          injection hsome with hsome
          simp only [Prod.mk.injEq] at hsome
          obtain ⟨e1, e2, e3, e4, e5, e6⟩ := hsome
          subst e1 e2 e3 e4 e5 e6
          rw [he, hdU]
      · rw [if_neg hc]
        constructor
        · intro hcon; exact Except.noConfusion hcon
        · rintro ⟨y', mo', d', h', mi', sec', hsome, hy100, hmo1, hmo12, hd1, hdim, hh23,
            hmi59, hs59, he⟩
          injection hsome with hsome
          simp only [Prod.mk.injEq] at hsome
          obtain ⟨e1, e2, e3, e4, e5, e6⟩ := hsome
          subst e1 e2 e3 e4 e5 e6
          exfalso
          apply hc
          have hdU := dateUTC_of_ge_100 (y : Int) ((mo : Int) - 1) (d : Int) (h : Int)
            (mi : Int) (sec : Int) (by exact_mod_cast hy100)
          exact utc_fields_of_canonical (y : Int) (mo : Int) (d : Int) (h : Int) (mi : Int)
            (sec : Int) _ hdU
            (⟨by exact_mod_cast hmo1, by exact_mod_cast hmo12⟩)
            (⟨by exact_mod_cast hd1, hdim⟩)
            (⟨by positivity, by exact_mod_cast hh23⟩)
            (⟨by positivity, by exact_mod_cast hmi59⟩)
            (⟨by positivity, by exact_mod_cast hs59⟩)

/-- C6 counterexample: the claim says the parser throws exactly when
the text does not exactly match the fixed pattern; the text with a
leading space does not match the pattern, yet the parser trims and
accepts it. -/
theorem parseTimestamp_claim_cex :
    matchTimestamp (" 2023-02-03 04:05:06").toList = none ∧
    parseTimestampToEpochSeconds (.str " 2023-02-03 04:05:06") "timestamp" =
      .ok 1675377306 := by
  constructor <;> decide

/-- C7 counterexample: the claim says format(parse(T)) == T for every
accepted text T; the text 0999-12-31 23:59:59 is accepted, but the
formatter does not zero-pad the year to four digits, so the round trip
drops the leading zero. -/
theorem formatParse_claim_cex :
    parseTimestampToEpochSeconds (.str "0999-12-31 23:59:59") "timestamp" =
      .ok (-30610243801) ∧
    formatEpochSecondsToTimestamp (-30610243801) = "999-12-31 23:59:59" := by
  constructor <;> decide

theorem char_eq_of_toNat {c d : Char} (h : c.toNat = d.toNat) : c = d :=
  Char.ext (UInt32.ext h)

theorem digitChar_toNat {c : Char} (hd : c.isDigit = true) :
    Nat.digitChar (c.toNat - 48) = c := by
  have hb := digit_toNat hd
  have h10 : c.toNat - 48 = 0 ∨ c.toNat - 48 = 1 ∨ c.toNat - 48 = 2 ∨ c.toNat - 48 = 3 ∨
      c.toNat - 48 = 4 ∨ c.toNat - 48 = 5 ∨ c.toNat - 48 = 6 ∨ c.toNat - 48 = 7 ∨
      c.toNat - 48 = 8 ∨ c.toNat - 48 = 9 := by omega
  rcases h10 with h | h | h | h | h | h | h | h | h | h <;>
    rw [h] <;> exact char_eq_of_toNat (by simp [Nat.digitChar]; omega)

theorem natToDigitsCore_eq {n : Nat} : ∀ {f1 f2 : Nat}, n < f1 → n < f2 →
    natToDigitsCore f1 n = natToDigitsCore f2 n := by
  induction n using Nat.strong_induction_on with
  | _ n ih =>
      intro f1 f2 h1 h2
      match f1, f2 with
      | a + 1, b + 1 =>
        rw [natToDigitsCore, natToDigitsCore]
        by_cases h10 : n < 10
        · rw [if_pos h10, if_pos h10]
        · rw [if_neg h10, if_neg h10]
          have hlt : n / 10 < n := Nat.div_lt_self (by omega) (by omega)
          have hrec := ih (n / 10) hlt (show n / 10 < a by omega) (show n / 10 < b by omega)
          rw [hrec]

theorem natToDigits_lt {n : Nat} (h : n < 10) : natToDigits n = [Nat.digitChar n] := by
  rw [natToDigits, natToDigitsCore, if_pos h]

theorem natToDigits_ge {n : Nat} (h : 10 ≤ n) :
    natToDigits n = natToDigits (n / 10) ++ [Nat.digitChar (n % 10)] := by
  rw [natToDigits, natToDigitsCore, if_neg (by omega)]
  rw [natToDigitsCore_eq (Nat.lt_of_lt_of_le (Nat.div_lt_self (by omega) (by omega)) (by omega))
    (Nat.lt_succ_self _), ← natToDigits]

theorem natToDigits_two {n : Nat} (h1 : 10 ≤ n) (h2 : n ≤ 99) :
    natToDigits n = [Nat.digitChar (n / 10), Nat.digitChar (n % 10)] := by
  rw [natToDigits_ge h1, natToDigits_lt (by omega)]
  rfl

theorem natToDigits_four {n : Nat} (h1 : 1000 ≤ n) (h2 : n ≤ 9999) :
    natToDigits n = [Nat.digitChar (n / 1000), Nat.digitChar (n / 100 % 10),
      Nat.digitChar (n / 10 % 10), Nat.digitChar (n % 10)] := by
  rw [natToDigits_ge (by omega), natToDigits_ge (show 10 ≤ n / 10 by omega),
    natToDigits_ge (show 10 ≤ n / 10 / 10 by omega),
    natToDigits_lt (show n / 10 / 10 / 10 < 10 by omega)]
  have e1 : n / 10 / 10 / 10 = n / 1000 := by omega
  have e2 : n / 10 / 10 % 10 = n / 100 % 10 := by omega
  rw [e1, e2]
  rfl

theorem jsIntToString_ofNat (n : Nat) : jsIntToString (n : Int) = String.mk (natToDigits n) := by
  rw [jsIntToString, if_neg (by omega)]
  rw [Int.natAbs_ofNat]
  rfl

theorem padTwo_render {v : Int} (h0 : 0 ≤ v) (h99 : v ≤ 99) :
    padStartTwo (jsIntToString v) =
      String.mk [Nat.digitChar (v.toNat / 10), Nat.digitChar (v.toNat % 10)] := by
  obtain ⟨n, rfl⟩ : ∃ n : Nat, v = (n : Int) := ⟨v.toNat, (Int.toNat_of_nonneg h0).symm⟩
  rw [jsIntToString_ofNat, Int.toNat_ofNat]
  by_cases hn : n < 10
  · rw [natToDigits_lt hn]
    have : n / 10 = 0 := by omega
    rw [this]
    have hm : n % 10 = n := by omega
    rw [hm]
    rfl
  · rw [natToDigits_two (by omega) (by omega)]
    rfl

set_option maxHeartbeats 1600000 in
/-- C7 (amended): format(parse(T)) == T for every accepted text T that
equals its own trim and does not start with a zero digit (i.e. whose
year is at least 1000).  Accepted texts with surrounding whitespace or
a year below 1000 are parsed after trimming while the formatter emits
the trimmed text with an unpadded year, so those round trips differ. -/
theorem format_parse_aux (s fieldName : String) (e : Int)
    (hok : parseTimestampToEpochSeconds (.str s) fieldName = .ok e)
    (htrim : jsTrim s = s) (hzero : s.data.head? ≠ some '0') :
    formatEpochSecondsToTimestamp e = s := by
  obtain ⟨y, mo, d, h, mi, sec, hmt, hy100, hmo1, hmo12, hd1, hdim, hh23, hmi59, hs59, he⟩ :=
    (parseTimestamp_spec_aux s fieldName e).mp hok
  rw [htrim] at hmt
  obtain ⟨y1, y2, y3, y4, m1, m2, d1, d2, r1, r2, n1, n2, s1, s2, hcs,
    q1, q2, q3, q4, q5, q6, q7, q8, q9, q10, q11, q12, q13, q14,
    hy, hmo, hd, hh, hmi, hsec⟩ := matchTimestamp_some hmt
  have hsdata : s.data =
      [y1, y2, y3, y4, '-', m1, m2, '-', d1, d2, ' ', r1, r2, ':', n1, n2, ':', s1, s2] := hcs
  have b1 := digit_toNat q1; have b2 := digit_toNat q2
  have b3 := digit_toNat q3; have b4 := digit_toNat q4
  have b5 := digit_toNat q5; have b6 := digit_toNat q6
  have b7 := digit_toNat q7; have b8 := digit_toNat q8
  have b9 := digit_toNat q9; have b10 := digit_toNat q10
  have b11 := digit_toNat q11; have b12 := digit_toNat q12
  have b13 := digit_toNat q13; have b14 := digit_toNat q14
  rw [digitsVal_four] at hy
  rw [digitsVal_two] at hmo hd hh hmi hsec
  have hy1 : y1 ≠ '0' := by
    intro hcon
    apply hzero
    rw [hsdata, hcon]
    rfl
  have hy1n : 49 ≤ y1.toNat := by
    rcases Nat.lt_or_ge y1.toNat 49 with hlt | hge
    · exfalso
      apply hy1
      apply char_eq_of_toNat
      have h0 : ('0' : Char).toNat = 48 := rfl
      omega
    · exact hge
  have hy1000 : 1000 ≤ y := by omega
  have hy9999 : y ≤ 9999 := by omega
  have hloc : e + IST_OFFSET_SECONDS = makeDay (y : Int) ((mo : Int) - 1) (d : Int) * 86400 +
      ((h : Int) * 3600 + (mi : Int) * 60 + (sec : Int)) := by
    rw [he]; ring
  have hr := utc_fields_of_canonical (y : Int) (mo : Int) (d : Int) (h : Int) (mi : Int)
    (sec : Int) (e + IST_OFFSET_SECONDS) hloc
    ⟨by exact_mod_cast hmo1, by exact_mod_cast hmo12⟩
    ⟨by exact_mod_cast hd1, hdim⟩
    ⟨by positivity, by exact_mod_cast hh23⟩
    ⟨by positivity, by exact_mod_cast hmi59⟩
    ⟨by positivity, by exact_mod_cast hs59⟩
  obtain ⟨ry, rmo, rd, rh, rmi, rs⟩ := hr
  rw [formatEpochSecondsToTimestamp]
  rw [ry, rmo, rd, rh, rmi, rs]
  rw [jsIntToString_ofNat y, natToDigits_four hy1000 hy9999]
  rw [padTwo_render (by positivity) (show (mo : Int) ≤ 99 by exact_mod_cast by omega)]
  rw [padTwo_render (by positivity) (show (d : Int) ≤ 99 by exact_mod_cast by omega)]
  rw [padTwo_render (by positivity) (show (h : Int) ≤ 99 by exact_mod_cast by omega)]
  rw [padTwo_render (by positivity) (show (mi : Int) ≤ 99 by exact_mod_cast by omega)]
  rw [padTwo_render (by positivity) (show (sec : Int) ≤ 99 by exact_mod_cast by omega)]
  rw [Int.toNat_ofNat, Int.toNat_ofNat, Int.toNat_ofNat, Int.toNat_ofNat, Int.toNat_ofNat]
  have ey1 : Nat.digitChar (y / 1000) = y1 := by
    rw [show y / 1000 = y1.toNat - 48 by omega]; exact digitChar_toNat q1
  have ey2 : Nat.digitChar (y / 100 % 10) = y2 := by
    rw [show y / 100 % 10 = y2.toNat - 48 by omega]; exact digitChar_toNat q2
  have ey3 : Nat.digitChar (y / 10 % 10) = y3 := by
    rw [show y / 10 % 10 = y3.toNat - 48 by omega]; exact digitChar_toNat q3
  have ey4 : Nat.digitChar (y % 10) = y4 := by
    rw [show y % 10 = y4.toNat - 48 by omega]; exact digitChar_toNat q4
  have em1 : Nat.digitChar (mo / 10) = m1 := by
    rw [show mo / 10 = m1.toNat - 48 by omega]; exact digitChar_toNat q5
  have em2 : Nat.digitChar (mo % 10) = m2 := by
    rw [show mo % 10 = m2.toNat - 48 by omega]; exact digitChar_toNat q6
  have ed1 : Nat.digitChar (d / 10) = d1 := by
    rw [show d / 10 = d1.toNat - 48 by omega]; exact digitChar_toNat q7
  have ed2 : Nat.digitChar (d % 10) = d2 := by
    rw [show d % 10 = d2.toNat - 48 by omega]; exact digitChar_toNat q8
  have eh1 : Nat.digitChar (h / 10) = r1 := by
    rw [show h / 10 = r1.toNat - 48 by omega]; exact digitChar_toNat q9
  have eh2 : Nat.digitChar (h % 10) = r2 := by
    rw [show h % 10 = r2.toNat - 48 by omega]; exact digitChar_toNat q10
  have en1 : Nat.digitChar (mi / 10) = n1 := by
    rw [show mi / 10 = n1.toNat - 48 by omega]; exact digitChar_toNat q11
  have en2 : Nat.digitChar (mi % 10) = n2 := by
    rw [show mi % 10 = n2.toNat - 48 by omega]; exact digitChar_toNat q12
  have es1 : Nat.digitChar (sec / 10) = s1 := by
    rw [show sec / 10 = s1.toNat - 48 by omega]; exact digitChar_toNat q13
  have es2 : Nat.digitChar (sec % 10) = s2 := by
    rw [show sec % 10 = s2.toNat - 48 by omega]; exact digitChar_toNat q14
  rw [ey1, ey2, ey3, ey4, em1, em2, ed1, ed2, eh1, eh2, en1, en2, es1, es2]
  apply String.ext
  rw [hsdata]
  rfl

/-- C6 (amended): for every string input, `parseTimestampToEpochSeconds`
succeeds exactly when the *trimmed* text matches the fixed pattern
`YYYY-MM-DD HH:mm:ss` and the calendar fields survive JavaScript `Date`
normalization — which also rejects every year 0000–0099, because
`Date.UTC` remaps such years to 1900+y and the round-trip check then
fails; surrounding whitespace is trimmed, not rejected.  On success the
result is the UTC epoch seconds of the fields minus 19800 seconds
(the fixed UTC+5:30 offset); otherwise it throws. -/
theorem parseTimestamp_ok_iff (s fieldName : String) :
    (∀ e : Int, parseTimestampToEpochSeconds (.str s) fieldName = .ok e ↔
      ∃ y mo d h mi sec : Nat,
        matchTimestamp (jsTrim s).toList = some (y, mo, d, h, mi, sec) ∧
        100 ≤ y ∧ 1 ≤ mo ∧ mo ≤ 12 ∧ 1 ≤ d ∧
        (d : Int) ≤ daysInMonth (mo : Int) (leapDays (y : Int)) ∧
        h ≤ 23 ∧ mi ≤ 59 ∧ sec ≤ 59 ∧
        e = makeDay (y : Int) ((mo : Int) - 1) (d : Int) * 86400 +
          ((h : Int) * 3600 + (mi : Int) * 60 + (sec : Int)) - IST_OFFSET_SECONDS) ∧
    ((∃ msg, parseTimestampToEpochSeconds (.str s) fieldName = .error msg) ↔
      ¬ ∃ y mo d h mi sec : Nat,
        matchTimestamp (jsTrim s).toList = some (y, mo, d, h, mi, sec) ∧
        100 ≤ y ∧ 1 ≤ mo ∧ mo ≤ 12 ∧ 1 ≤ d ∧
        (d : Int) ≤ daysInMonth (mo : Int) (leapDays (y : Int)) ∧
        h ≤ 23 ∧ mi ≤ 59 ∧ sec ≤ 59) ∧
    IST_OFFSET_SECONDS = 19800 := by
  refine ⟨fun e => parseTimestamp_spec_aux s fieldName e, ?_, rfl⟩
  constructor
  · rintro ⟨msg, hmsg⟩ ⟨y, mo, d, h, mi, sec, hsome, h100, hmo1, hmo12, hd1, hdim, hh, hmi59, hs59⟩
    have hok := (parseTimestamp_spec_aux s fieldName
        (makeDay (y : Int) ((mo : Int) - 1) (d : Int) * 86400 +
          ((h : Int) * 3600 + (mi : Int) * 60 + (sec : Int)) - IST_OFFSET_SECONDS)).mpr
      ⟨y, mo, d, h, mi, sec, hsome, h100, hmo1, hmo12, hd1, hdim, hh, hmi59, hs59, rfl⟩
    rw [hmsg] at hok
    exact Except.noConfusion hok
  · intro hno
    cases hp : parseTimestampToEpochSeconds (.str s) fieldName with
    | ok v =>
        exfalso
        obtain ⟨y, mo, d, h, mi, sec, hsome, h100, hmo1, hmo12, hd1, hdim, hh, hmi59, hs59, -⟩ :=
          (parseTimestamp_spec_aux s fieldName v).mp hp
        exact hno ⟨y, mo, d, h, mi, sec, hsome, h100, hmo1, hmo12, hd1, hdim, hh, hmi59, hs59⟩
    | error msg => exact ⟨msg, rfl⟩

/-- C7 witness: the round-trip theorem applied to the accepted, trimmed,
non-zero-leading text 2023-02-03 04:05:06. -/
theorem format_parse_aux_witness :
    formatEpochSecondsToTimestamp 1675377306 = "2023-02-03 04:05:06" :=
  format_parse_aux "2023-02-03 04:05:06" "timestamp" 1675377306 (by decide) (by decide)
    (by decide)

/-! ## Engine data model (part_001)

Parsed periods and transactions as built by `parseQPeriods`,
`parsePPeriods`, `parseKPeriods` and `parseTransactionInput`.  JS
arrays become lists, `Array.prototype.sort` (stable since ES2019)
becomes the stable `List.insertionSort`, and the array-backed `BinaryHeap` keeps its
array as a list with index accesses. -/

structure QPeriod where
  id : String
  fixedPaise : Int
  start : Int
  endS : Int
  inputOrder : Nat
  deriving DecidableEq, Repr, Inhabited

structure PPeriod where
  id : String
  extraPaise : Int
  start : Int
  endS : Int
  deriving DecidableEq, Repr, Inhabited

structure KPeriod where
  id : String
  start : Int
  endS : Int
  startText : String
  endText : String
  inputOrder : Nat
  deriving DecidableEq, Repr, Inhabited

structure Tx where
  timestamp : String
  epochSeconds : Int
  amountPaise : Int
  ceilingPaise : Int
  remanentBasePaise : Int
  remanentFinalPaise : Int
  inputIndex : Nat
  deriving DecidableEq, Repr, Inhabited

/-- The comparator `applyQPeriods` passes to its `BinaryHeap`: positive
when `a` ranks above `b` (later start wins; on equal starts the smaller
input position wins). -/
def qCompare (a b : QPeriod) : Int :=
  if a.start ≠ b.start then a.start - b.start
  else (b.inputOrder : Int) - (a.inputOrder : Int)

/-- The array-backed max-heap of the source, with its `compareFn`.  The
JS array is kept as a list; `data[i]` reads become `List.getD`. -/
structure BinaryHeap where
  compareFn : QPeriod → QPeriod → Int
  data : List QPeriod
  deriving Inhabited

namespace BinaryHeap

/-- `size()`. -/
def size (h : BinaryHeap) : Nat := h.data.length

/-- `peek()` (`undefined` on an empty array becomes `none`). -/
def peek (h : BinaryHeap) : Option QPeriod := h.data.get? 0

/-- One step of the `bubbleUp` while loop, with fuel for structural
recursion (the loop strictly decreases `index`, so `index + 1` steps
always suffice; see `bubbleUpCore_fuel`). -/
def bubbleUpCore (cmp : QPeriod → QPeriod → Int) (fuel : Nat) (data : List QPeriod)
    (index : Nat) : List QPeriod :=
  match fuel with
  | 0 => data
  | fuel + 1 =>
      if index > 0 then
        let parent := (index - 1) / 2
        if cmp (data.getD index default) (data.getD parent default) ≤ 0 then data
        else
          bubbleUpCore cmp fuel
            ((data.set index (data.getD parent default)).set parent (data.getD index default))
            parent
      else data

/-- `bubbleUp(index)`. -/
def bubbleUp (h : BinaryHeap) (index : Nat) : BinaryHeap :=
  { h with data := bubbleUpCore h.compareFn (index + 1) h.data index }

/-- `push(value)`. -/
def push (h : BinaryHeap) (value : QPeriod) : BinaryHeap :=
  bubbleUp { h with data := h.data ++ [value] } (h.data.length + 1 - 1)

/-- One step of the `bubbleDown` while loop, with fuel (each iteration
strictly increases `index` below `data.length`, so `data.length` steps
suffice). -/
def bubbleDownCore (cmp : QPeriod → QPeriod → Int) (fuel : Nat) (data : List QPeriod)
    (index : Nat) : List QPeriod :=
  match fuel with
  | 0 => data
  | fuel + 1 =>
      let length := data.length
      let left := 2 * index + 1
      let right := 2 * index + 2
      let largest := index
      let largest :=
        if left < length ∧ cmp (data.getD left default) (data.getD largest default) > 0 then
          left
        else largest
      let largest :=
        if right < length ∧ cmp (data.getD right default) (data.getD largest default) > 0 then
          right
        else largest
      if largest = index then data
      else
        bubbleDownCore cmp fuel
          ((data.set index (data.getD largest default)).set largest (data.getD index default))
          largest

/-- `bubbleDown(index)`. -/
def bubbleDown (h : BinaryHeap) (index : Nat) : BinaryHeap :=
  { h with data := bubbleDownCore h.compareFn h.data.length h.data index }

/-- `pop()`: returns the removed top (or `none`) and the updated heap.
The JS guard `last !== undefined` always holds for a non-empty array of
period objects. -/
def pop (h : BinaryHeap) : Option QPeriod × BinaryHeap :=
  if h.data.length = 0 then (none, h)
  else
    let top := h.data.getD 0 default
    let last := h.data.getD (h.data.length - 1) default
    let rest := h.data.dropLast
    if rest.length > 0 then
      (some top, bubbleDown { h with data := rest.set 0 last } 0)
    else (some top, { h with data := rest })

end BinaryHeap

/-! ## Temporal rule algorithms (part_001) -/

/-- The admission loop of `applyQPeriods`: push every not-yet-admitted
period (in sorted order) whose start is ≤ the current instant. -/
def admitQLoop (heap : BinaryHeap) (rest : List QPeriod) (ts : Int) :
    BinaryHeap × List QPeriod :=
  match rest with
  | [] => (heap, [])
  | q :: tl => if q.start ≤ ts then admitQLoop (heap.push q) tl ts else (heap, q :: tl)

/-- The lazy-eviction loop of `applyQPeriods`, with fuel (each `pop`
removes one element, so the heap size suffices). -/
def evictQCore (fuel : Nat) (heap : BinaryHeap) (ts : Int) : BinaryHeap :=
  match fuel with
  | 0 => heap
  | fuel + 1 =>
      match heap.peek with
      | some q => if q.endS < ts then evictQCore fuel (heap.pop).2 ts else heap
      | none => heap

/-- `while (heap.size() > 0 && heap.peek().end < ts) heap.pop()`. -/
def evictQLoop (heap : BinaryHeap) (ts : Int) : BinaryHeap :=
  evictQCore heap.size heap ts

/-- Model of `applyQPeriods`: sort the periods by (start, input order),
then walk the transactions in the given chronological index order,
admitting started periods into the heap, lazily evicting expired tops,
and overwriting the final remanent with the top's fixed amount (or
resetting it to the base remanent when no period is active). -/
def applyQPeriods (transactions : List Tx) (qPeriods : List QPeriod)
    (sortedTransactionIndices : List Nat) : List Tx :=
  if qPeriods.length = 0 then transactions
  else
    let sortedQ := List.insertionSort
      (fun a b => a.start < b.start ∨ (a.start = b.start ∧ a.inputOrder ≤ b.inputOrder)) qPeriods
    let heap : BinaryHeap := ⟨qCompare, []⟩
    (sortedTransactionIndices.foldl
      (fun (st : List Tx × BinaryHeap × List QPeriod) txIndex =>
        let txs := st.1
        let tx := txs.getD txIndex default
        let ts := tx.epochSeconds
        let (heap1, rest1) := admitQLoop st.2.1 st.2.2 ts
        let heap2 := evictQLoop heap1 ts
        let newFinal :=
          match heap2.peek with
          | some q => q.fixedPaise
          | none => tx.remanentBasePaise
        (txs.set txIndex { tx with remanentFinalPaise := newFinal }, heap2, rest1))
      (transactions, heap, sortedQ)).1


/-! heap order facts -/

def qle (a b : QPeriod) : Prop := qCompare a b ≤ 0

theorem qle_refl (a : QPeriod) : qle a a := by
  rw [qle, qCompare]; split_ifs <;> omega

theorem qle_total (a b : QPeriod) : qle a b ∨ qle b a := by
  rw [qle, qle, qCompare, qCompare]; split_ifs <;> omega

theorem qle_trans {a b c : QPeriod} (h1 : qle a b) (h2 : qle b c) : qle a c := by
  rw [qle, qCompare] at *
  split_ifs at * <;> simp_all <;> omega

theorem not_qle_iff {a b : QPeriod} : ¬ qle a b ↔ 0 < qCompare a b := by
  rw [qle]; omega

theorem qle_antisymm {a b : QPeriod} (h1 : qle a b) (h2 : qle b a) :
    a.start = b.start ∧ a.inputOrder = b.inputOrder := by
  rw [qle, qCompare] at *
  split_ifs at * <;> constructor <;> simp_all <;> omega

/-! getD / set list lemmas -/

theorem getD_set_self {l : List QPeriod} {k : Nat} {v d : QPeriod} (hk : k < l.length) :
    (l.set k v).getD k d = v := by
  simp [List.getD, List.getElem?_set_self hk]

theorem getD_set_ne {l : List QPeriod} {k j : Nat} {v d : QPeriod} (h : k ≠ j) :
    (l.set k v).getD j d = l.getD j d := by
  simp [List.getD, List.getElem?_set_ne h]

theorem getD_dropLast {l : List QPeriod} {i : Nat} {d : QPeriod} (h : i < l.length - 1) :
    l.dropLast.getD i d = l.getD i d := by
  simp [List.getD]
  rw [List.getElem?_dropLast]
  simp [h]

theorem getD_append_left {l : List QPeriod} {v d : QPeriod} {i : Nat} (h : i < l.length) :
    (l ++ [v]).getD i d = l.getD i d := by
  simp [List.getD, List.getElem?_append_left h]

theorem getD_append_right {l : List QPeriod} {v d : QPeriod} :
    (l ++ [v]).getD l.length d = v := by
  simp [List.getD]

theorem getD_mem {l : List QPeriod} {i : Nat} {d : QPeriod} (h : i < l.length) :
    l.getD i d ∈ l := by
  rw [List.getD, List.get?_eq_getElem?, List.getElem?_eq_getElem h]
  exact List.getElem_mem _

theorem mem_getD {l : List QPeriod} {x : QPeriod} {d : QPeriod} (h : x ∈ l) :
    ∃ i, i < l.length ∧ l.getD i d = x := by
  obtain ⟨i, hi, hget⟩ := List.getElem_of_mem h
  exact ⟨i, hi, by rw [List.getD, List.get?_eq_getElem?, List.getElem?_eq_getElem hi,
    Option.getD_some]; exact hget⟩

/-- Counting elements after a single `set`. -/
theorem count_set {d : QPeriod} (a : QPeriod) :
    ∀ (m : List QPeriod) (k : Nat) (v : QPeriod), k < m.length →
      (m.set k v).count a + (if m.getD k d = a then 1 else 0) =
        m.count a + (if v = a then 1 else 0) := by
  intro m
  induction m with
  | nil => intro k v hk; simp at hk
  | cons x xs ih =>
      intro k v hk
      cases k with
      | zero =>
          have hset : (x :: xs).set 0 v = v :: xs := rfl
          have hgd : (x :: xs).getD 0 d = x := rfl
          rw [hset, hgd, List.count_cons, List.count_cons]
          simp only [beq_iff_eq]
          split_ifs <;> omega
      | succ k' =>
          have hset : (x :: xs).set (k' + 1) v = x :: xs.set k' v := rfl
          have hgd : (x :: xs).getD (k' + 1) d = xs.getD k' d := rfl
          rw [hset, hgd, List.count_cons, List.count_cons]
          have := ih k' v (by simpa using hk)
          simp only [beq_iff_eq]
          split_ifs at * <;> omega

/-- Swapping two in-range positions permutes the list. -/
theorem set_swap_perm {l : List QPeriod} {i j : Nat} {d : QPeriod} (hi : i < l.length)
    (hj : j < l.length) :
    ((l.set i (l.getD j d)).set j (l.getD i d)).Perm l := by
  rcases eq_or_ne i j with rfl | hne
  · rw [List.set_set]
    have : l.set i (l.getD i d) = l := by
      apply List.ext_getElem?
      intro k
      rcases eq_or_ne i k with rfl | hk
      · rw [List.getElem?_set_self hi, List.getD, List.get?_eq_getElem?,
          List.getElem?_eq_getElem hi, Option.getD_some]
      · rw [List.getElem?_set_ne hk]
    rw [this]
  · apply (List.perm_iff_count).mpr
    intro a
    have h1 := count_set (d := d) a l i (l.getD j d) hi
    have h2 := count_set (d := d) a (l.set i (l.getD j d)) j (l.getD i d) (by simpa using hj)
    have hgd2 : (l.set i (l.getD j d)).getD j d = l.getD j d := getD_set_ne hne
    rw [hgd2] at h2
    split_ifs at h1 h2 <;> omega

/-! heap invariant -/

/-- The binary-heap shape invariant: every non-root entry compares ≤ its
parent under the heap's ranking. -/
def heapInv (l : List QPeriod) : Prop :=
  ∀ i : Nat, 0 < i → i < l.length → qle (l.getD i default) (l.getD ((i - 1) / 2) default)

/-- In a heap-shaped array the root ranks ≥ every entry. -/
theorem heapInv_root_max {l : List QPeriod} (hInv : heapInv l) :
    ∀ i, i < l.length → qle (l.getD i default) (l.getD 0 default) := by
  intro i
  induction i using Nat.strong_induction_on with
  | _ i ih =>
      intro hi
      rcases Nat.eq_zero_or_pos i with rfl | hpos
      · exact qle_refl _
      · have hpar : (i - 1) / 2 < i := by omega
        exact qle_trans (hInv i hpos hi) (ih _ hpar (by omega))

/-- Shape of `bubbleUpCore`'s precondition: heap except possibly at the
edge from `k` to its parent, and `k`'s children (if any) already rank ≤
`k`'s parent. -/
def almostUp (l : List QPeriod) (k : Nat) : Prop :=
  (∀ i, 0 < i → i < l.length → i ≠ k → qle (l.getD i default) (l.getD ((i - 1) / 2) default)) ∧
  (0 < k → ∀ c, c < l.length → (c - 1) / 2 = k →
    qle (l.getD c default) (l.getD ((k - 1) / 2) default))

theorem bubbleUpCore_succ (cmp : QPeriod → QPeriod → Int) (fuel : Nat) (l : List QPeriod)
    (k : Nat) :
    BinaryHeap.bubbleUpCore cmp (fuel + 1) l k =
      if k > 0 then
        let parent := (k - 1) / 2
        if cmp (l.getD k default) (l.getD parent default) ≤ 0 then l
        else BinaryHeap.bubbleUpCore cmp fuel
          ((l.set k (l.getD parent default)).set parent (l.getD k default)) parent
      else l := rfl

theorem bubbleUpCore_spec :
    ∀ (fuel : Nat) (l : List QPeriod) (k : Nat), k < l.length → k < fuel → almostUp l k →
      heapInv (BinaryHeap.bubbleUpCore qCompare fuel l k) ∧
      (BinaryHeap.bubbleUpCore qCompare fuel l k).Perm l ∧
      (BinaryHeap.bubbleUpCore qCompare fuel l k).length = l.length := by
  intro fuel
  induction fuel with
  | zero => intro l k hk hf; omega
  | succ fuel ih =>
      intro l k hk hf halmost
      rw [bubbleUpCore_succ]
      by_cases hk0 : k > 0
      · rw [if_pos hk0]
        set p := (k - 1) / 2 with hp
        have hpk : p < k := by omega
        have hpl : p < l.length := by omega
        by_cases hcmp : qCompare (l.getD k default) (l.getD p default) ≤ 0
        · rw [if_pos hcmp]
          refine ⟨?_, List.Perm.refl l, rfl⟩
          intro i h0 hil
          rcases eq_or_ne i k with rfl | hne
          · exact hcmp
          · exact halmost.1 i h0 hil hne
        · rw [if_neg hcmp]
          set l' := (l.set k (l.getD p default)).set p (l.getD k default) with hl'
          have hlen' : l'.length = l.length := by simp [hl']
          have hperm : l'.Perm l := set_swap_perm hk hpl
          have hget : ∀ j, j ≠ k → j ≠ p → l'.getD j default = l.getD j default := by
            intro j hjk hjp
            rw [hl', getD_set_ne (Ne.symm hjp), getD_set_ne (Ne.symm hjk)]
          have hgetp : l'.getD p default = l.getD k default := getD_set_self (by simpa using hpl)
          have hgetk : l'.getD k default = l.getD p default := by
            rw [hl', getD_set_ne (by omega), getD_set_self hk]
          have hqlepk : qle (l.getD p default) (l.getD k default) := by
            rcases qle_total (l.getD p default) (l.getD k default) with h | h
            · exact h
            · exact absurd h (by rw [qle] at *; omega)
          have halmost' : almostUp l' p := by
            constructor
            · intro i h0 hil hip
              rw [hlen'] at hil
              rcases eq_or_ne i k with rfl | hik
              · -- i = k: new value at k is old parent value; parent of k is p
                rw [hgetk, ← hp, hgetp]
                exact hqlepk
              · have hvi : l'.getD i default = l.getD i default := hget i hik hip
                rcases eq_or_ne ((i - 1) / 2) k with hpar | hpar
                · -- i is a child of k
                  rw [hvi, hpar, hgetk]
                  have hik2 : i ≠ k := hik
                  have := halmost.2 hk0 i hil (by omega)
                  rw [← hp] at *
                  exact this
                · rcases eq_or_ne ((i - 1) / 2) p with hpar2 | hpar2
                  · -- i is a child of p other than k
                    rw [hvi, hpar2, hgetp]
                    have hbase := halmost.1 i h0 hil hik
                    rw [hpar2] at hbase
                    exact qle_trans hbase hqlepk
                  · rw [hvi, hget _ hpar hpar2]
                    exact halmost.1 i h0 hil hik
            · intro hp0 c hcl hcp
              rw [hlen'] at hcl
              have hgp : l'.getD ((p - 1) / 2) default = l.getD ((p - 1) / 2) default :=
                hget ((p - 1) / 2) (by omega) (by omega)
              have hpp : qle (l.getD p default) (l.getD ((p - 1) / 2) default) :=
                halmost.1 p hp0 hpl (by omega)
              rcases eq_or_ne c k with rfl | hck
              · rw [hgetk, hgp]
                exact hpp
              · have hcnep : c ≠ p := by omega
                rw [hget c hck hcnep, hgp]
                have hold : qle (l.getD c default) (l.getD p default) := by
                  have hh := halmost.1 c (by omega) hcl hck
                  rwa [hcp] at hh
                exact qle_trans hold hpp
          have hres := ih l' p (by omega) (by omega) halmost'
          exact ⟨hres.1, hres.2.1.trans hperm, by rw [hres.2.2, hlen']⟩
      · rw [if_neg hk0]
        refine ⟨?_, List.Perm.refl l, rfl⟩
        intro i h0 hil
        exact halmost.1 i h0 hil (by omega)

/-- `push` preserves the heap invariant and adds the value. -/
theorem push_spec (h : BinaryHeap) (x : QPeriod) (hc : h.compareFn = qCompare)
    (hinv : heapInv h.data) :
    (h.push x).compareFn = qCompare ∧ heapInv (h.push x).data ∧
    (h.push x).data.Perm (x :: h.data) := by
  rw [BinaryHeap.push, BinaryHeap.bubbleUp]
  have hidx : h.data.length + 1 - 1 = h.data.length := by omega
  rw [hidx]
  set l := h.data ++ [x] with hl
  have hlen : l.length = h.data.length + 1 := by simp [hl]
  have halmost : almostUp l h.data.length := by
    constructor
    · intro i h0 hil hine
      have hi : i < h.data.length := by omega
      have hp : (i - 1) / 2 < h.data.length := by omega
      rw [hl, getD_append_left hi, getD_append_left hp]
      exact hinv i h0 hi
    · intro _ c hcl hcp
      omega
  have hspec := bubbleUpCore_spec (h.data.length + 1) l h.data.length (by omega) (by omega)
    halmost
  rw [hc]
  refine ⟨rfl, hspec.1, ?_⟩
  exact hspec.2.1.trans (by rw [hl]; exact List.perm_append_singleton x h.data)

/-- Shape of `bubbleDownCore`'s precondition: heap except possibly on
the edges from `k`'s children to `k`, and `k`'s children (if any)
already rank ≤ `k`'s parent. -/
def almostDown (l : List QPeriod) (k : Nat) : Prop :=
  (∀ i, 0 < i → i < l.length → (i - 1) / 2 ≠ k →
    qle (l.getD i default) (l.getD ((i - 1) / 2) default)) ∧
  (0 < k → ∀ c, c < l.length → (c - 1) / 2 = k →
    qle (l.getD c default) (l.getD ((k - 1) / 2) default))

theorem bubbleDownCore_succ (cmp : QPeriod → QPeriod → Int) (fuel : Nat) (l : List QPeriod)
    (k : Nat) :
    BinaryHeap.bubbleDownCore cmp (fuel + 1) l k =
      (let lg1 := if 2 * k + 1 < l.length ∧
          cmp (l.getD (2 * k + 1) default) (l.getD k default) > 0 then 2 * k + 1 else k
       let lg2 := if 2 * k + 2 < l.length ∧
          cmp (l.getD (2 * k + 2) default) (l.getD lg1 default) > 0 then 2 * k + 2 else lg1
       if lg2 = k then l
       else BinaryHeap.bubbleDownCore cmp fuel
         ((l.set k (l.getD lg2 default)).set lg2 (l.getD k default)) lg2) := rfl

theorem qle_of_not_gt {a b : QPeriod} (h : ¬ qCompare a b > 0) : qle a b := by
  rw [qle]; omega

theorem qle_of_gt {a b : QPeriod} (h : qCompare a b > 0) : qle b a := by
  rcases qle_total b a with hh | hh
  · exact hh
  · rw [qle] at *; omega

/-- One swap step of `bubbleDown` re-establishes the loop shape at the
winning child. -/
theorem bubbleDown_step {l : List QPeriod} {k lg : Nat} (hk : k < l.length)
    (hlg : lg = 2 * k + 1 ∨ lg = 2 * k + 2) (hlgl : lg < l.length)
    (hwin : qle (l.getD k default) (l.getD lg default))
    (hchild : ∀ c, 0 < c → c < l.length → (c - 1) / 2 = k → c ≠ lg →
      qle (l.getD c default) (l.getD lg default))
    (halmost : almostDown l k) :
    almostDown ((l.set k (l.getD lg default)).set lg (l.getD k default)) lg ∧
    ((l.set k (l.getD lg default)).set lg (l.getD k default)).Perm l ∧
    ((l.set k (l.getD lg default)).set lg (l.getD k default)).length = l.length := by
  set l' := (l.set k (l.getD lg default)).set lg (l.getD k default) with hl'
  have hlen' : l'.length = l.length := by simp [hl']
  have hperm : l'.Perm l := set_swap_perm hk hlgl
  have hkne : k ≠ lg := by omega
  have hget : ∀ j, j ≠ k → j ≠ lg → l'.getD j default = l.getD j default := by
    intro j hjk hjl
    rw [hl', getD_set_ne (Ne.symm hjl), getD_set_ne (Ne.symm hjk)]
  have hgetlg : l'.getD lg default = l.getD k default := getD_set_self (by simpa using hlgl)
  have hgetk : l'.getD k default = l.getD lg default := by
    rw [hl', getD_set_ne (Ne.symm hkne), getD_set_self hk]
  have hparlg : (lg - 1) / 2 = k := by omega
  refine ⟨⟨?_, ?_⟩, hperm, hlen'⟩
  · intro i h0 hil hip
    rw [hlen'] at hil
    rcases eq_or_ne i k with rfl | hik
    · -- i = k: new value is the old child value; its parent is untouched
      have hpk : (i - 1) / 2 < i := by omega
      rw [hgetk, hget ((i - 1) / 2) (by omega) (by omega)]
      exact halmost.2 h0 lg hlgl hparlg
    · rcases eq_or_ne i lg with rfl | hilg
      · -- i = lg: new value is the old k value, parent is k holding old lg value
        rw [hparlg, hgetlg, hgetk]
        exact hwin
      · rcases eq_or_ne ((i - 1) / 2) k with hpar | hpar
        · -- i is the other child of k
          rw [hget i hik hilg, hpar, hgetk]
          exact hchild i h0 hil hpar hilg
        · rw [hget i hik hilg, hget ((i - 1) / 2) hpar (by omega)]
          exact halmost.1 i h0 hil hpar
  · intro hlg0 c hcl hcp
    rw [hlen'] at hcl
    have hclg : c ≠ lg := by omega
    have hck : c ≠ k := by omega
    rw [hparlg, hget c hck hclg, hgetk]
    have hh := halmost.1 c (by omega) hcl (by omega)
    rwa [hcp] at hh

set_option maxHeartbeats 1600000 in
theorem bubbleDownCore_spec :
    ∀ (fuel : Nat) (l : List QPeriod) (k : Nat), k < l.length → l.length - k ≤ fuel →
      almostDown l k →
      heapInv (BinaryHeap.bubbleDownCore qCompare fuel l k) ∧
      (BinaryHeap.bubbleDownCore qCompare fuel l k).Perm l ∧
      (BinaryHeap.bubbleDownCore qCompare fuel l k).length = l.length := by
  intro fuel
  induction fuel with
  | zero => intro l k hk hf; omega
  | succ fuel ih =>
      intro l k hk hf halmost
      rw [bubbleDownCore_succ]
      simp only []
      by_cases c1 : 2 * k + 1 < l.length ∧
          qCompare (l.getD (2 * k + 1) default) (l.getD k default) > 0
      · rw [if_pos c1]
        by_cases c2 : 2 * k + 2 < l.length ∧
            qCompare (l.getD (2 * k + 2) default) (l.getD (2 * k + 1) default) > 0
        · rw [if_pos c2]
          rw [if_neg (show ¬ 2 * k + 2 = k by omega)]
          have hstep := bubbleDown_step hk (Or.inr rfl) c2.1
            (qle_trans (qle_of_gt c1.2) (qle_of_gt c2.2))
            (fun c hc0 hcl hcp hcne => by
              have hcL : c = 2 * k + 1 := by omega
              subst hcL
              exact qle_of_gt c2.2)
            halmost
          have hres := ih _ (2 * k + 2) (by rw [hstep.2.2]; omega) (by rw [hstep.2.2]; omega)
            hstep.1
          rw [hstep.2.2] at hres
          exact ⟨hres.1, hres.2.1.trans hstep.2.1, hres.2.2⟩
        · rw [if_neg c2]
          rw [if_neg (show ¬ 2 * k + 1 = k by omega)]
          have hstep := bubbleDown_step hk (Or.inl rfl) c1.1
            (qle_of_gt c1.2)
            (fun c hc0 hcl hcp hcne => by
              have hcR : c = 2 * k + 2 := by omega
              subst hcR
              exact qle_of_not_gt fun hgt => c2 ⟨hcl, hgt⟩)
            halmost
          have hres := ih _ (2 * k + 1) (by rw [hstep.2.2]; omega) (by rw [hstep.2.2]; omega)
            hstep.1
          rw [hstep.2.2] at hres
          exact ⟨hres.1, hres.2.1.trans hstep.2.1, hres.2.2⟩
      · rw [if_neg c1]
        by_cases c2 : 2 * k + 2 < l.length ∧
            qCompare (l.getD (2 * k + 2) default) (l.getD k default) > 0
        · rw [if_pos c2]
          rw [if_neg (show ¬ 2 * k + 2 = k by omega)]
          have hstep := bubbleDown_step hk (Or.inr rfl) c2.1
            (qle_of_gt c2.2)
            (fun c hc0 hcl hcp hcne => by
              have hcL : c = 2 * k + 1 := by omega
              subst hcL
              have h1 : qle (l.getD (2 * k + 1) default) (l.getD k default) :=
                qle_of_not_gt fun hgt => c1 ⟨by omega, hgt⟩
              exact qle_trans h1 (qle_of_gt c2.2))
            halmost
          have hres := ih _ (2 * k + 2) (by rw [hstep.2.2]; omega) (by rw [hstep.2.2]; omega)
            hstep.1
          rw [hstep.2.2] at hres
          exact ⟨hres.1, hres.2.1.trans hstep.2.1, hres.2.2⟩
        · rw [if_neg c2, if_pos rfl]
          refine ⟨?_, List.Perm.refl l, rfl⟩
          intro i h0 hil
          rcases eq_or_ne ((i - 1) / 2) k with hpar | hpar
          · have hiLR : i = 2 * k + 1 ∨ i = 2 * k + 2 := by omega
            rcases hiLR with rfl | rfl
            · rw [hpar]
              exact qle_of_not_gt fun hgt => c1 ⟨hil, hgt⟩
            · rw [hpar]
              exact qle_of_not_gt fun hgt => c2 ⟨hil, hgt⟩
          · exact halmost.1 i h0 hil hpar

/-- `peek` returns the root, which ranks ≥ every heap element. -/
theorem peek_spec (h : BinaryHeap) (hinv : heapInv h.data) (hne : h.data ≠ []) :
    h.peek = some (h.data.getD 0 default) ∧
    ∀ x ∈ h.data, qle x (h.data.getD 0 default) := by
  constructor
  · rw [BinaryHeap.peek]
    cases hd : h.data with
    | nil => exact absurd hd hne
    | cons a as => simp [hd, List.getD]
  · intro x hx
    obtain ⟨i, hi, hget⟩ := mem_getD (d := default) hx
    rw [← hget]
    exact heapInv_root_max hinv i hi

theorem peek_none_iff (h : BinaryHeap) : h.peek = none ↔ h.data = [] := by
  rw [BinaryHeap.peek]
  cases h.data with
  | nil => simp
  | cons a as => simp

theorem getD_cons_shift {a c : QPeriod} {bs : List QPeriod} {j : Nat} (h1 : 1 ≤ j)
    (h2 : j ≤ bs.length) :
    (c :: bs).getD j default = (a :: (bs ++ [c])).getD j default := by
  obtain ⟨j', rfl⟩ : ∃ j', j = j' + 1 := ⟨j - 1, by omega⟩
  have e1 : (c :: bs).getD (j' + 1) default = bs.getD j' default := rfl
  have e2 : (a :: (bs ++ [c])).getD (j' + 1) default = (bs ++ [c]).getD j' default := rfl
  rw [e1, e2]
  rcases Nat.lt_or_ge j' bs.length with hlt | hge
  · rw [getD_append_left hlt]
  · omega

/-- `pop` removes the root and keeps a heap. -/
theorem pop_spec (h : BinaryHeap) (hc : h.compareFn = qCompare) (hinv : heapInv h.data) :
    (h.data = [] → h.pop = (none, h)) ∧
    (h.data ≠ [] →
      (h.pop).1 = some (h.data.getD 0 default) ∧
      (h.pop).2.compareFn = qCompare ∧ heapInv (h.pop).2.data ∧
      (h.data.getD 0 default :: (h.pop).2.data).Perm h.data) := by
  obtain ⟨cmpf, data⟩ := h
  simp only [] at hc hinv
  subst hc
  constructor
  · rintro rfl
    rfl
  · intro hne
    rcases data with _ | ⟨a, as⟩
    · exact absurd rfl hne
    rcases List.eq_nil_or_concat as with rfl | ⟨bs, c, rfl⟩
    · -- singleton heap
      have hpop : (BinaryHeap.mk qCompare [a]).pop = (some a, ⟨qCompare, []⟩) := rfl
      rw [hpop]
      refine ⟨rfl, rfl, ?_, ?_⟩
      · intro i h0 hil; simp at hil
      · show [(a :: ([] : List QPeriod)).getD 0 default].Perm [a]
        rfl
    · -- two or more elements
      simp only [List.concat_eq_append] at hinv hne ⊢
      have htop : (a :: (bs ++ [c])).getD 0 default = a := rfl
      have hpop : (BinaryHeap.mk qCompare (a :: (bs ++ [c]))).pop =
          (some a, (BinaryHeap.mk qCompare (c :: bs)).bubbleDown 0) := by
        rw [BinaryHeap.pop]
        rw [if_neg (by simp)]
        have hrest : (a :: (bs ++ [c])).dropLast = a :: bs := by
          rw [← List.cons_append, List.dropLast_concat]
        have hlast : (a :: (bs ++ [c])).getD ((a :: (bs ++ [c])).length - 1) default = c := by
          rw [← List.cons_append]
          have hl : (a :: bs ++ [c]).length - 1 = (a :: bs).length := by simp
          rw [hl]
          exact getD_append_right
        simp only [htop, hrest, hlast]
        rw [if_pos (by simp)]
        rfl
      rw [hpop, htop]
      have hinv' : almostDown (c :: bs) 0 := by
        constructor
        · intro i h0 hil hip
          have hil' : i ≤ bs.length := by simp at hil; omega
          have hpar0 : 0 < (i - 1) / 2 := by omega
          have hparb : (i - 1) / 2 ≤ bs.length := by omega
          rw [getD_cons_shift (a := a) (by omega) hil',
            getD_cons_shift (a := a) (by omega) hparb]
          exact hinv i h0 (by simp; omega)
        · intro h0; omega
      have hbd := bubbleDownCore_spec (c :: bs).length (c :: bs) 0 (by simp) (by omega) hinv'
      refine ⟨rfl, rfl, hbd.1, ?_⟩
      show (a :: (BinaryHeap.bubbleDownCore qCompare (c :: bs).length (c :: bs) 0)).Perm _
      have h1 : (a :: (BinaryHeap.bubbleDownCore qCompare (c :: bs).length (c :: bs) 0)).Perm
          (a :: (c :: bs)) := List.Perm.cons a hbd.2.1
      refine h1.trans ?_
      have h2 : (c :: bs).Perm (bs ++ [c]) := (List.perm_append_singleton c bs).symm
      exact List.Perm.cons a h2


/-- A period is active at an instant when its inclusive interval
contains it. -/
def qActive (q : QPeriod) (ts : Int) : Prop := q.start ≤ ts ∧ ts ≤ q.endS

theorem admitQLoop_spec : ∀ (rest : List QPeriod) (heap : BinaryHeap) (ts : Int),
    heap.compareFn = qCompare → heapInv heap.data →
    ∃ taken, rest = taken ++ (admitQLoop heap rest ts).2 ∧
      (admitQLoop heap rest ts).1.compareFn = qCompare ∧
      heapInv (admitQLoop heap rest ts).1.data ∧
      (admitQLoop heap rest ts).1.data.Perm (taken ++ heap.data) ∧
      (∀ q ∈ taken, q.start ≤ ts) ∧
      (∀ q0 ∈ ((admitQLoop heap rest ts).2).head?, ¬ q0.start ≤ ts) := by
  intro rest
  induction rest with
  | nil =>
      intro heap ts hc hinv
      exact ⟨[], rfl, hc, hinv, by simp [admitQLoop], by simp, by simp [admitQLoop]⟩
  | cons q tl ih =>
      intro heap ts hc hinv
      rw [admitQLoop]
      by_cases hq : q.start ≤ ts
      · rw [if_pos hq]
        have hp := push_spec heap q hc hinv
        obtain ⟨taken, heq, hc', hinv', hperm, htk, hhd⟩ := ih (heap.push q) ts hp.1 hp.2.1
        refine ⟨q :: taken, by rw [List.cons_append, ← heq], hc', hinv', ?_, ?_, hhd⟩
        · refine hperm.trans ?_
          have h1 : (taken ++ (heap.push q).data).Perm (taken ++ (q :: heap.data)) :=
            List.Perm.append_left taken hp.2.2
          refine h1.trans ?_
          show (taken ++ (q :: heap.data)).Perm (q :: (taken ++ heap.data))
          exact List.perm_middle
        · intro x hx
          rcases hx with _ | hx
          · exact hq
          · exact htk x (by assumption)
      · rw [if_neg hq]
        refine ⟨[], rfl, hc, hinv, by simp, by simp, ?_⟩
        intro q0 hq0
        simp at hq0
        subst hq0
        exact hq

theorem evictQCore_succ (fuel : Nat) (heap : BinaryHeap) (ts : Int) :
    evictQCore (fuel + 1) heap ts =
      match heap.peek with
      | some q => if q.endS < ts then evictQCore fuel (heap.pop).2 ts else heap
      | none => heap := rfl

theorem evictQCore_succ_some {heap : BinaryHeap} {q : QPeriod} (h : heap.peek = some q)
    (fuel : Nat) (ts : Int) :
    evictQCore (fuel + 1) heap ts =
      if q.endS < ts then evictQCore fuel (heap.pop).2 ts else heap := by
  rw [evictQCore_succ, h]

theorem evictQCore_succ_none {heap : BinaryHeap} (h : heap.peek = none) (fuel : Nat) (ts : Int) :
    evictQCore (fuel + 1) heap ts = heap := by
  rw [evictQCore_succ, h]

theorem evictQCore_spec : ∀ (fuel : Nat) (heap : BinaryHeap) (ts : Int),
    heap.compareFn = qCompare → heapInv heap.data → heap.data.length ≤ fuel →
    (evictQCore fuel heap ts).compareFn = qCompare ∧
    heapInv (evictQCore fuel heap ts).data ∧
    (∃ popped, heap.data.Perm ((evictQCore fuel heap ts).data ++ popped) ∧
      ∀ p ∈ popped, p.endS < ts) ∧
    (∀ q0, (evictQCore fuel heap ts).peek = some q0 → ¬ q0.endS < ts) := by
  intro fuel
  induction fuel with
  | zero =>
      intro heap ts hc hinv hlen
      have hnil : heap.data = [] := by
        cases h : heap.data with
        | nil => rfl
        | cons a as => rw [h] at hlen; simp at hlen
      show (evictQCore 0 heap ts).compareFn = qCompare ∧ _
      refine ⟨hc, hinv, ⟨[], by rw [show evictQCore 0 heap ts = heap from rfl]; simp, by simp⟩, ?_⟩
      intro q0 hq0
      rw [show evictQCore 0 heap ts = heap from rfl, (peek_none_iff heap).mpr hnil] at hq0
      exact Option.noConfusion hq0
  | succ fuel ih =>
      intro heap ts hc hinv hlen
      cases hpk : heap.peek with
      | none =>
          rw [evictQCore_succ_none hpk]
          refine ⟨hc, hinv, ⟨[], by simp, by simp⟩, ?_⟩
          intro q0 hq0
          rw [hpk] at hq0
          exact Option.noConfusion hq0
      | some q =>
          rw [evictQCore_succ_some hpk]
          by_cases hq : q.endS < ts
          · rw [if_pos hq]
            have hne : heap.data ≠ [] := by
              intro hnil
              rw [(peek_none_iff heap).mpr hnil] at hpk
              exact Option.noConfusion hpk
            have hps := (pop_spec heap hc hinv).2 hne
            have hq0 : q = heap.data.getD 0 default := by
              have := (peek_spec heap hinv hne).1
              rw [hpk] at this
              exact Option.some.inj this
            have hlen' : (heap.pop).2.data.length ≤ fuel := by
              have := hps.2.2.2.length_eq
              simp at this
              omega
            obtain ⟨hc', hinv', ⟨popped, hperm, hpopped⟩, hpeek⟩ :=
              ih (heap.pop).2 ts hps.2.1 hps.2.2.1 hlen'
            refine ⟨hc', hinv', ⟨heap.data.getD 0 default :: popped, ?_, ?_⟩, hpeek⟩
            · refine (hps.2.2.2.symm.trans (List.Perm.cons _ hperm)).trans ?_
              exact (List.perm_middle).symm
            · intro p hp
              rcases hp with _ | hp
              · rw [← hq0]; exact hq
              · exact hpopped p (by assumption)
          · rw [if_neg hq]
            refine ⟨hc, hinv, ⟨[], by simp, by simp⟩, ?_⟩
            intro q0 hq0
            rw [hpk] at hq0
            have : q0 = q := (Option.some.inj hq0).symm
            subst this
            exact hq

/-- The body of the fold inside `applyQPeriods`, named for reasoning. -/
def qStep (st : List Tx × BinaryHeap × List QPeriod) (txIndex : Nat) :
    List Tx × BinaryHeap × List QPeriod :=
  let txs := st.1
  let tx := txs.getD txIndex default
  let ts := tx.epochSeconds
  let (heap1, rest1) := admitQLoop st.2.1 st.2.2 ts
  let heap2 := evictQLoop heap1 ts
  let newFinal :=
    match heap2.peek with
    | some q => q.fixedPaise
    | none => tx.remanentBasePaise
  (txs.set txIndex { tx with remanentFinalPaise := newFinal }, heap2, rest1)

theorem applyQPeriods_eq_foldl (transactions : List Tx) (qPeriods : List QPeriod)
    (idxs : List Nat) :
    applyQPeriods transactions qPeriods idxs =
      if qPeriods.length = 0 then transactions
      else (idxs.foldl qStep (transactions, ⟨qCompare, []⟩,
        List.insertionSort
          (fun a b => a.start < b.start ∨ (a.start = b.start ∧ a.inputOrder ≤ b.inputOrder))
          qPeriods)).1 := rfl

theorem qle_iff {a b : QPeriod} :
    qle a b ↔ (a.start < b.start ∨ (a.start = b.start ∧ b.inputOrder ≤ a.inputOrder)) := by
  unfold qle qCompare
  split_ifs with h
  · constructor <;> intro h' <;> omega
  · constructor <;> intro h' <;> omega

theorem sorted_tail_gt {rest : List QPeriod} {ts : Int}
    (hs : rest.Pairwise (fun a b => a.start ≤ b.start))
    (hh : ∀ q0 ∈ rest.head?, ¬ q0.start ≤ ts) :
    ∀ q ∈ rest, ¬ q.start ≤ ts := by
  cases rest with
  | nil => intro q hq; exact absurd hq (List.not_mem_nil q)
  | cons h t =>
      intro q hq
      have hh' : ¬ h.start ≤ ts := hh h rfl
      rcases List.mem_cons.mp hq with rfl | hq'
      · exact hh'
      · have := (List.pairwise_cons.mp hs).1 q hq'
        omega

theorem getD_set_self_any {α : Type} {l : List α} {k : Nat} {v d : α} (hk : k < l.length) :
    (l.set k v).getD k d = v := by
  simp [List.getD, List.getElem?_set_self hk]

theorem getD_set_ne_any {α : Type} {l : List α} {k j : Nat} {v d : α} (h : k ≠ j) :
    (l.set k v).getD j d = l.getD j d := by
  simp [List.getD, List.getElem?_set_ne h]

theorem getD_mem_any {α : Type} {l : List α} {i : Nat} {d : α} (h : i < l.length) :
    l.getD i d ∈ l := by
  rw [List.getD, List.get?_eq_getElem?, List.getElem?_eq_getElem h, Option.getD_some]
  exact List.getElem_mem h

theorem qFold_spec : ∀ (idxs : List Nat) (txs : List Tx) (heap : BinaryHeap)
    (rest admitted popped : List QPeriod),
    heap.compareFn = qCompare → heapInv heap.data →
    admitted.Perm (heap.data ++ popped) →
    rest.Pairwise (fun a b => a.start ≤ b.start) →
    (∀ i ∈ idxs, i < txs.length) →
    idxs.Nodup →
    idxs.Pairwise (fun a b =>
      (txs.getD a default).epochSeconds ≤ (txs.getD b default).epochSeconds) →
    (∀ q ∈ admitted, ∀ i ∈ idxs, q.start ≤ (txs.getD i default).epochSeconds) →
    (∀ q ∈ popped, ∀ i ∈ idxs, q.endS < (txs.getD i default).epochSeconds) →
    (idxs.foldl qStep (txs, heap, rest)).1.length = txs.length ∧
    (∀ j, j ∉ idxs → (idxs.foldl qStep (txs, heap, rest)).1.getD j default =
      txs.getD j default) ∧
    (∀ i ∈ idxs,
      (∃ w, w ∈ admitted ++ rest ∧ qActive w (txs.getD i default).epochSeconds ∧
        (∀ q ∈ admitted ++ rest,
          qActive q (txs.getD i default).epochSeconds → qle q w) ∧
        (idxs.foldl qStep (txs, heap, rest)).1.getD i default =
          { txs.getD i default with remanentFinalPaise := w.fixedPaise }) ∨
      ((∀ q ∈ admitted ++ rest, ¬ qActive q (txs.getD i default).epochSeconds) ∧
        (idxs.foldl qStep (txs, heap, rest)).1.getD i default =
          { txs.getD i default with remanentFinalPaise :=
            (txs.getD i default).remanentBasePaise })) := by
  intro idxs
  induction idxs with
  | nil =>
      intro txs heap rest admitted popped hc hinv hperm hsrt hbound hnd hmono hadm hpop
      exact ⟨rfl, fun j _ => rfl, fun i hi => absurd hi (List.not_mem_nil i)⟩
  | cons i tl ih =>
      intro txs heap rest admitted popped hc hinv hperm hsrt hbound hnd hmono hadm hpop
      have hibound : i < txs.length := hbound i (List.mem_cons_self i tl)
      have hitl : i ∉ tl := (List.nodup_cons.mp hnd).1
      have hndtl : tl.Nodup := (List.nodup_cons.mp hnd).2
      have hmono1 : ∀ j ∈ tl,
          (txs.getD i default).epochSeconds ≤ (txs.getD j default).epochSeconds :=
        (List.pairwise_cons.mp hmono).1
      have hmonotl := (List.pairwise_cons.mp hmono).2
      set tx := txs.getD i default with htx
      set ts := tx.epochSeconds with hts
      obtain ⟨taken, hrest_eq, hc1, hinv1, hperm1, htaken, hhd⟩ :=
        admitQLoop_spec rest heap ts hc hinv
      set heap1 := (admitQLoop heap rest ts).1 with hheap1
      set rest1 := (admitQLoop heap rest ts).2 with hrest1
      obtain ⟨hc2, hinv2, ⟨popped2, hperm2, hpop2⟩, hpeek2⟩ :=
        evictQCore_spec heap1.size heap1 ts hc1 hinv1 (le_refl _)
      have hevict : evictQLoop heap1 ts = evictQCore heap1.size heap1 ts := rfl
      rw [← hevict] at hc2 hinv2 hperm2 hpeek2
      set heap2 := evictQLoop heap1 ts with hheap2
      set nf := (match heap2.peek with
        | some q => q.fixedPaise
        | none => tx.remanentBasePaise) with hnf
      set txs' := txs.set i { tx with remanentFinalPaise := nf } with htxs'
      have hstep : qStep (txs, heap, rest) i = (txs', heap2, rest1) := rfl
      have hlen' : txs'.length = txs.length := by
        rw [htxs', List.length_set]
      have hgd : ∀ j ∈ tl, txs'.getD j default = txs.getD j default := by
        intro j hj
        exact getD_set_ne_any (fun he => hitl (he ▸ hj))
      have hsrt1 : rest1.Pairwise (fun a b => a.start ≤ b.start) :=
        (List.pairwise_append.mp (hrest_eq ▸ hsrt)).2.1
      have hrest1_gt : ∀ q ∈ rest1, ¬ q.start ≤ ts := sorted_tail_gt hsrt1 hhd
      -- any member of the candidate pool that is active at ts sits in heap2
      have hactmem : ∀ q ∈ admitted ++ rest, qActive q ts → q ∈ heap2.data := by
        intro q hq hact
        have hq' : q ∈ taken ++ heap.data := by
          rcases List.mem_append.mp hq with hqa | hqr
          · rcases List.mem_append.mp (hperm.mem_iff.mp hqa) with hqh | hqp
            · exact List.mem_append_right taken hqh
            · have hpe := hpop q hqp i (List.mem_cons_self i tl)
              rw [← htx, ← hts] at hpe
              exact absurd hact.2 (by omega)
          · rcases List.mem_append.mp (hrest_eq ▸ hqr) with hqt | hq1
            · exact List.mem_append_left _ hqt
            · exact absurd hact.1 (hrest1_gt q hq1)
        have hq1 : q ∈ heap1.data := hperm1.mem_iff.mpr hq'
        rcases List.mem_append.mp (hperm2.mem_iff.mp hq1) with hq2 | hqp2
        · exact hq2
        · have := hpop2 q hqp2
          exact absurd hact.2 (by omega)
      -- invariant re-established for the tail
      have hB : (admitted ++ taken).Perm (heap2.data ++ (popped ++ popped2)) := by
        refine List.perm_iff_count.mpr fun a => ?_
        have h1 := hperm.count_eq a
        have h2 := hperm1.count_eq a
        have h3 := hperm2.count_eq a
        simp only [List.count_append] at h1 h2 h3 ⊢
        omega
      have hD : ∀ j ∈ tl, j < txs'.length := by
        intro j hj
        rw [hlen']
        exact hbound j (List.mem_cons_of_mem i hj)
      have hF : tl.Pairwise (fun a b =>
          (txs'.getD a default).epochSeconds ≤ (txs'.getD b default).epochSeconds) := by
        refine List.Pairwise.imp_of_mem ?_ hmonotl
        intro a b ha hb hr
        rw [hgd a ha, hgd b hb]
        exact hr
      have hG : ∀ q ∈ admitted ++ taken, ∀ j ∈ tl,
          q.start ≤ (txs'.getD j default).epochSeconds := by
        intro q hq j hj
        rw [hgd j hj]
        rcases List.mem_append.mp hq with hqa | hqt
        · exact hadm q hqa j (List.mem_cons_of_mem i hj)
        · exact le_trans (htaken q hqt) (hmono1 j hj)
      have hH : ∀ q ∈ popped ++ popped2, ∀ j ∈ tl,
          q.endS < (txs'.getD j default).epochSeconds := by
        intro q hq j hj
        rw [hgd j hj]
        rcases List.mem_append.mp hq with hqp | hqp2
        · exact hpop q hqp j (List.mem_cons_of_mem i hj)
        · exact lt_of_lt_of_le (hpop2 q hqp2) (hmono1 j hj)
      obtain ⟨ihlen, ihout, ihin⟩ :=
        ih txs' heap2 rest1 (admitted ++ taken) (popped ++ popped2)
          hc2 hinv2 hB hsrt1 hD hndtl hF hG hH
      rw [List.foldl_cons, hstep]
      refine ⟨ihlen.trans hlen', ?_, ?_⟩
      · intro j hjn
        have hji : j ≠ i := fun h => hjn (h ▸ List.mem_cons_self i tl)
        have hjtl : j ∉ tl := fun h => hjn (List.mem_cons_of_mem i h)
        rw [ihout j hjtl]
        exact getD_set_ne_any (Ne.symm hji)
      · intro j hj
        rcases List.mem_cons.mp hj with rfl | hj'
        · -- the head index: the step itself wrote the final remanent
          rw [show txs.getD j default = tx from htx.symm,
            show tx.epochSeconds = ts from hts.symm]
          have hres : (tl.foldl qStep (txs', heap2, rest1)).1.getD j default =
              txs'.getD j default := ihout j hitl
          have hval : txs'.getD j default = { tx with remanentFinalPaise := nf } := by
            rw [htxs']
            exact getD_set_self_any hibound
          cases hpk : heap2.peek with
          | some q0 =>
              have hnfv : nf = q0.fixedPaise := by rw [hnf, hpk]
              have hq0mem2 : q0 ∈ heap2.data := List.get?_mem hpk
              have hne2 : heap2.data ≠ [] := by
                intro h
                rw [h] at hq0mem2
                exact (List.not_mem_nil q0) hq0mem2
              have hps2 := peek_spec heap2 hinv2 hne2
              have hq0top : heap2.data.getD 0 default = q0 :=
                Option.some.inj (hps2.1.symm.trans hpk)
              have hq0h1 : q0 ∈ heap1.data :=
                hperm2.mem_iff.mpr (List.mem_append_left popped2 hq0mem2)
              have hq0th : q0 ∈ taken ++ heap.data := hperm1.mem_iff.mp hq0h1
              have hq0pool : q0 ∈ admitted ++ rest := by
                rcases List.mem_append.mp hq0th with hqt | hqh
                · exact List.mem_append_right admitted
                    (hrest_eq ▸ List.mem_append_left rest1 hqt)
                · exact List.mem_append_left rest
                    (hperm.mem_iff.mpr (List.mem_append_left popped hqh))
              have hq0start : q0.start ≤ ts := by
                rcases List.mem_append.mp hq0th with hqt | hqh
                · exact htaken q0 hqt
                · have h5 := hadm q0 (hperm.mem_iff.mpr (List.mem_append_left popped hqh))
                    j (List.mem_cons_self j tl)
                  rwa [← htx, ← hts] at h5
              have hq0end : ¬ q0.endS < ts := hpeek2 q0 hpk
              refine Or.inl ⟨q0, hq0pool, ⟨hq0start, by omega⟩, ?_, ?_⟩
              · intro q hq hact
                have hq2 : q ∈ heap2.data := hactmem q hq hact
                obtain ⟨k, hk, hgk⟩ := mem_getD (d := default) hq2
                rw [← hgk, ← hq0top]
                exact heapInv_root_max hinv2 k hk
              · rw [hres, hval, hnfv]
          | none =>
              have hnfv : nf = tx.remanentBasePaise := by rw [hnf, hpk]
              have hemp : heap2.data = [] := (peek_none_iff heap2).mp hpk
              refine Or.inr ⟨?_, by rw [hres, hval, hnfv]⟩
              intro q hq hact
              have := hactmem q hq hact
              rw [hemp] at this
              exact (List.not_mem_nil q) this
        · -- a later index: transported from the induction hypothesis
          have h3 := ihin j hj'
          rw [hgd j hj'] at h3
          rw [List.append_assoc, ← hrest_eq] at h3
          exact h3

/-- Record-level characterization of the override pass: every processed
transaction either receives the qle-maximal active period's fixed amount
or is reset to its base remanent. -/
theorem applyQPeriods_char (transactions : List Tx) (qPeriods : List QPeriod)
    (idxs : List Nat)
    (hbound : ∀ i ∈ idxs, i < transactions.length)
    (hnodup : idxs.Nodup)
    (hmono : idxs.Pairwise (fun a b =>
      (transactions.getD a default).epochSeconds ≤ (transactions.getD b default).epochSeconds))
    (hinit : ∀ t ∈ transactions, t.remanentFinalPaise = t.remanentBasePaise)
    (i : Nat) (hi : i ∈ idxs) :
    (∃ w ∈ qPeriods, qActive w (transactions.getD i default).epochSeconds ∧
      (∀ q ∈ qPeriods, qActive q (transactions.getD i default).epochSeconds → qle q w) ∧
      (applyQPeriods transactions qPeriods idxs).getD i default =
        { transactions.getD i default with remanentFinalPaise := w.fixedPaise }) ∨
    ((∀ q ∈ qPeriods, ¬ qActive q (transactions.getD i default).epochSeconds) ∧
      (applyQPeriods transactions qPeriods idxs).getD i default =
        { transactions.getD i default with remanentFinalPaise :=
          (transactions.getD i default).remanentBasePaise }) := by
  rw [applyQPeriods_eq_foldl]
  by_cases h0 : qPeriods.length = 0
  · rw [if_pos h0]
    have hqnil : qPeriods = [] := List.length_eq_zero.mp h0
    subst hqnil
    refine Or.inr ⟨fun q hq => absurd hq (List.not_mem_nil q), ?_⟩
    have hb := hinit (transactions.getD i default) (getD_mem_any (hbound i hi))
    rw [← hb]
  · rw [if_neg h0]
    have hqperm := List.perm_insertionSort
      (fun (a b : QPeriod) => a.start < b.start ∨ (a.start = b.start ∧ a.inputOrder ≤ b.inputOrder))
      qPeriods
    have hsorted : (List.insertionSort
        (fun (a b : QPeriod) => a.start < b.start ∨ (a.start = b.start ∧ a.inputOrder ≤ b.inputOrder))
        qPeriods).Pairwise (fun a b => a.start ≤ b.start) := by
      haveI : IsTotal QPeriod
          (fun a b => a.start < b.start ∨ (a.start = b.start ∧ a.inputOrder ≤ b.inputOrder)) :=
        ⟨fun a b => by omega⟩
      haveI : IsTrans QPeriod
          (fun a b => a.start < b.start ∨ (a.start = b.start ∧ a.inputOrder ≤ b.inputOrder)) :=
        ⟨fun a b c hab hbc => by omega⟩
      refine (List.sorted_insertionSort _ qPeriods).imp ?_
      intro a b h
      rcases h with h | ⟨h, -⟩
      · exact le_of_lt h
      · exact le_of_eq h
    obtain ⟨hlen, hout, hin⟩ := qFold_spec idxs transactions ⟨qCompare, []⟩
      (List.insertionSort
        (fun a b => a.start < b.start ∨ (a.start = b.start ∧ a.inputOrder ≤ b.inputOrder))
        qPeriods) [] []
      rfl (fun k hk hkl => absurd hkl (by simp)) (by simp) hsorted hbound hnodup hmono
      (fun q hq => absurd hq (List.not_mem_nil q))
      (fun q hq => absurd hq (List.not_mem_nil q))
    have h3 := hin i hi
    simp only [List.nil_append] at h3
    rcases h3 with ⟨w, hwmem, hwact, hwmax, hwval⟩ | ⟨hnone, hval⟩
    · exact Or.inl ⟨w, hqperm.mem_iff.mp hwmem, hwact,
        fun q hq hact => hwmax q (hqperm.mem_iff.mpr hq) hact, hwval⟩
    · exact Or.inr ⟨fun q hq => hnone q (hqperm.mem_iff.mpr hq), hval⟩

theorem foldl_qStep_length : ∀ (idxs : List Nat) (st : List Tx × BinaryHeap × List QPeriod),
    (idxs.foldl qStep st).1.length = st.1.length := by
  intro idxs
  induction idxs with
  | nil => intro st; rfl
  | cons i tl ih =>
      intro st
      rw [List.foldl_cons, ih]
      show (st.1.set i _).length = st.1.length
      rw [List.length_set]

theorem applyQPeriods_length (transactions : List Tx) (qPeriods : List QPeriod)
    (idxs : List Nat) :
    (applyQPeriods transactions qPeriods idxs).length = transactions.length := by
  rw [applyQPeriods_eq_foldl]
  split_ifs with h
  · rfl
  · exact foldl_qStep_length idxs _

/-- C3: if at least one q period's inclusive [start, end] contains the
transaction's instant, the override step overwrites the final remanent
with the fixed amount of the containing period with the latest start
(ties broken by smaller input position); otherwise the transaction keeps
its base remanent. -/
theorem applyQPeriods_override (transactions : List Tx) (qPeriods : List QPeriod)
    (idxs : List Nat)
    (hbound : ∀ i ∈ idxs, i < transactions.length)
    (hnodup : idxs.Nodup)
    (hmono : idxs.Pairwise (fun a b =>
      (transactions.getD a default).epochSeconds ≤ (transactions.getD b default).epochSeconds))
    (hinit : ∀ t ∈ transactions, t.remanentFinalPaise = t.remanentBasePaise)
    (i : Nat) (hi : i ∈ idxs) :
    ((∃ q ∈ qPeriods, qActive q (transactions.getD i default).epochSeconds) →
      ∃ w ∈ qPeriods, qActive w (transactions.getD i default).epochSeconds ∧
        (∀ q ∈ qPeriods, qActive q (transactions.getD i default).epochSeconds →
          q.start < w.start ∨ (q.start = w.start ∧ w.inputOrder ≤ q.inputOrder)) ∧
        ((applyQPeriods transactions qPeriods idxs).getD i default).remanentFinalPaise =
          w.fixedPaise) ∧
    ((∀ q ∈ qPeriods, ¬ qActive q (transactions.getD i default).epochSeconds) →
      ((applyQPeriods transactions qPeriods idxs).getD i default).remanentFinalPaise =
        (transactions.getD i default).remanentBasePaise) := by
  rcases applyQPeriods_char transactions qPeriods idxs hbound hnodup hmono hinit i hi with
    ⟨w, hwmem, hwact, hwmax, hwval⟩ | ⟨hnone, hval⟩
  · constructor
    · intro _
      exact ⟨w, hwmem, hwact,
        fun q hq hact => qle_iff.mp (hwmax q hq hact), by rw [hwval]⟩
    · intro hall
      exact absurd hwact (hall w hwmem)
  · constructor
    · rintro ⟨q, hq, hact⟩
      exact absurd hact (hnone q hq)
    · intro _
      rw [hval]

theorem applyQPeriods_override_witness :
    (0 : Nat) ∈ [0] ∧
    ((applyQPeriods
      [⟨"t", 100, 0, 0, 5, 5, 0⟩]
      [⟨"q1", 777, 50, 150, 0⟩, ⟨"q2", 888, 60, 160, 1⟩]
      [0]).getD 0 default).remanentFinalPaise = 888 := by
  refine ⟨by decide, ?_⟩
  obtain ⟨h1, h2⟩ := applyQPeriods_override
    [⟨"t", 100, 0, 0, 5, 5, 0⟩]
    [⟨"q1", 777, 50, 150, 0⟩, ⟨"q2", 888, 60, 160, 1⟩]
    [0]
    (by decide) (by decide) (by decide) (by decide) 0 (by decide)
  obtain ⟨w, hwmem, hwact, hwmax, hwval⟩ :=
    h1 ⟨⟨"q2", 888, 60, 160, 1⟩, by decide, by decide, by decide⟩
  simp only [List.mem_cons, List.not_mem_nil, or_false] at hwmem
  rcases hwmem with rfl | rfl
  · exact absurd (hwmax ⟨"q2", 888, 60, 160, 1⟩ (by decide) ⟨by decide, by decide⟩) (by decide)
  · exact hwval



/-- A `+extra` / `-extra` delta event of the additive sweep. -/
structure PEvent where
  time : Int
  delta : Int
  deriving DecidableEq, Repr, Inhabited

/-- The event-consumption loop of `applyPPeriods`: consume every event
with time ≤ the current instant, accumulating the running extra. -/
def consumePLoop (activeExtra : Int) (events : List PEvent) (ts : Int) :
    Int × List PEvent :=
  match events with
  | [] => (activeExtra, [])
  | e :: tl =>
      if e.time ≤ ts then consumePLoop (activeExtra + e.delta) tl ts
      else (activeExtra, e :: tl)

/-- Model of `applyPPeriods`: two delta events per period (`+extra` at
start, `-extra` at end + 1), sorted by time; walk the transactions in
chronological index order adding the running active extra on top of the
current final remanent. -/
def applyPPeriods (transactions : List Tx) (pPeriods : List PPeriod)
    (sortedTransactionIndices : List Nat) : List Tx :=
  if pPeriods.length = 0 then transactions
  else
    let events := pPeriods.flatMap fun period =>
      [⟨period.start, period.extraPaise⟩, ⟨period.endS + 1, -period.extraPaise⟩]
    let sorted := List.insertionSort (fun a b => a.time ≤ b.time) events
    (sortedTransactionIndices.foldl
      (fun (st : List Tx × Int × List PEvent) txIndex =>
        let txs := st.1
        let tx := txs.getD txIndex default
        let ts := tx.epochSeconds
        let (activeExtra, rest) := consumePLoop st.2.1 st.2.2 ts
        (txs.set txIndex
          { tx with remanentFinalPaise := tx.remanentFinalPaise + activeExtra },
          activeExtra, rest))
      (transactions, 0, sorted)).1

/-- The body of the fold inside `applyPPeriods`, named for reasoning. -/
def pStep (st : List Tx × Int × List PEvent) (txIndex : Nat) :
    List Tx × Int × List PEvent :=
  let txs := st.1
  let tx := txs.getD txIndex default
  let ts := tx.epochSeconds
  let (activeExtra, rest) := consumePLoop st.2.1 st.2.2 ts
  (txs.set txIndex
    { tx with remanentFinalPaise := tx.remanentFinalPaise + activeExtra },
    activeExtra, rest)

theorem applyPPeriods_eq_foldl (transactions : List Tx) (pPeriods : List PPeriod)
    (idxs : List Nat) :
    applyPPeriods transactions pPeriods idxs =
      if pPeriods.length = 0 then transactions
      else (idxs.foldl pStep (transactions, 0,
        List.insertionSort (fun a b => a.time ≤ b.time)
          (pPeriods.flatMap fun period =>
            [⟨period.start, period.extraPaise⟩, ⟨period.endS + 1, -period.extraPaise⟩]))).1 := rfl

/-- The running sum of the deltas of the events already due at an
instant. -/
def eventSum (events : List PEvent) (ts : Int) : Int :=
  (events.map fun e => if e.time ≤ ts then e.delta else 0).sum

/-- The spec-side additive amount: the sum of the extras of every p
period whose inclusive interval contains the instant. -/
def pExtraSum (pPeriods : List PPeriod) (ts : Int) : Int :=
  (pPeriods.map fun p => if p.start ≤ ts ∧ ts ≤ p.endS then p.extraPaise else 0).sum

theorem eventSum_append (l1 l2 : List PEvent) (ts : Int) :
    eventSum (l1 ++ l2) ts = eventSum l1 ts + eventSum l2 ts := by
  simp [eventSum]

theorem eventSum_all {l : List PEvent} {ts : Int} (h : ∀ e ∈ l, e.time ≤ ts) :
    eventSum l ts = (l.map PEvent.delta).sum := by
  refine congrArg List.sum (List.map_congr_left ?_)
  intro e he
  rw [if_pos (h e he)]

theorem eventSum_none {l : List PEvent} {ts : Int} (h : ∀ e ∈ l, ¬ e.time ≤ ts) :
    eventSum l ts = 0 := by
  refine List.sum_eq_zero ?_
  intro x hx
  obtain ⟨e, he, rfl⟩ := List.mem_map.mp hx
  rw [if_neg (h e he)]

theorem eventSum_perm {l1 l2 : List PEvent} (h : l1.Perm l2) (ts : Int) :
    eventSum l1 ts = eventSum l2 ts :=
  (h.map _).sum_eq

theorem eventSum_flatMap (pPeriods : List PPeriod) (ts : Int)
    (hse : ∀ p ∈ pPeriods, p.start ≤ p.endS) :
    eventSum (pPeriods.flatMap fun period =>
      [⟨period.start, period.extraPaise⟩, ⟨period.endS + 1, -period.extraPaise⟩]) ts =
    pExtraSum pPeriods ts := by
  induction pPeriods with
  | nil => rfl
  | cons p tl ih =>
      have hp := hse p (List.mem_cons_self p tl)
      rw [List.flatMap_cons, eventSum_append,
        ih (fun q hq => hse q (List.mem_cons_of_mem p hq))]
      simp only [pExtraSum, eventSum, List.map_cons, List.map_nil, List.sum_cons,
        List.sum_nil, add_zero]
      split_ifs <;> omega

theorem consumePLoop_spec : ∀ (events : List PEvent) (A ts : Int),
    ∃ consumed, events = consumed ++ (consumePLoop A events ts).2 ∧
      (consumePLoop A events ts).1 = A + (consumed.map PEvent.delta).sum ∧
      (∀ e ∈ consumed, e.time ≤ ts) ∧
      (∀ e ∈ ((consumePLoop A events ts).2).head?, ¬ e.time ≤ ts) := by
  intro events
  induction events with
  | nil =>
      intro A ts
      exact ⟨[], rfl, by simp [consumePLoop], by simp, by simp [consumePLoop]⟩
  | cons e tl ih =>
      intro A ts
      rw [consumePLoop]
      by_cases he : e.time ≤ ts
      · rw [if_pos he]
        obtain ⟨consumed, heq, hval, hmem, hhd⟩ := ih (A + e.delta) ts
        refine ⟨e :: consumed, by rw [List.cons_append, ← heq], ?_, ?_, hhd⟩
        · rw [hval, List.map_cons, List.sum_cons]
          ring
        · intro x hx
          rcases List.mem_cons.mp hx with rfl | hx'
          · exact he
          · exact hmem x hx'
      · rw [if_neg he]
        refine ⟨[], rfl, by simp, by simp, ?_⟩
        intro e0 he0
        simp at he0
        subst he0
        exact he

theorem sortedP_all_gt {rest : List PEvent} {ts : Int}
    (hs : rest.Pairwise (fun a b => a.time ≤ b.time))
    (hh : ∀ e ∈ rest.head?, ¬ e.time ≤ ts) :
    ∀ e ∈ rest, ¬ e.time ≤ ts := by
  cases rest with
  | nil => intro e he; exact absurd he (List.not_mem_nil e)
  | cons h t =>
      intro e he
      have hh' : ¬ h.time ≤ ts := hh h rfl
      rcases List.mem_cons.mp he with rfl | he'
      · exact hh'
      · have := (List.pairwise_cons.mp hs).1 e he'
        omega

theorem pFold_spec : ∀ (idxs : List Nat) (txs : List Tx) (A : Int)
    (rest allE : List PEvent),
    rest.Pairwise (fun a b => a.time ≤ b.time) →
    (∀ i ∈ idxs, i < txs.length) →
    idxs.Nodup →
    idxs.Pairwise (fun a b =>
      (txs.getD a default).epochSeconds ≤ (txs.getD b default).epochSeconds) →
    (∀ i ∈ idxs, A + eventSum rest (txs.getD i default).epochSeconds =
      eventSum allE (txs.getD i default).epochSeconds) →
    (idxs.foldl pStep (txs, A, rest)).1.length = txs.length ∧
    (∀ j, j ∉ idxs → (idxs.foldl pStep (txs, A, rest)).1.getD j default =
      txs.getD j default) ∧
    (∀ i ∈ idxs, (idxs.foldl pStep (txs, A, rest)).1.getD i default =
      { txs.getD i default with remanentFinalPaise := ((txs.getD i default).remanentFinalPaise +
          eventSum allE (txs.getD i default).epochSeconds) }) := by
  intro idxs
  induction idxs with
  | nil =>
      intro txs A rest allE hsrt hbound hnd hmono hinv
      exact ⟨rfl, fun j _ => rfl, fun i hi => absurd hi (List.not_mem_nil i)⟩
  | cons i tl ih =>
      intro txs A rest allE hsrt hbound hnd hmono hinv
      have hibound : i < txs.length := hbound i (List.mem_cons_self i tl)
      have hitl : i ∉ tl := (List.nodup_cons.mp hnd).1
      have hndtl : tl.Nodup := (List.nodup_cons.mp hnd).2
      have hmono1 : ∀ j ∈ tl,
          (txs.getD i default).epochSeconds ≤ (txs.getD j default).epochSeconds :=
        (List.pairwise_cons.mp hmono).1
      have hmonotl := (List.pairwise_cons.mp hmono).2
      set tx := txs.getD i default with htx
      set ts := tx.epochSeconds with hts
      obtain ⟨consumed, heq, hval, hcmem, hhd⟩ := consumePLoop_spec rest A ts
      set A1 := (consumePLoop A rest ts).1 with hA1
      set rest1 := (consumePLoop A rest ts).2 with hrest1
      set txs' := txs.set i { tx with remanentFinalPaise := tx.remanentFinalPaise + A1 }
        with htxs'
      have hstep : pStep (txs, A, rest) i = (txs', A1, rest1) := rfl
      have hlen' : txs'.length = txs.length := by
        rw [htxs', List.length_set]
      have hgd : ∀ j ∈ tl, txs'.getD j default = txs.getD j default := by
        intro j hj
        exact getD_set_ne_any (fun he => hitl (he ▸ hj))
      have hsrt1 : rest1.Pairwise (fun a b => a.time ≤ b.time) :=
        (List.pairwise_append.mp (heq ▸ hsrt)).2.1
      have hrest1_gt : ∀ e ∈ rest1, ¬ e.time ≤ ts := sortedP_all_gt hsrt1 hhd
      have hsplit : eventSum rest ts = (consumed.map PEvent.delta).sum := by
        rw [heq, eventSum_append, eventSum_all hcmem, eventSum_none hrest1_gt, add_zero]
      have hA1v : A1 = eventSum allE ts := by
        have h0 := hinv i (List.mem_cons_self i tl)
        rw [← htx, ← hts] at h0
        rw [hval, ← hsplit, h0]
      have hinv' : ∀ j ∈ tl, A1 + eventSum rest1 (txs'.getD j default).epochSeconds =
          eventSum allE (txs'.getD j default).epochSeconds := by
        intro j hj
        rw [hgd j hj]
        have h0 := hinv j (List.mem_cons_of_mem i hj)
        have hsplit' : eventSum rest (txs.getD j default).epochSeconds =
            (consumed.map PEvent.delta).sum +
              eventSum rest1 (txs.getD j default).epochSeconds := by
          rw [heq, eventSum_append,
            eventSum_all (fun e he => le_trans (hcmem e he) (hmono1 j hj))]
        rw [hval]
        omega
      have hD : ∀ j ∈ tl, j < txs'.length := by
        intro j hj
        rw [hlen']
        exact hbound j (List.mem_cons_of_mem i hj)
      have hF : tl.Pairwise (fun a b =>
          (txs'.getD a default).epochSeconds ≤ (txs'.getD b default).epochSeconds) := by
        refine List.Pairwise.imp_of_mem ?_ hmonotl
        intro a b ha hb hr
        rw [hgd a ha, hgd b hb]
        exact hr
      obtain ⟨ihlen, ihout, ihin⟩ := ih txs' A1 rest1 allE hsrt1 hD hndtl hF hinv'
      rw [List.foldl_cons, hstep]
      refine ⟨ihlen.trans hlen', ?_, ?_⟩
      · intro j hjn
        have hji : j ≠ i := fun h => hjn (h ▸ List.mem_cons_self i tl)
        have hjtl : j ∉ tl := fun h => hjn (List.mem_cons_of_mem i h)
        rw [ihout j hjtl]
        exact getD_set_ne_any (Ne.symm hji)
      · intro j hj
        rcases List.mem_cons.mp hj with rfl | hj'
        · rw [show txs.getD j default = tx from htx.symm,
            show tx.epochSeconds = ts from hts.symm]
          rw [ihout j hitl, htxs', getD_set_self_any hibound, hA1v]
        · have h3 := ihin j hj'
          rw [hgd j hj'] at h3
          exact h3

/-- Record-level characterization of the additive pass: every processed
transaction gains exactly the sum of the extras of the p periods whose
interval contains its instant. -/
theorem applyPPeriods_char (transactions : List Tx) (pPeriods : List PPeriod)
    (idxs : List Nat)
    (hbound : ∀ i ∈ idxs, i < transactions.length)
    (hnodup : idxs.Nodup)
    (hmono : idxs.Pairwise (fun a b =>
      (transactions.getD a default).epochSeconds ≤ (transactions.getD b default).epochSeconds))
    (hse : ∀ p ∈ pPeriods, p.start ≤ p.endS)
    (i : Nat) (hi : i ∈ idxs) :
    (applyPPeriods transactions pPeriods idxs).getD i default =
      { transactions.getD i default with remanentFinalPaise := ((transactions.getD i default).remanentFinalPaise +
          pExtraSum pPeriods (transactions.getD i default).epochSeconds) } := by
  rw [applyPPeriods_eq_foldl]
  by_cases h0 : pPeriods.length = 0
  · rw [if_pos h0]
    have hpnil : pPeriods = [] := List.length_eq_zero.mp h0
    subst hpnil
    have h1 : pExtraSum [] (transactions.getD i default).epochSeconds = 0 := rfl
    rw [h1, add_zero]
  · rw [if_neg h0]
    have hperm := List.perm_insertionSort (fun (a b : PEvent) => a.time ≤ b.time)
      (pPeriods.flatMap fun period =>
        [⟨period.start, period.extraPaise⟩, ⟨period.endS + 1, -period.extraPaise⟩])
    have hsorted : (List.insertionSort (fun (a b : PEvent) => a.time ≤ b.time)
        (pPeriods.flatMap fun period =>
          [⟨period.start, period.extraPaise⟩, ⟨period.endS + 1, -period.extraPaise⟩])).Pairwise
        (fun a b => a.time ≤ b.time) := by
      haveI : IsTotal PEvent (fun a b => a.time ≤ b.time) := ⟨fun a b => le_total _ _⟩
      haveI : IsTrans PEvent (fun a b => a.time ≤ b.time) :=
        ⟨fun a b c hab hbc => le_trans hab hbc⟩
      exact List.sorted_insertionSort _ _
    obtain ⟨hlen, hout, hin⟩ := pFold_spec idxs transactions 0
      (List.insertionSort (fun a b => a.time ≤ b.time)
        (pPeriods.flatMap fun period =>
          [⟨period.start, period.extraPaise⟩, ⟨period.endS + 1, -period.extraPaise⟩]))
      (List.insertionSort (fun a b => a.time ≤ b.time)
        (pPeriods.flatMap fun period =>
          [⟨period.start, period.extraPaise⟩, ⟨period.endS + 1, -period.extraPaise⟩]))
      hsorted hbound hnodup hmono (fun j hj => zero_add _)
    have h3 := hin i hi
    rw [h3, eventSum_perm hperm, eventSum_flatMap pPeriods _ hse]

theorem foldl_pStep_length : ∀ (idxs : List Nat) (st : List Tx × Int × List PEvent),
    (idxs.foldl pStep st).1.length = st.1.length := by
  intro idxs
  induction idxs with
  | nil => intro st; rfl
  | cons i tl ih =>
      intro st
      rw [List.foldl_cons, ih]
      show (st.1.set i _).length = st.1.length
      rw [List.length_set]

theorem applyPPeriods_length (transactions : List Tx) (pPeriods : List PPeriod)
    (idxs : List Nat) :
    (applyPPeriods transactions pPeriods idxs).length = transactions.length := by
  rw [applyPPeriods_eq_foldl]
  split_ifs with h
  · rfl
  · exact foldl_pStep_length idxs _


/-- Fuel-driven core of `lowerBound` (the interval `right - left`
shrinks every iteration, so `array length + 1` steps suffice). -/
def lowerBoundCore (array : List Int) (target : Int) (fuel left right : Nat) : Nat :=
  match fuel with
  | 0 => left
  | fuel + 1 =>
      if left < right then
        let mid := (left + right) / 2
        if array.getD mid 0 < target then lowerBoundCore array target fuel (mid + 1) right
        else lowerBoundCore array target fuel left mid
      else left

/-- Model of `lowerBound`: first index whose value is ≥ target. -/
def lowerBound (array : List Int) (target : Int) : Nat :=
  lowerBoundCore array target (array.length + 1) 0 array.length

/-- Fuel-driven core of `upperBound`. -/
def upperBoundCore (array : List Int) (target : Int) (fuel left right : Nat) : Nat :=
  match fuel with
  | 0 => left
  | fuel + 1 =>
      if left < right then
        let mid := (left + right) / 2
        if array.getD mid 0 ≤ target then upperBoundCore array target fuel (mid + 1) right
        else upperBoundCore array target fuel left mid
      else left

/-- Model of `upperBound`: first index whose value is > target. -/
def upperBound (array : List Int) (target : Int) : Nat :=
  upperBoundCore array target (array.length + 1) 0 array.length

/-- An entry of `savingsByDates` before serialization. -/
structure SavingsEntry where
  start : String
  endS : String
  amountPaise : Int
  deriving DecidableEq, Repr, Inhabited

/-- Model of `buildSavingsByKPeriods`: sort the transactions by instant,
build a prefix-sum array over the final remanents, and answer each
window with two binary searches. -/
def buildSavingsByKPeriods (transactions : List Tx) (kPeriods : List KPeriod) :
    List SavingsEntry :=
  let sortedTransactions :=
    List.insertionSort (fun a b => a.epochSeconds ≤ b.epochSeconds) transactions
  let times := sortedTransactions.map (·.epochSeconds)
  let acc := sortedTransactions.scanl (fun acc tx => acc + tx.remanentFinalPaise) 0
  kPeriods.map fun period =>
    let left := lowerBound times period.start
    let rightExclusive := upperBound times period.endS
    let sum := acc.getD rightExclusive 0 - acc.getD left 0
    { start := period.startText, endS := period.endText, amountPaise := sum }

theorem sorted_getD_mono {l : List Int} (hs : l.Pairwise (· ≤ ·)) {i j : Nat}
    (hij : i ≤ j) (hj : j < l.length) : l.getD i 0 ≤ l.getD j 0 := by
  rcases Nat.eq_or_lt_of_le hij with rfl | hlt
  · exact le_refl _
  · have := List.pairwise_iff_getElem.mp hs i j (lt_trans hlt hj) hj hlt
    rw [List.getD_eq_getElem l 0 (lt_trans hlt hj), List.getD_eq_getElem l 0 hj]
    exact this

theorem lowerBoundCore_spec : ∀ (fuel : Nat) (array : List Int) (target : Int)
    (left right : Nat),
    array.Pairwise (· ≤ ·) →
    left ≤ right → right ≤ array.length →
    (∀ k, k < left → array.getD k 0 < target) →
    (∀ k, right ≤ k → k < array.length → target ≤ array.getD k 0) →
    right - left ≤ fuel →
    left ≤ lowerBoundCore array target fuel left right ∧
    lowerBoundCore array target fuel left right ≤ right ∧
    (∀ k, k < lowerBoundCore array target fuel left right → array.getD k 0 < target) ∧
    (∀ k, lowerBoundCore array target fuel left right ≤ k → k < array.length →
      target ≤ array.getD k 0) := by
  intro fuel
  induction fuel with
  | zero =>
      intro array target left right hs hlr hrlen hlo hhi hfuel
      have : ¬ left < right := by omega
      rw [lowerBoundCore]
      exact ⟨le_refl _, hlr, hlo, fun k hk hklen => hhi k (by omega) hklen⟩
  | succ fuel ih =>
      intro array target left right hs hlr hrlen hlo hhi hfuel
      rw [lowerBoundCore]
      by_cases hc : left < right
      · rw [if_pos hc]
        by_cases hm : array.getD ((left + right) / 2) 0 < target
        · rw [if_pos hm]
          refine (ih array target ((left + right) / 2 + 1) right hs (by omega) hrlen
            ?_ hhi (by omega)).imp (by omega) (fun h => h)
          intro k hk
          exact lt_of_le_of_lt
            (sorted_getD_mono hs (by omega) (by omega)) hm
        · rw [if_neg hm]
          refine (ih array target left ((left + right) / 2) hs (by omega) (by omega)
            hlo ?_ (by omega)).imp (fun h => h) (fun h => ⟨by omega, h.2⟩)
          intro k hk hklen
          exact le_trans (not_lt.mp hm) (sorted_getD_mono hs (by omega) hklen)
      · rw [if_neg hc]
        exact ⟨le_refl _, by omega, hlo, fun k hk hklen => hhi k (by omega) hklen⟩

theorem lowerBound_spec (array : List Int) (target : Int)
    (hs : array.Pairwise (· ≤ ·)) :
    lowerBound array target ≤ array.length ∧
    (∀ k, k < lowerBound array target → array.getD k 0 < target) ∧
    (∀ k, lowerBound array target ≤ k → k < array.length → target ≤ array.getD k 0) := by
  have h := lowerBoundCore_spec (array.length + 1) array target 0 array.length hs
    (by omega) (le_refl _) (fun k hk => absurd hk (by omega))
    (fun k hk hklen => absurd hklen (by omega)) (by omega)
  exact ⟨h.2.1, h.2.2.1, h.2.2.2⟩

theorem upperBoundCore_spec : ∀ (fuel : Nat) (array : List Int) (target : Int)
    (left right : Nat),
    array.Pairwise (· ≤ ·) →
    left ≤ right → right ≤ array.length →
    (∀ k, k < left → array.getD k 0 ≤ target) →
    (∀ k, right ≤ k → k < array.length → target < array.getD k 0) →
    right - left ≤ fuel →
    left ≤ upperBoundCore array target fuel left right ∧
    upperBoundCore array target fuel left right ≤ right ∧
    (∀ k, k < upperBoundCore array target fuel left right → array.getD k 0 ≤ target) ∧
    (∀ k, upperBoundCore array target fuel left right ≤ k → k < array.length →
      target < array.getD k 0) := by
  intro fuel
  induction fuel with
  | zero =>
      intro array target left right hs hlr hrlen hlo hhi hfuel
      have : ¬ left < right := by omega
      rw [upperBoundCore]
      exact ⟨le_refl _, hlr, hlo, fun k hk hklen => hhi k (by omega) hklen⟩
  | succ fuel ih =>
      intro array target left right hs hlr hrlen hlo hhi hfuel
      rw [upperBoundCore]
      by_cases hc : left < right
      · rw [if_pos hc]
        by_cases hm : array.getD ((left + right) / 2) 0 ≤ target
        · rw [if_pos hm]
          refine (ih array target ((left + right) / 2 + 1) right hs (by omega) hrlen
            ?_ hhi (by omega)).imp (by omega) (fun h => h)
          intro k hk
          exact le_trans (sorted_getD_mono hs (by omega) (by omega)) hm
        · rw [if_neg hm]
          refine (ih array target left ((left + right) / 2) hs (by omega) (by omega)
            hlo ?_ (by omega)).imp (fun h => h) (fun h => ⟨by omega, h.2⟩)
          intro k hk hklen
          exact lt_of_lt_of_le (not_le.mp hm) (sorted_getD_mono hs (by omega) hklen)
      · rw [if_neg hc]
        exact ⟨le_refl _, by omega, hlo, fun k hk hklen => hhi k (by omega) hklen⟩

theorem upperBound_spec (array : List Int) (target : Int)
    (hs : array.Pairwise (· ≤ ·)) :
    upperBound array target ≤ array.length ∧
    (∀ k, k < upperBound array target → array.getD k 0 ≤ target) ∧
    (∀ k, upperBound array target ≤ k → k < array.length → target < array.getD k 0) := by
  have h := upperBoundCore_spec (array.length + 1) array target 0 array.length hs
    (by omega) (le_refl _) (fun k hk => absurd hk (by omega))
    (fun k hk hklen => absurd hklen (by omega)) (by omega)
  exact ⟨h.2.1, h.2.2.1, h.2.2.2⟩


theorem scanl_add_getD : ∀ (l : List Tx) (n : Nat) (a : Int), n ≤ l.length →
    (l.scanl (fun acc tx => acc + tx.remanentFinalPaise) a).getD n 0 =
      a + ((l.take n).map Tx.remanentFinalPaise).sum := by
  intro l
  induction l with
  | nil =>
      intro n a h
      have hn : n = 0 := by simpa using h
      subst hn
      simp [List.scanl]
  | cons x tl ih =>
      intro n a h
      cases n with
      | zero => simp [List.scanl]
      | succ n =>
          rw [List.scanl]
          simp only [List.getD_cons_succ]
          rw [ih n (a + x.remanentFinalPaise) (by simpa using h)]
          rw [List.take_succ_cons, List.map_cons, List.sum_cons]
          ring

theorem mem_getD_any {α : Type} [Inhabited α] {l : List α} {x : α} (h : x ∈ l) :
    ∃ i, i < l.length ∧ l.getD i default = x := by
  obtain ⟨i, hi, hget⟩ := List.getElem_of_mem h
  exact ⟨i, hi, by rw [List.getD, List.get?_eq_getElem?, List.getElem?_eq_getElem hi,
    Option.getD_some]; exact hget⟩

theorem getD_take_lt {α : Type} {l : List α} {n j : Nat} {d : α} (h : j < n) :
    (l.take n).getD j d = l.getD j d := by
  simp [List.getD, List.getElem?_take, h]

theorem getD_drop_any {α : Type} {l : List α} {n j : Nat} {d : α} :
    (l.drop n).getD j d = l.getD (n + j) d := by
  simp [List.getD, List.getElem?_drop]

theorem map_getD_epoch (S : List Tx) (j : Nat) (h : j < S.length) :
    (S.map (·.epochSeconds)).getD j 0 = (S.getD j default).epochSeconds := by
  rw [List.getD, List.getD, List.get?_eq_getElem?, List.get?_eq_getElem?,
    List.getElem?_map, List.getElem?_eq_getElem h]
  simp

theorem sum_if_zero {α : Type} (f : α → Int) (P : α → Prop) [DecidablePred P]
    {l : List α} (h : ∀ x ∈ l, ¬ P x) :
    (l.map fun x => if P x then f x else 0).sum = 0 := by
  refine List.sum_eq_zero ?_
  intro y hy
  obtain ⟨x, hx, rfl⟩ := List.mem_map.mp hy
  rw [if_neg (h x hx)]

theorem sum_if_all {α : Type} (f : α → Int) (P : α → Prop) [DecidablePred P]
    {l : List α} (h : ∀ x ∈ l, P x) :
    (l.map fun x => if P x then f x else 0).sum = (l.map f).sum := by
  refine congrArg List.sum (List.map_congr_left ?_)
  intro x hx
  rw [if_pos (h x hx)]

/-- C4: each reported window amount is the exact sum of `finalRemanent`
over the transactions whose instant lies in the window's inclusive
interval; windows are independent of each other and of their order. -/
theorem buildSavings_windows (transactions : List Tx) (kPeriods : List KPeriod)
    (hk : ∀ k ∈ kPeriods, k.start ≤ k.endS) :
    buildSavingsByKPeriods transactions kPeriods =
      kPeriods.map fun period =>
        { start := period.startText, endS := period.endText,
          amountPaise := (transactions.map fun t =>
            if period.start ≤ t.epochSeconds ∧ t.epochSeconds ≤ period.endS
            then t.remanentFinalPaise else 0).sum } := by
  refine List.map_congr_left ?_
  intro k hkmem
  have hks := hk k hkmem
  set S := List.insertionSort (fun (a b : Tx) => a.epochSeconds ≤ b.epochSeconds) transactions
    with hS
  have hSperm : S.Perm transactions := List.perm_insertionSort _ _
  have hSsorted : S.Pairwise (fun a b => a.epochSeconds ≤ b.epochSeconds) := by
    haveI : IsTotal Tx (fun a b => a.epochSeconds ≤ b.epochSeconds) :=
      ⟨fun a b => le_total _ _⟩
    haveI : IsTrans Tx (fun a b => a.epochSeconds ≤ b.epochSeconds) :=
      ⟨fun a b c hab hbc => le_trans hab hbc⟩
    exact List.sorted_insertionSort _ _
  have htimes_sorted : (S.map (·.epochSeconds)).Pairwise (· ≤ ·) :=
    List.pairwise_map.mpr hSsorted
  have htlen : (S.map (·.epochSeconds)).length = S.length := List.length_map _ _
  obtain ⟨hlb_le, hlb_lo, hlb_hi⟩ := lowerBound_spec (S.map (·.epochSeconds)) k.start
    htimes_sorted
  obtain ⟨hub_le, hub_lo, hub_hi⟩ := upperBound_spec (S.map (·.epochSeconds)) k.endS
    htimes_sorted
  set lb := lowerBound (S.map (·.epochSeconds)) k.start with hlb
  set ub := upperBound (S.map (·.epochSeconds)) k.endS with hub
  have hlbub : lb ≤ ub := by
    by_contra hcon
    push_neg at hcon
    have h1 := hlb_lo ub (by omega)
    have h2 := hub_hi ub (le_refl _) (by omega)
    omega
  have hublen : ub ≤ S.length := by omega
  have hlblen : lb ≤ S.length := by omega
  -- the middle slice
  have hsplitS : S = (S.take ub ++ S.drop ub) := (List.take_append_drop ub S).symm
  have hsplitT : S.take ub = S.take lb ++ (S.take ub).drop lb := by
    have h1 := (List.take_append_drop lb (S.take ub)).symm
    rwa [List.take_take, min_eq_left hlbub] at h1
  -- prefix sums
  have hacc_ub := scanl_add_getD S ub 0 hublen
  have hacc_lb := scanl_add_getD S lb 0 hlblen
  -- value of the left-hand entry
  show ({ start := k.startText, endS := k.endText, amountPaise :=
      (S.scanl (fun acc tx => acc + tx.remanentFinalPaise) 0).getD ub 0 -
      (S.scanl (fun acc tx => acc + tx.remanentFinalPaise) 0).getD lb 0 } : SavingsEntry) = _
  have hdiff : (S.scanl (fun acc tx => acc + tx.remanentFinalPaise) 0).getD ub 0 -
      (S.scanl (fun acc tx => acc + tx.remanentFinalPaise) 0).getD lb 0 =
      (((S.take ub).drop lb).map Tx.remanentFinalPaise).sum := by
    rw [hacc_ub, hacc_lb]
    have : (S.take ub).map Tx.remanentFinalPaise =
        (S.take lb).map Tx.remanentFinalPaise ++
          ((S.take ub).drop lb).map Tx.remanentFinalPaise := by
      rw [← List.map_append, ← hsplitT]
    rw [this, List.sum_append]
    ring
  have hsum : (transactions.map fun t =>
      if k.start ≤ t.epochSeconds ∧ t.epochSeconds ≤ k.endS
      then t.remanentFinalPaise else 0).sum =
      (((S.take ub).drop lb).map Tx.remanentFinalPaise).sum := by
    have hpermsum : (transactions.map fun t =>
        if k.start ≤ t.epochSeconds ∧ t.epochSeconds ≤ k.endS
        then t.remanentFinalPaise else 0).sum =
        (S.map fun t =>
        if k.start ≤ t.epochSeconds ∧ t.epochSeconds ≤ k.endS
        then t.remanentFinalPaise else 0).sum :=
      ((hSperm.map _).sum_eq).symm
    rw [hpermsum]
    have hdecomp : S = S.take lb ++ ((S.take ub).drop lb ++ S.drop ub) := by
      rw [← List.append_assoc, ← hsplitT, ← hsplitS]
    conv_lhs => rw [hdecomp]
    rw [List.map_append, List.map_append, List.sum_append, List.sum_append]
    have hzero1 : ((S.take lb).map fun t =>
        if k.start ≤ t.epochSeconds ∧ t.epochSeconds ≤ k.endS
        then t.remanentFinalPaise else 0).sum = 0 := by
      refine sum_if_zero _ _ ?_
      intro t ht
      obtain ⟨j, hj, hget⟩ := mem_getD_any ht
      have hjlb : j < lb := by
        have := List.length_take lb S
        omega
      rw [getD_take_lt hjlb] at hget
      have hjlen : j < S.length := by omega
      have := hlb_lo j hjlb
      rw [map_getD_epoch S j hjlen, hget] at this
      intro hw
      omega
    have hzero2 : ((S.drop ub).map fun t =>
        if k.start ≤ t.epochSeconds ∧ t.epochSeconds ≤ k.endS
        then t.remanentFinalPaise else 0).sum = 0 := by
      refine sum_if_zero _ _ ?_
      intro t ht
      obtain ⟨j, hj, hget⟩ := mem_getD_any ht
      rw [getD_drop_any] at hget
      have hjlen : ub + j < S.length := by
        have := List.length_drop ub S
        omega
      have := hub_hi (ub + j) (by omega) (by omega)
      rw [map_getD_epoch S (ub + j) hjlen, hget] at this
      intro hw
      omega
    have hmid : (((S.take ub).drop lb).map fun t =>
        if k.start ≤ t.epochSeconds ∧ t.epochSeconds ≤ k.endS
        then t.remanentFinalPaise else 0).sum =
        (((S.take ub).drop lb).map Tx.remanentFinalPaise).sum := by
      refine sum_if_all _ _ ?_
      intro t ht
      obtain ⟨j, hj, hget⟩ := mem_getD_any ht
      have hlens : ((S.take ub).drop lb).length = ub - lb := by
        have h1 := List.length_take ub S
        have h2 := List.length_drop lb (S.take ub)
        omega
      have hjub : lb + j < ub := by omega
      rw [getD_drop_any, getD_take_lt hjub] at hget
      have hjlen : lb + j < S.length := by omega
      have h1 := hlb_hi (lb + j) (by omega) (by omega)
      have h2 := hub_lo (lb + j) (by omega)
      rw [map_getD_epoch S (lb + j) hjlen, hget] at h1 h2
      exact ⟨h1, h2⟩
    rw [hzero1, hzero2, hmid]
    ring
  rw [hdiff, hsum]


theorem buildSavings_windows_witness :
    (∀ k ∈ [(⟨"k", 0, 10, "a", "b", 0⟩ : KPeriod)], k.start ≤ k.endS) ∧
    buildSavingsByKPeriods
      [⟨"t1", 5, 0, 0, 0, 3, 0⟩, ⟨"t2", 20, 0, 0, 0, 4, 1⟩]
      [⟨"k", 0, 10, "a", "b", 0⟩] = [⟨"a", "b", 3⟩] := by
  refine ⟨by decide, ?_⟩
  rw [buildSavings_windows _ _ (by decide)]
  decide


/-- A `savingsByDates` entry as returned by `applyTemporalRules`
(two-decimal display text plus exact paise). -/
structure SavingsOut where
  start : String
  endS : String
  amount : String
  amountPaise : Int
  deriving DecidableEq, Repr, Inhabited

/-- Model of `applyTemporalRules`: chronological index order, override
pass, additive pass, then per-window aggregation.  Returns the mutated
transactions together with `savingsByDates`. -/
def applyTemporalRules (validTransactions : List Tx) (qPeriods : List QPeriod)
    (pPeriods : List PPeriod) (kPeriods : List KPeriod) : List Tx × List SavingsOut :=
  let sortedTransactionIndices := List.insertionSort
    (fun a b => (validTransactions.getD a default).epochSeconds ≤
      (validTransactions.getD b default).epochSeconds)
    (List.range validTransactions.length)
  let txs1 := applyQPeriods validTransactions qPeriods sortedTransactionIndices
  let txs2 := applyPPeriods txs1 pPeriods sortedTransactionIndices
  let savingsByDates := (buildSavingsByKPeriods txs2 kPeriods).map fun entry =>
    { start := entry.start, endS := entry.endS, amount := moneyToFixed2 entry.amountPaise,
      amountPaise := entry.amountPaise }
  (txs2, savingsByDates)

/-- The chronological processing order of `applyTemporalRules`: the
transaction indices sorted by instant (stable). -/
def chronologicalIndices (validTransactions : List Tx) : List Nat :=
  List.insertionSort
    (fun a b => (validTransactions.getD a default).epochSeconds ≤
      (validTransactions.getD b default).epochSeconds)
    (List.range validTransactions.length)

theorem applyTemporalRules_fst (validTransactions : List Tx) (qPeriods : List QPeriod)
    (pPeriods : List PPeriod) (kPeriods : List KPeriod) :
    (applyTemporalRules validTransactions qPeriods pPeriods kPeriods).1 =
      applyPPeriods
        (applyQPeriods validTransactions qPeriods (chronologicalIndices validTransactions))
        pPeriods (chronologicalIndices validTransactions) := rfl

theorem chronologicalIndices_perm (validTransactions : List Tx) :
    (chronologicalIndices validTransactions).Perm
      (List.range validTransactions.length) :=
  List.perm_insertionSort _ _

theorem chronologicalIndices_sorted (validTransactions : List Tx) :
    (chronologicalIndices validTransactions).Pairwise (fun a b =>
      (validTransactions.getD a default).epochSeconds ≤
        (validTransactions.getD b default).epochSeconds) := by
  haveI : IsTotal Nat (fun a b => (validTransactions.getD a default).epochSeconds ≤
      (validTransactions.getD b default).epochSeconds) := ⟨fun a b => le_total _ _⟩
  haveI : IsTrans Nat (fun a b => (validTransactions.getD a default).epochSeconds ≤
      (validTransactions.getD b default).epochSeconds) :=
    ⟨fun a b c hab hbc => le_trans hab hbc⟩
  exact List.sorted_insertionSort _ _

/-- C2: after the full rule pipeline the final remanent equals the
override result (winning q period's fixed amount, else the base
remanent) plus the sum of the extras of every p period whose inclusive
interval contains the transaction's instant — every match is summed,
and the sum is added on top of the override result. -/
theorem applyTemporalRules_additive (validTransactions : List Tx) (qPeriods : List QPeriod)
    (pPeriods : List PPeriod) (kPeriods : List KPeriod)
    (hinit : ∀ t ∈ validTransactions, t.remanentFinalPaise = t.remanentBasePaise)
    (hse : ∀ p ∈ pPeriods, p.start ≤ p.endS)
    (i : Nat) (hi : i < validTransactions.length) :
    ((∃ q ∈ qPeriods, qActive q (validTransactions.getD i default).epochSeconds) →
      ∃ w ∈ qPeriods, qActive w (validTransactions.getD i default).epochSeconds ∧
        (∀ q ∈ qPeriods, qActive q (validTransactions.getD i default).epochSeconds →
          q.start < w.start ∨ (q.start = w.start ∧ w.inputOrder ≤ q.inputOrder)) ∧
        (((applyTemporalRules validTransactions qPeriods pPeriods kPeriods).1.getD i
            default).remanentFinalPaise =
          w.fixedPaise +
            pExtraSum pPeriods (validTransactions.getD i default).epochSeconds)) ∧
    ((∀ q ∈ qPeriods, ¬ qActive q (validTransactions.getD i default).epochSeconds) →
      ((applyTemporalRules validTransactions qPeriods pPeriods kPeriods).1.getD i
          default).remanentFinalPaise =
        (validTransactions.getD i default).remanentBasePaise +
          pExtraSum pPeriods (validTransactions.getD i default).epochSeconds) := by
  have hperm := chronologicalIndices_perm validTransactions
  have hbound : ∀ j ∈ chronologicalIndices validTransactions,
      j < validTransactions.length :=
    fun j hj => List.mem_range.mp (hperm.mem_iff.mp hj)
  have hnodup : (chronologicalIndices validTransactions).Nodup :=
    hperm.nodup_iff.mpr (List.nodup_range _)
  have hmono := chronologicalIndices_sorted validTransactions
  have hi' : i ∈ chronologicalIndices validTransactions :=
    hperm.mem_iff.mpr (List.mem_range.mpr hi)
  have hlen1 : (applyQPeriods validTransactions qPeriods
      (chronologicalIndices validTransactions)).length = validTransactions.length :=
    applyQPeriods_length _ _ _
  have hepoch : ∀ j ∈ chronologicalIndices validTransactions,
      ((applyQPeriods validTransactions qPeriods
        (chronologicalIndices validTransactions)).getD j default).epochSeconds =
      (validTransactions.getD j default).epochSeconds := by
    intro j hj
    rcases applyQPeriods_char validTransactions qPeriods
      (chronologicalIndices validTransactions) hbound hnodup hmono hinit j hj with
      ⟨w, -, -, -, hv⟩ | ⟨-, hv⟩ <;> rw [hv]
  have hbound1 : ∀ j ∈ chronologicalIndices validTransactions,
      j < (applyQPeriods validTransactions qPeriods
        (chronologicalIndices validTransactions)).length := by
    intro j hj
    rw [hlen1]
    exact hbound j hj
  have hmono1 : (chronologicalIndices validTransactions).Pairwise (fun a b =>
      ((applyQPeriods validTransactions qPeriods
        (chronologicalIndices validTransactions)).getD a default).epochSeconds ≤
      ((applyQPeriods validTransactions qPeriods
        (chronologicalIndices validTransactions)).getD b default).epochSeconds) := by
    refine List.Pairwise.imp_of_mem ?_ hmono
    intro a b ha hb hr
    rw [hepoch a ha, hepoch b hb]
    exact hr
  have hp := applyPPeriods_char
    (applyQPeriods validTransactions qPeriods (chronologicalIndices validTransactions))
    pPeriods (chronologicalIndices validTransactions) hbound1 hnodup hmono1 hse i hi'
  rw [hepoch i hi'] at hp
  rcases applyQPeriods_char validTransactions qPeriods
    (chronologicalIndices validTransactions) hbound hnodup hmono hinit i hi' with
    ⟨w, hwmem, hwact, hwmax, hv⟩ | ⟨hnone, hv⟩
  · constructor
    · intro _
      refine ⟨w, hwmem, hwact,
        fun q hq hact => qle_iff.mp (hwmax q hq hact), ?_⟩
      rw [applyTemporalRules_fst, hp, hv]
    · intro hall
      exact absurd hwact (hall w hwmem)
  · constructor
    · rintro ⟨q, hq, hact⟩
      exact absurd hact (hnone q hq)
    · intro _
      rw [applyTemporalRules_fst, hp, hv]

theorem applyTemporalRules_additive_witness :
    (0 : Nat) < 1 ∧
    ((((applyTemporalRules [⟨"t", 100, 0, 0, 5, 5, 0⟩] []
        [⟨"p1", 10, 90, 110⟩, ⟨"p2", 7, 100, 100⟩] []).1).getD 0
        default).remanentFinalPaise = 22) := by
  refine ⟨by decide, ?_⟩
  obtain ⟨-, h2⟩ := applyTemporalRules_additive [⟨"t", 100, 0, 0, 5, 5, 0⟩] []
    [⟨"p1", 10, 90, 110⟩, ⟨"p2", 7, 100, 100⟩] []
    (by decide) (by decide) 0 (by decide)
  rw [h2 (fun q hq => absurd hq (List.not_mem_nil q))]
  decide


/-! ## The validation layer of `src/unnamed/part_001`

`parseTransactionInput`, the validator batch loop
(`parseAndValidateTransactionsForValidation`) and the filter batch loop
(`parseForFiltering`), with the period parsers.  JS `undefined` is the
`JsVal.undef` constructor; absent `q`/`p`/`k` payload sections are
`Option.none`.  The JS `Map` keyed by the raw timestamp text becomes an
association list with first-match lookup (the loops only ever insert
fresh keys, so the two agree). -/

instance : Inhabited JsVal := ⟨JsVal.undef⟩

/-- `MAX_RECORDS` of the source. -/
def MAX_RECORDS : Nat := 1000000

/-- `MAX_AMOUNT_PAISE = 500_000n * 100n` of the source. -/
def MAX_AMOUNT_PAISE : Int := 50000000

/-- A raw transaction record as the engine reads it off the JSON
payload (only the fields the code inspects). -/
structure RawRecord where
  timestamp : JsVal
  date : JsVal
  amount : JsVal
  ceiling : JsVal
  remanent : JsVal
  deriving DecidableEq, Repr, Inhabited

/-- The output of `serializeTransaction` (the two-decimal display texts
built by `moneyToFixed2`). -/
structure SerializedTx where
  timestamp : String
  amount : String
  ceiling : String
  remanent : String
  remanentBase : String
  remanentFinal : String
  deriving DecidableEq, Repr, Inhabited

/-- The `transaction` payload of an invalid-transaction report: the raw
record for parse failures and filter-path duplicates, the serialized
transaction for validator-path duplicates and remanent mismatches. -/
inductive InvalidPayload where
  | raw (r : RawRecord)
  | ser (s : SerializedTx)
  deriving DecidableEq, Repr

/-- The shape built by `buildInvalidTransaction`. -/
structure InvalidTx where
  transaction : InvalidPayload
  code : String
  message : String
  deriving DecidableEq, Repr

/-- `getTimestampField`. -/
def getTimestampField (record : RawRecord) : Except String String :=
  parseTimestampLike record.timestamp record.date "timestamp"

/-- `parseNumericField`: `parseMoney` with the error message prefixed
by the field path. -/
def parseNumericField (raw : JsVal) (path : String) : Except String Int :=
  match parseMoney raw with
  | .ok v => .ok v
  | .error msg => .error (path ++ " " ++ msg)

/-- Model of `parseTransactionInput` (with the default
`sourceField = 'transactions'`). -/
def parseTransactionInput (transaction : RawRecord) (index : Nat) : Except String Tx :=
  let txPath := "transactions[" ++ jsIntToString index ++ "]"
  match getTimestampField transaction with
  | .error msg => .error (txPath ++ "." ++ msg)
  | .ok timestamp =>
      match parseTimestampToEpochSeconds (.str timestamp) (txPath ++ ".timestamp") with
      | .error msg => .error msg
      | .ok epochSeconds =>
          match parseNumericField transaction.amount (txPath ++ ".amount") with
          | .error msg => .error msg
          | .ok amountPaise =>
              match validateMoneyRange amountPaise 0 MAX_AMOUNT_PAISE
                  (txPath ++ ".amount") with
              | .error msg => .error msg
              | .ok _ =>
                  match (match transaction.ceiling with
                    | .undef => Except.ok (ceilTo100 amountPaise)
                    | c => parseNumericField c (txPath ++ ".ceiling")) with
                  | .error msg => .error msg
                  | .ok ceilingPaise =>
                      if ceilingPaise < amountPaise then
                        .error (txPath ++ ".ceiling cannot be less than amount")
                      else if Int.tmod ceilingPaise 10000 ≠ 0 then
                        .error (txPath ++ ".ceiling must be a multiple of 100")
                      else
                        let remanentBasePaise := ceilingPaise - amountPaise
                        .ok { timestamp := timestamp, epochSeconds := epochSeconds,
                              amountPaise := amountPaise, ceilingPaise := ceilingPaise,
                              remanentBasePaise := remanentBasePaise,
                              remanentFinalPaise := remanentBasePaise,
                              inputIndex := index }

/-- Model of `buildTransactionFromExpense` (the expense-parsing path:
no declared ceiling, the ceiling is always `ceilTo100(amount)`). -/
def buildTransactionFromExpense (expense : RawRecord) (index : Nat) : Except String Tx :=
  let exPath := "expenses[" ++ jsIntToString index ++ "]"
  match getTimestampField expense with
  | .error msg => .error (exPath ++ "." ++ msg)
  | .ok timestamp =>
      match parseTimestampToEpochSeconds (.str timestamp) (exPath ++ ".timestamp") with
      | .error msg => .error msg
      | .ok epochSeconds =>
          match parseNumericField expense.amount (exPath ++ ".amount") with
          | .error msg => .error msg
          | .ok amountPaise =>
              match validateMoneyRange amountPaise 0 MAX_AMOUNT_PAISE
                  (exPath ++ ".amount") with
              | .error msg => .error msg
              | .ok _ =>
                  let ceilingPaise := ceilTo100 amountPaise
                  let remanentBasePaise := ceilingPaise - amountPaise
                  .ok { timestamp := timestamp, epochSeconds := epochSeconds,
                        amountPaise := amountPaise, ceilingPaise := ceilingPaise,
                        remanentBasePaise := remanentBasePaise,
                        remanentFinalPaise := remanentBasePaise,
                        inputIndex := index }

/-- `serializeTransaction` (keeping the exact display texts; the final
`Number(...)` conversion of `moneyToFixed2` is not modeled). -/
def serializeTransaction (t : Tx) : SerializedTx :=
  { timestamp := t.timestamp,
    amount := moneyToFixed2 t.amountPaise,
    ceiling := moneyToFixed2 t.ceilingPaise,
    remanent := moneyToFixed2 t.remanentFinalPaise,
    remanentBase := moneyToFixed2 t.remanentBasePaise,
    remanentFinal := moneyToFixed2 t.remanentFinalPaise }

/-- The successful parse of the record at an index, if any (analysis
helper used to state what the batch loops do). -/
def okParse (rawTransactions : List RawRecord) (i : Nat) : Option Tx :=
  (parseTransactionInput (rawTransactions.getD i default) i).toOption

/-- The least index below `n` whose record parses successfully to a
transaction carrying the raw timestamp text `t` (analysis helper). -/
def firstOkUpTo (rawTransactions : List RawRecord) (t : String) : Nat → Option Nat
  | 0 => none
  | n + 1 =>
      match firstOkUpTo rawTransactions t n with
      | some j => some j
      | none =>
          match okParse rawTransactions n with
          | some u => if u.timestamp = t then some n else none
          | none => none

/-- The contents of the `seen` map after the first `n` loop
iterations (analysis helper). -/
def seenUpTo (rawTransactions : List RawRecord) : Nat → List (String × Nat)
  | 0 => []
  | n + 1 =>
      seenUpTo rawTransactions n ++
        (match okParse rawTransactions n with
        | some u =>
            if firstOkUpTo rawTransactions u.timestamp n = none then [(u.timestamp, n)]
            else []
        | none => [])

/-- The filter path's per-record loop from `parseForFiltering`: parse,
drop text-duplicates (reporting the first occurrence's index), collect
the rest in order. -/
def filterLoopGo (rawTransactions : List RawRecord) (i : Nat) (valid : List Tx)
    (invalid : List InvalidTx) (seen : List (String × Nat)) :
    List Tx × List InvalidTx :=
  match rawTransactions with
  | [] => (valid, invalid)
  | raw :: rest =>
      match parseTransactionInput raw i with
      | .error msg =>
          filterLoopGo rest (i + 1) valid
            (invalid ++ [⟨.raw raw, "INVALID_TRANSACTION", msg⟩]) seen
      | .ok tx =>
          match List.lookup tx.timestamp seen with
          | some j =>
              filterLoopGo rest (i + 1) valid
                (invalid ++ [⟨.raw raw, "DUPLICATE_TIMESTAMP",
                  "Duplicate timestamp with transactions[" ++ jsIntToString j ++ "]"⟩]) seen
          | none =>
              filterLoopGo rest (i + 1) (valid ++ [tx]) invalid
                (seen ++ [(tx.timestamp, i)])

/-- The validator path's per-record loop from
`parseAndValidateTransactionsForValidation`: like the filter loop but
duplicates carry the serialized transaction, a `duplicates` list is
kept, and a declared `remanent` is checked against `ceiling - amount`
(its parse failure throws out of the loop; the `seen` registration
happens before the check). -/
def validateLoopGo (rawTransactions : List RawRecord) (i : Nat) (valid : List Tx)
    (invalid : List InvalidTx) (duplicates : List SerializedTx)
    (seen : List (String × Nat)) :
    Except String (List Tx × List InvalidTx × List SerializedTx) :=
  match rawTransactions with
  | [] => .ok (valid, invalid, duplicates)
  | raw :: rest =>
      match parseTransactionInput raw i with
      | .error msg =>
          validateLoopGo rest (i + 1) valid
            (invalid ++ [⟨.raw raw, "INVALID_TRANSACTION", msg⟩]) duplicates seen
      | .ok tx =>
          let serialized := serializeTransaction tx
          match List.lookup tx.timestamp seen with
          | some j =>
              validateLoopGo rest (i + 1) valid
                (invalid ++ [⟨.ser serialized, "DUPLICATE_TIMESTAMP",
                  "Duplicate timestamp with transactions[" ++ jsIntToString j ++ "]"⟩])
                (duplicates ++ [serialized]) seen
          | none =>
              let seen2 := seen ++ [(tx.timestamp, i)]
              if raw.remanent ≠ JsVal.undef then
                match parseNumericField raw.remanent
                    ("transactions[" ++ jsIntToString i ++ "].remanent") with
                | .error msg => .error msg
                | .ok remanentPaise =>
                    if remanentPaise ≠ tx.remanentBasePaise then
                      validateLoopGo rest (i + 1) valid
                        (invalid ++ [⟨.ser serialized, "REMANENT_MISMATCH",
                          "remanent must equal ceiling - amount"⟩]) duplicates seen2
                    else validateLoopGo rest (i + 1) (valid ++ [tx]) invalid duplicates seen2
              else validateLoopGo rest (i + 1) (valid ++ [tx]) invalid duplicates seen2

/-- Model of `parseAndValidateTransactionsForValidation` (the
`assertArray` length guard, then the loop). -/
def parseAndValidateTransactionsForValidation (rawTransactions : List RawRecord) :
    Except String (List Tx × List InvalidTx × List SerializedTx) :=
  if rawTransactions.length > MAX_RECORDS then
    .error "transactions cannot exceed 1000000 records"
  else validateLoopGo rawTransactions 0 [] [] [] []

/-- A raw period record of the `q`/`p`/`k` payload sections (only
string ids are modeled; the claims never inspect ids). -/
structure RawPeriod where
  id : JsVal
  fixed : JsVal
  extra : JsVal
  start : JsVal
  endV : JsVal
  deriving DecidableEq, Repr, Inhabited

/-- `parseQPeriods`, indexed recursion over the list. -/
def parseQPeriodsGo : List RawPeriod → Nat → Except String (List QPeriod)
  | [], _ => .ok []
  | period :: rest, index =>
      match parseNumericField period.fixed ("q[" ++ jsIntToString index ++ "].fixed") with
      | .error msg => .error msg
      | .ok fixedPaise =>
          match validateMoneyRange fixedPaise 0 MAX_AMOUNT_PAISE
              ("q[" ++ jsIntToString index ++ "].fixed") with
          | .error msg => .error msg
          | .ok _ =>
              match parseTimestampToEpochSeconds period.start
                  ("q[" ++ jsIntToString index ++ "].start") with
              | .error msg => .error msg
              | .ok start =>
                  match parseTimestampToEpochSeconds period.endV
                      ("q[" ++ jsIntToString index ++ "].end") with
                  | .error msg => .error msg
                  | .ok endS =>
                      if start > endS then
                        .error ("q[" ++ jsIntToString index ++ "] start cannot be after end")
                      else
                        match parseQPeriodsGo rest (index + 1) with
                        | .error msg => .error msg
                        | .ok tl =>
                            let idStr := match period.id with
                              | .str s => s
                              | _ => "q-" ++ jsIntToString index
                            .ok ({ id := idStr, fixedPaise := fixedPaise, start := start,
                                   endS := endS, inputOrder := index } :: tl)

/-- `parseQPeriods`. -/
def parseQPeriods (periods : List RawPeriod) : Except String (List QPeriod) :=
  parseQPeriodsGo periods 0

/-- `parsePPeriods`, indexed recursion over the list. -/
def parsePPeriodsGo : List RawPeriod → Nat → Except String (List PPeriod)
  | [], _ => .ok []
  | period :: rest, index =>
      match parseNumericField period.extra ("p[" ++ jsIntToString index ++ "].extra") with
      | .error msg => .error msg
      | .ok extraPaise =>
          match validateMoneyRange extraPaise 0 MAX_AMOUNT_PAISE
              ("p[" ++ jsIntToString index ++ "].extra") with
          | .error msg => .error msg
          | .ok _ =>
              match parseTimestampToEpochSeconds period.start
                  ("p[" ++ jsIntToString index ++ "].start") with
              | .error msg => .error msg
              | .ok start =>
                  match parseTimestampToEpochSeconds period.endV
                      ("p[" ++ jsIntToString index ++ "].end") with
                  | .error msg => .error msg
                  | .ok endS =>
                      if start > endS then
                        .error ("p[" ++ jsIntToString index ++ "] start cannot be after end")
                      else
                        match parsePPeriodsGo rest (index + 1) with
                        | .error msg => .error msg
                        | .ok tl =>
                            let idStr := match period.id with
                              | .str s => s
                              | _ => "p-" ++ jsIntToString index
                            .ok ({ id := idStr, extraPaise := extraPaise, start := start,
                                   endS := endS } :: tl)

/-- `parsePPeriods`. -/
def parsePPeriods (periods : List RawPeriod) : Except String (List PPeriod) :=
  parsePPeriodsGo periods 0

/-- `parseKPeriods`, indexed recursion over the list.  The raw
start/end texts are kept for the output (they are strings whenever the
timestamp parse succeeded). -/
def parseKPeriodsGo : List RawPeriod → Nat → Except String (List KPeriod)
  | [], _ => .ok []
  | period :: rest, index =>
      match parseTimestampToEpochSeconds period.start
          ("k[" ++ jsIntToString index ++ "].start") with
      | .error msg => .error msg
      | .ok start =>
          match parseTimestampToEpochSeconds period.endV
              ("k[" ++ jsIntToString index ++ "].end") with
          | .error msg => .error msg
          | .ok endS =>
              if start > endS then
                .error ("k[" ++ jsIntToString index ++ "] start cannot be after end")
              else
                match parseKPeriodsGo rest (index + 1) with
                | .error msg => .error msg
                | .ok tl =>
                    let idStr := match period.id with
                      | .str s => s
                      | _ => "k-" ++ jsIntToString index
                    let startText := match period.start with
                      | .str s => s
                      | _ => ""
                    let endText := match period.endV with
                      | .str s => s
                      | _ => ""
                    .ok ({ id := idStr, start := start, endS := endS,
                           startText := startText, endText := endText,
                           inputOrder := index } :: tl)

/-- `parseKPeriods`. -/
def parseKPeriods (periods : List RawPeriod) : Except String (List KPeriod) :=
  parseKPeriodsGo periods 0

/-- The filter payload: `transactions` plus the optional `q`/`p`/`k`
sections (`none` models an absent field, handled by `?? []`). -/
structure FilterPayload where
  transactions : List RawRecord
  q : Option (List RawPeriod)
  p : Option (List RawPeriod)
  k : Option (List RawPeriod)
  deriving DecidableEq, Repr

/-- The result record of `parseForFiltering`. -/
structure FilterParsed where
  validTransactions : List Tx
  invalid : List InvalidTx
  qPeriods : List QPeriod
  pPeriods : List PPeriod
  kPeriods : List KPeriod
  deriving DecidableEq, Repr

/-- Model of `parseForFiltering`: array guards, the dedup loop over the
transactions, then the three period parsers. -/
def parseForFiltering (payload : FilterPayload) : Except String FilterParsed :=
  if payload.transactions.length > MAX_RECORDS then
    .error "transactions cannot exceed 1000000 records"
  else if (payload.q.getD []).length > MAX_RECORDS then
    .error "q cannot exceed 1000000 records"
  else if (payload.p.getD []).length > MAX_RECORDS then
    .error "p cannot exceed 1000000 records"
  else if (payload.k.getD []).length > MAX_RECORDS then
    .error "k cannot exceed 1000000 records"
  else
    let st := filterLoopGo payload.transactions 0 [] [] []
    match parseQPeriods (payload.q.getD []) with
    | .error msg => .error msg
    | .ok qPeriods =>
        match parsePPeriods (payload.p.getD []) with
        | .error msg => .error msg
        | .ok pPeriods =>
            match parseKPeriods (payload.k.getD []) with
            | .error msg => .error msg
            | .ok kPeriods =>
                .ok { validTransactions := st.1, invalid := st.2, qPeriods := qPeriods,
                      pPeriods := pPeriods, kPeriods := kPeriods }
theorem lookup_append {α β : Type} [BEq α] (a : α) (l1 l2 : List (α × β)) :
    List.lookup a (l1 ++ l2) = match List.lookup a l1 with
      | some b => some b
      | none => List.lookup a l2 := by
  induction l1 with
  | nil => rfl
  | cons p tl ih =>
      obtain ⟨k, v⟩ := p
      rw [List.cons_append, List.lookup, List.lookup]
      cases h : a == k
      · exact ih
      · rfl

theorem lookup_seenUpTo (rawTransactions : List RawRecord) :
    ∀ (n : Nat) (t : String),
    List.lookup t (seenUpTo rawTransactions n) = firstOkUpTo rawTransactions t n := by
  intro n
  induction n with
  | zero => intro t; rfl
  | succ n ih =>
      intro t
      rw [seenUpTo, firstOkUpTo, lookup_append, ih]
      cases hfo : firstOkUpTo rawTransactions t n with
      | some j => rfl
      | none =>
          cases hok : okParse rawTransactions n with
          | none => rfl
          | some u =>
              show List.lookup t (if firstOkUpTo rawTransactions u.timestamp n = none
                  then [(u.timestamp, n)] else []) =
                if u.timestamp = t then some n else none
              by_cases ht : u.timestamp = t
              · subst ht
                rw [if_pos hfo]
                simp [List.lookup]
              · rw [if_neg ht]
                by_cases h2 : firstOkUpTo rawTransactions u.timestamp n = none
                · rw [if_pos h2]
                  have hne : (t == u.timestamp) = false := by
                    simp only [beq_eq_false_iff_ne, ne_eq]
                    exact fun h => ht h.symm
                  rw [List.lookup, hne, List.lookup]
                · rw [if_neg h2]
                  rfl

theorem drop_cons_getD {l : List RawRecord} {i : Nat} {a : RawRecord} {r : List RawRecord}
    (h : l.drop i = a :: r) : l.getD i default = a ∧ l.drop (i + 1) = r := by
  constructor
  · have h0 : (l.drop i)[0]? = some a := by rw [h]; simp
    rw [List.getElem?_drop] at h0
    simp only [Nat.add_zero] at h0
    rw [List.getD, List.get?_eq_getElem?, h0, Option.getD_some]
  · have : l.drop (i + 1) = (l.drop i).drop 1 := by
      rw [List.drop_drop]
    rw [this, h]
    rfl

theorem seenUpTo_succ (rawTransactions : List RawRecord) (n : Nat) :
    seenUpTo rawTransactions (n + 1) = seenUpTo rawTransactions n ++
      (match okParse rawTransactions n with
      | some u =>
          if firstOkUpTo rawTransactions u.timestamp n = none then [(u.timestamp, n)] else []
      | none => []) := rfl

theorem filterLoopGo_spec (raws0 : List RawRecord)
    (hidx : ∀ raw k tx, parseTransactionInput raw k = .ok tx → tx.inputIndex = k) :
    ∀ (rest : List RawRecord) (i : Nat) (valid : List Tx)
      (invalid : List InvalidTx) (seen : List (String × Nat)),
    rest = raws0.drop i →
    seen = seenUpTo raws0 i →
    (∀ v ∈ valid, okParse raws0 v.inputIndex = some v ∧
      firstOkUpTo raws0 v.timestamp v.inputIndex = none) →
    (∀ v ∈ valid, v ∈ (filterLoopGo rest i valid invalid seen).1) ∧
    (∀ x ∈ invalid, x ∈ (filterLoopGo rest i valid invalid seen).2) ∧
    (∀ v ∈ (filterLoopGo rest i valid invalid seen).1,
      okParse raws0 v.inputIndex = some v ∧
      firstOkUpTo raws0 v.timestamp v.inputIndex = none) ∧
    (∀ k, i ≤ k → k < raws0.length → ∀ u, okParse raws0 k = some u →
      (firstOkUpTo raws0 u.timestamp k = none →
        u ∈ (filterLoopGo rest i valid invalid seen).1) ∧
      (∀ j, firstOkUpTo raws0 u.timestamp k = some j →
        (⟨.raw (raws0.getD k default), "DUPLICATE_TIMESTAMP",
          "Duplicate timestamp with transactions[" ++ jsIntToString j ++ "]"⟩ : InvalidTx) ∈
          (filterLoopGo rest i valid invalid seen).2)) := by
  intro rest
  induction rest with
  | nil =>
      intro i valid invalid seen hrest hseen hvalid
      have hlen : raws0.length ≤ i := List.drop_eq_nil_iff.mp hrest.symm
      refine ⟨fun v hv => hv, fun x hx => hx, hvalid, ?_⟩
      intro k hik hklen u hok
      exact absurd hklen (by omega)
  | cons raw rest' ih =>
      intro i valid invalid seen hrest hseen hvalid
      obtain ⟨hgetD, hdrop'⟩ := drop_cons_getD hrest.symm
      cases hp : parseTransactionInput raw i with
      | error msg =>
          have hstep : filterLoopGo (raw :: rest') i valid invalid seen =
              filterLoopGo rest' (i + 1) valid
                (invalid ++ [⟨.raw raw, "INVALID_TRANSACTION", msg⟩]) seen := by
            rw [filterLoopGo, hp]
          have hokI : okParse raws0 i = none := by
            rw [okParse, hgetD, hp]
            rfl
          have hseen' : seen = seenUpTo raws0 (i + 1) := by
            rw [seenUpTo_succ, hokI, List.append_nil, hseen]
          obtain ⟨ihval, ihinv, ihprop, ihk⟩ := ih (i + 1) valid
            (invalid ++ [⟨.raw raw, "INVALID_TRANSACTION", msg⟩]) seen
            hdrop'.symm hseen' hvalid
          rw [hstep]
          refine ⟨ihval, fun x hx => ihinv x (List.mem_append_left _ hx), ihprop, ?_⟩
          intro k hik hklen u hok
          rcases Nat.eq_or_lt_of_le hik with rfl | hlt
          · rw [hokI] at hok
            exact Option.noConfusion hok
          · exact ihk k (by omega) hklen u hok
      | ok tx =>
          have hokI : okParse raws0 i = some tx := by
            rw [okParse, hgetD, hp]
            rfl
          have hidxI : tx.inputIndex = i := hidx raw i tx hp
          have hlk : List.lookup tx.timestamp seen = firstOkUpTo raws0 tx.timestamp i := by
            rw [hseen, lookup_seenUpTo]
          cases hfo : firstOkUpTo raws0 tx.timestamp i with
          | some j =>
              have hmatch : filterLoopGo (raw :: rest') i valid invalid seen =
                  match List.lookup tx.timestamp seen with
                  | some j => filterLoopGo rest' (i + 1) valid
                      (invalid ++ [⟨.raw raw, "DUPLICATE_TIMESTAMP",
                        "Duplicate timestamp with transactions[" ++ jsIntToString j ++ "]"⟩])
                      seen
                  | none => filterLoopGo rest' (i + 1) (valid ++ [tx]) invalid
                      (seen ++ [(tx.timestamp, i)]) := by
                rw [filterLoopGo, hp]
              have hstep : filterLoopGo (raw :: rest') i valid invalid seen =
                  filterLoopGo rest' (i + 1) valid
                    (invalid ++ [⟨.raw raw, "DUPLICATE_TIMESTAMP",
                      "Duplicate timestamp with transactions[" ++ jsIntToString j ++ "]"⟩])
                    seen := by
                rw [hmatch, hlk, hfo]
              have hne : ¬ (firstOkUpTo raws0 tx.timestamp i = none) := by
                rw [hfo]
                intro h
                exact Option.noConfusion h
              have hseen' : seen = seenUpTo raws0 (i + 1) := by
                rw [seenUpTo_succ, hokI]
                show seen = seenUpTo raws0 i ++
                  (if firstOkUpTo raws0 tx.timestamp i = none then [(tx.timestamp, i)] else [])
                rw [if_neg hne, List.append_nil, hseen]
              obtain ⟨ihval, ihinv, ihprop, ihk⟩ := ih (i + 1) valid
                (invalid ++ [⟨.raw raw, "DUPLICATE_TIMESTAMP",
                  "Duplicate timestamp with transactions[" ++ jsIntToString j ++ "]"⟩]) seen
                hdrop'.symm hseen' hvalid
              rw [hstep]
              refine ⟨ihval, fun x hx => ihinv x (List.mem_append_left _ hx), ihprop, ?_⟩
              intro k hik hklen u hok
              rcases Nat.eq_or_lt_of_le hik with rfl | hlt
              · have hu : u = tx := by
                  rw [hokI] at hok
                  exact (Option.some.inj hok).symm
                subst hu
                constructor
                · intro hnone
                  rw [hfo] at hnone
                  exact Option.noConfusion hnone
                · intro j' hj'
                  rw [hfo] at hj'
                  have : j = j' := Option.some.inj hj'
                  subst this
                  rw [hgetD]
                  exact ihinv _ (List.mem_append_right _ (List.mem_singleton.mpr rfl))
              · exact ihk k (by omega) hklen u hok
          | none =>
              have hmatch : filterLoopGo (raw :: rest') i valid invalid seen =
                  match List.lookup tx.timestamp seen with
                  | some j => filterLoopGo rest' (i + 1) valid
                      (invalid ++ [⟨.raw raw, "DUPLICATE_TIMESTAMP",
                        "Duplicate timestamp with transactions[" ++ jsIntToString j ++ "]"⟩])
                      seen
                  | none => filterLoopGo rest' (i + 1) (valid ++ [tx]) invalid
                      (seen ++ [(tx.timestamp, i)]) := by
                rw [filterLoopGo, hp]
              have hstep : filterLoopGo (raw :: rest') i valid invalid seen =
                  filterLoopGo rest' (i + 1) (valid ++ [tx]) invalid
                    (seen ++ [(tx.timestamp, i)]) := by
                rw [hmatch, hlk, hfo]
              have hseen' : seen ++ [(tx.timestamp, i)] = seenUpTo raws0 (i + 1) := by
                rw [seenUpTo_succ, hokI]
                show _ = seenUpTo raws0 i ++
                  (if firstOkUpTo raws0 tx.timestamp i = none then [(tx.timestamp, i)] else [])
                rw [if_pos hfo, hseen]
              have hvalid' : ∀ v ∈ valid ++ [tx], okParse raws0 v.inputIndex = some v ∧
                  firstOkUpTo raws0 v.timestamp v.inputIndex = none := by
                intro v hv
                rcases List.mem_append.mp hv with hv | hv
                · exact hvalid v hv
                · have : v = tx := List.mem_singleton.mp hv
                  subst this
                  rw [hidxI]
                  exact ⟨hokI, hfo⟩
              obtain ⟨ihval, ihinv, ihprop, ihk⟩ := ih (i + 1) (valid ++ [tx]) invalid
                (seen ++ [(tx.timestamp, i)]) hdrop'.symm hseen' hvalid'
              rw [hstep]
              refine ⟨fun v hv => ihval v (List.mem_append_left _ hv), ihinv, ihprop, ?_⟩
              intro k hik hklen u hok
              rcases Nat.eq_or_lt_of_le hik with rfl | hlt
              · have hu : u = tx := by
                  rw [hokI] at hok
                  exact (Option.some.inj hok).symm
                subst hu
                constructor
                · intro _
                  exact ihval u (List.mem_append_right _ (List.mem_singleton.mpr rfl))
                · intro j' hj'
                  rw [hfo] at hj'
                  exact Option.noConfusion hj'
              · exact ihk k (by omega) hklen u hok

theorem validateLoopGo_spec (raws0 : List RawRecord)
    (hidx : ∀ raw k tx, parseTransactionInput raw k = .ok tx → tx.inputIndex = k) :
    ∀ (rest : List RawRecord) (i : Nat) (valid : List Tx)
      (invalid : List InvalidTx) (duplicates : List SerializedTx)
      (seen : List (String × Nat)) (res : List Tx × List InvalidTx × List SerializedTx),
    rest = raws0.drop i →
    seen = seenUpTo raws0 i →
    (∀ v ∈ valid, okParse raws0 v.inputIndex = some v ∧
      firstOkUpTo raws0 v.timestamp v.inputIndex = none) →
    validateLoopGo rest i valid invalid duplicates seen = .ok res →
    (∀ v ∈ valid, v ∈ res.1) ∧
    (∀ x ∈ invalid, x ∈ res.2.1) ∧
    (∀ x ∈ duplicates, x ∈ res.2.2) ∧
    (∀ v ∈ res.1, okParse raws0 v.inputIndex = some v ∧
      firstOkUpTo raws0 v.timestamp v.inputIndex = none) ∧
    (∀ k, i ≤ k → k < raws0.length → ∀ u, okParse raws0 k = some u →
      (firstOkUpTo raws0 u.timestamp k = none →
        (raws0.getD k default).remanent = JsVal.undef → u ∈ res.1) ∧
      (∀ j, firstOkUpTo raws0 u.timestamp k = some j →
        (⟨.ser (serializeTransaction u), "DUPLICATE_TIMESTAMP",
          "Duplicate timestamp with transactions[" ++ jsIntToString j ++ "]"⟩ : InvalidTx) ∈
          res.2.1 ∧
        serializeTransaction u ∈ res.2.2)) := by
  intro rest
  induction rest with
  | nil =>
      intro i valid invalid duplicates seen res hrest hseen hvalid hres
      have hlen : raws0.length ≤ i := List.drop_eq_nil_iff.mp hrest.symm
      have hr : (valid, invalid, duplicates) = res := Except.ok.inj hres
      subst hr
      refine ⟨fun v hv => hv, fun x hx => hx, fun x hx => hx, hvalid, ?_⟩
      intro k hik hklen u hok
      exact absurd hklen (by omega)
  | cons raw rest' ih =>
      intro i valid invalid duplicates seen res hrest hseen hvalid hres
      obtain ⟨hgetD, hdrop'⟩ := drop_cons_getD hrest.symm
      cases hp : parseTransactionInput raw i with
      | error msg =>
          rw [validateLoopGo, hp] at hres
          have hokI : okParse raws0 i = none := by
            rw [okParse, hgetD, hp]
            rfl
          have hseen' : seen = seenUpTo raws0 (i + 1) := by
            rw [seenUpTo_succ, hokI, List.append_nil, hseen]
          obtain ⟨ihval, ihinv, ihdup, ihprop, ihk⟩ := ih (i + 1) valid
            (invalid ++ [⟨.raw raw, "INVALID_TRANSACTION", msg⟩]) duplicates seen res
            hdrop'.symm hseen' hvalid hres
          refine ⟨ihval, fun x hx => ihinv x (List.mem_append_left _ hx), ihdup, ihprop, ?_⟩
          intro k hik hklen u hok
          rcases Nat.eq_or_lt_of_le hik with rfl | hlt
          · rw [hokI] at hok
            exact Option.noConfusion hok
          · exact ihk k (by omega) hklen u hok
      | ok tx =>
          have hokI : okParse raws0 i = some tx := by
            rw [okParse, hgetD, hp]
            rfl
          have hidxI : tx.inputIndex = i := hidx raw i tx hp
          have hlk : List.lookup tx.timestamp seen = firstOkUpTo raws0 tx.timestamp i := by
            rw [hseen, lookup_seenUpTo]
          have hmatch : validateLoopGo (raw :: rest') i valid invalid duplicates seen =
              match List.lookup tx.timestamp seen with
              | some j => validateLoopGo rest' (i + 1) valid
                  (invalid ++ [⟨.ser (serializeTransaction tx), "DUPLICATE_TIMESTAMP",
                    "Duplicate timestamp with transactions[" ++ jsIntToString j ++ "]"⟩])
                  (duplicates ++ [serializeTransaction tx]) seen
              | none =>
                  if raw.remanent ≠ JsVal.undef then
                    match parseNumericField raw.remanent
                        ("transactions[" ++ jsIntToString i ++ "].remanent") with
                    | .error msg => .error msg
                    | .ok remanentPaise =>
                        if remanentPaise ≠ tx.remanentBasePaise then
                          validateLoopGo rest' (i + 1) valid
                            (invalid ++ [⟨.ser (serializeTransaction tx), "REMANENT_MISMATCH",
                              "remanent must equal ceiling - amount"⟩]) duplicates
                            (seen ++ [(tx.timestamp, i)])
                        else validateLoopGo rest' (i + 1) (valid ++ [tx]) invalid duplicates
                          (seen ++ [(tx.timestamp, i)])
                  else validateLoopGo rest' (i + 1) (valid ++ [tx]) invalid duplicates
                    (seen ++ [(tx.timestamp, i)]) := by
            rw [validateLoopGo, hp]
          cases hfo : firstOkUpTo raws0 tx.timestamp i with
          | some j =>
              rw [hmatch, hlk, hfo] at hres
              have hne : ¬ (firstOkUpTo raws0 tx.timestamp i = none) := by
                rw [hfo]
                intro h
                exact Option.noConfusion h
              have hseen' : seen = seenUpTo raws0 (i + 1) := by
                rw [seenUpTo_succ, hokI]
                show seen = seenUpTo raws0 i ++
                  (if firstOkUpTo raws0 tx.timestamp i = none then [(tx.timestamp, i)] else [])
                rw [if_neg hne, List.append_nil, hseen]
              obtain ⟨ihval, ihinv, ihdup, ihprop, ihk⟩ := ih (i + 1) valid
                (invalid ++ [⟨.ser (serializeTransaction tx), "DUPLICATE_TIMESTAMP",
                  "Duplicate timestamp with transactions[" ++ jsIntToString j ++ "]"⟩])
                (duplicates ++ [serializeTransaction tx]) seen res
                hdrop'.symm hseen' hvalid hres
              refine ⟨ihval, fun x hx => ihinv x (List.mem_append_left _ hx),
                fun x hx => ihdup x (List.mem_append_left _ hx), ihprop, ?_⟩
              intro k hik hklen u hok
              rcases Nat.eq_or_lt_of_le hik with rfl | hlt
              · have hu : u = tx := by
                  rw [hokI] at hok
                  exact (Option.some.inj hok).symm
                subst hu
                constructor
                · intro hnone
                  rw [hfo] at hnone
                  exact Option.noConfusion hnone
                · intro j' hj'
                  rw [hfo] at hj'
                  have : j = j' := Option.some.inj hj'
                  subst this
                  constructor
                  · exact ihinv _ (List.mem_append_right _ (List.mem_singleton.mpr rfl))
                  · exact ihdup _ (List.mem_append_right _ (List.mem_singleton.mpr rfl))
              · exact ihk k (by omega) hklen u hok
          | none =>
              rw [hmatch, hlk, hfo] at hres
              have hseen' : seen ++ [(tx.timestamp, i)] = seenUpTo raws0 (i + 1) := by
                rw [seenUpTo_succ, hokI]
                show _ = seenUpTo raws0 i ++
                  (if firstOkUpTo raws0 tx.timestamp i = none then [(tx.timestamp, i)] else [])
                rw [if_pos hfo, hseen]
              have hvalid' : ∀ v ∈ valid ++ [tx], okParse raws0 v.inputIndex = some v ∧
                  firstOkUpTo raws0 v.timestamp v.inputIndex = none := by
                intro v hv
                rcases List.mem_append.mp hv with hv | hv
                · exact hvalid v hv
                · have : v = tx := List.mem_singleton.mp hv
                  subst this
                  rw [hidxI]
                  exact ⟨hokI, hfo⟩
              by_cases hrem : raw.remanent = JsVal.undef
              · rw [if_neg (not_not_intro hrem)] at hres
                obtain ⟨ihval, ihinv, ihdup, ihprop, ihk⟩ := ih (i + 1) (valid ++ [tx])
                  invalid duplicates (seen ++ [(tx.timestamp, i)]) res
                  hdrop'.symm hseen' hvalid' hres
                refine ⟨fun v hv => ihval v (List.mem_append_left _ hv), ihinv, ihdup,
                  ihprop, ?_⟩
                intro k hik hklen u hok
                rcases Nat.eq_or_lt_of_le hik with rfl | hlt
                · have hu : u = tx := by
                    rw [hokI] at hok
                    exact (Option.some.inj hok).symm
                  subst hu
                  constructor
                  · intro _ _
                    exact ihval u (List.mem_append_right _ (List.mem_singleton.mpr rfl))
                  · intro j' hj'
                    rw [hfo] at hj'
                    exact Option.noConfusion hj'
                · exact ihk k (by omega) hklen u hok
              · rw [if_pos hrem] at hres
                cases hpn : parseNumericField raw.remanent
                    ("transactions[" ++ jsIntToString i ++ "].remanent") with
                | error msg =>
                    rw [hpn] at hres
                    exact Except.noConfusion hres
                | ok remanentPaise =>
                    rw [hpn] at hres
                    have hres2 : (if remanentPaise ≠ tx.remanentBasePaise then
                        validateLoopGo rest' (i + 1) valid
                          (invalid ++ [⟨.ser (serializeTransaction tx), "REMANENT_MISMATCH",
                            "remanent must equal ceiling - amount"⟩]) duplicates
                          (seen ++ [(tx.timestamp, i)])
                      else validateLoopGo rest' (i + 1) (valid ++ [tx]) invalid duplicates
                        (seen ++ [(tx.timestamp, i)])) = .ok res := hres
                    by_cases hmq : remanentPaise = tx.remanentBasePaise
                    · rw [if_neg (not_not_intro hmq)] at hres2
                      obtain ⟨ihval, ihinv, ihdup, ihprop, ihk⟩ := ih (i + 1) (valid ++ [tx])
                        invalid duplicates (seen ++ [(tx.timestamp, i)]) res
                        hdrop'.symm hseen' hvalid' hres2
                      refine ⟨fun v hv => ihval v (List.mem_append_left _ hv), ihinv, ihdup,
                        ihprop, ?_⟩
                      intro k hik hklen u hok
                      rcases Nat.eq_or_lt_of_le hik with rfl | hlt
                      · have hu : u = tx := by
                          rw [hokI] at hok
                          exact (Option.some.inj hok).symm
                        subst hu
                        constructor
                        · intro _ _
                          exact ihval u (List.mem_append_right _ (List.mem_singleton.mpr rfl))
                        · intro j' hj'
                          rw [hfo] at hj'
                          exact Option.noConfusion hj'
                      · exact ihk k (by omega) hklen u hok
                    · rw [if_pos hmq] at hres2
                      obtain ⟨ihval, ihinv, ihdup, ihprop, ihk⟩ := ih (i + 1) valid
                        (invalid ++ [⟨.ser (serializeTransaction tx), "REMANENT_MISMATCH",
                          "remanent must equal ceiling - amount"⟩]) duplicates
                        (seen ++ [(tx.timestamp, i)]) res
                        hdrop'.symm hseen' hvalid hres2
                      refine ⟨ihval, fun x hx => ihinv x (List.mem_append_left _ hx), ihdup,
                        ihprop, ?_⟩
                      intro k hik hklen u hok
                      rcases Nat.eq_or_lt_of_le hik with rfl | hlt
                      · have hu : u = tx := by
                          rw [hokI] at hok
                          exact (Option.some.inj hok).symm
                        subst hu
                        constructor
                        · intro _ hcon
                          rw [hgetD] at hcon
                          exact absurd hcon hrem
                        · intro j' hj'
                          rw [hfo] at hj'
                          exact Option.noConfusion hj'
                      · exact ihk k (by omega) hklen u hok

theorem except_toOption_ok {α : Type} {e : Except String α} {a : α}
    (h : e.toOption = some a) : e = .ok a := by
  cases e with
  | ok b =>
      have : b = a := Option.some.inj h
      rw [this]
  | error msg => exact Option.noConfusion h

/-- Every transaction `parseTransactionInput` accepts carries its input
index and starts with `remanentFinal = remanentBase`. -/
theorem parseTransactionInput_ok_shape {raw : RawRecord} {i : Nat} {tx : Tx}
    (h : parseTransactionInput raw i = .ok tx) :
    tx.inputIndex = i ∧ tx.remanentFinalPaise = tx.remanentBasePaise := by
  unfold parseTransactionInput at h
  repeat' (first | split at h | dsimp only [] at h)
  all_goals try exact Except.noConfusion h
  all_goals obtain rfl := Except.ok.inj h
  all_goals exact ⟨rfl, rfl⟩

theorem parseForFiltering_components {payload : FilterPayload} {res : FilterParsed}
    (h : parseForFiltering payload = .ok res) :
    res.validTransactions = (filterLoopGo payload.transactions 0 [] [] []).1 ∧
    res.invalid = (filterLoopGo payload.transactions 0 [] [] []).2 := by
  unfold parseForFiltering at h
  repeat' split at h
  all_goals try exact Except.noConfusion h
  obtain rfl := Except.ok.inj h
  exact ⟨rfl, rfl⟩

/-- C5 counterexample content: two records whose timestamp texts differ
only by a trailing space parse to the same instant, yet both are kept
by the filter path and by the validator path — the dedup key is the raw
text, not the parsed instant. -/
theorem duplicate_claim_cex :
    ∃ t1 t2 : Tx,
      parseForFiltering
        ⟨[⟨.str "2023-02-03 04:05:06", .undef, .str "1", .undef, .undef⟩,
          ⟨.str "2023-02-03 04:05:06 ", .undef, .str "1", .undef, .undef⟩],
          none, none, none⟩ = .ok ⟨[t1, t2], [], [], [], []⟩ ∧
      parseAndValidateTransactionsForValidation
        [⟨.str "2023-02-03 04:05:06", .undef, .str "1", .undef, .undef⟩,
         ⟨.str "2023-02-03 04:05:06 ", .undef, .str "1", .undef, .undef⟩] =
        .ok ([t1, t2], [], []) ∧
      t1.epochSeconds = t2.epochSeconds ∧ t1.timestamp ≠ t2.timestamp := by
  refine ⟨⟨"2023-02-03 04:05:06", 1675377306, 100, 10000, 9900, 9900, 0⟩,
    ⟨"2023-02-03 04:05:06 ", 1675377306, 100, 10000, 9900, 9900, 1⟩, ?_, ?_, ?_, ?_⟩
  · decide
  · decide
  · decide
  · decide

/-- C5: in both batch paths the duplicate check is keyed by the raw
timestamp text: a record whose text already has an earlier successful
parse is excluded from the valid output and reported with code
DUPLICATE_TIMESTAMP and a message naming the earliest such input
position, while a record whose text is new is kept (in the validator
path, when it declares no remanent); processing continues either way. -/
theorem duplicate_text_dedup (payload : FilterPayload) (res : FilterParsed)
    (hres : parseForFiltering payload = .ok res)
    (vres : List Tx × List InvalidTx × List SerializedTx)
    (hvres : parseAndValidateTransactionsForValidation payload.transactions = .ok vres)
    (k : Nat) (hk : k < payload.transactions.length) (u : Tx)
    (hok : okParse payload.transactions k = some u) :
    (firstOkUpTo payload.transactions u.timestamp k = none →
      u ∈ res.validTransactions ∧
      ((payload.transactions.getD k default).remanent = JsVal.undef → u ∈ vres.1)) ∧
    (∀ j, firstOkUpTo payload.transactions u.timestamp k = some j →
      u ∉ res.validTransactions ∧
      (⟨.raw (payload.transactions.getD k default), "DUPLICATE_TIMESTAMP",
        "Duplicate timestamp with transactions[" ++ jsIntToString j ++ "]"⟩ : InvalidTx) ∈
        res.invalid ∧
      u ∉ vres.1 ∧
      (⟨.ser (serializeTransaction u), "DUPLICATE_TIMESTAMP",
        "Duplicate timestamp with transactions[" ++ jsIntToString j ++ "]"⟩ : InvalidTx) ∈
        vres.2.1 ∧
      serializeTransaction u ∈ vres.2.2) := by
  obtain ⟨hv, hi⟩ := parseForFiltering_components hres
  have hidx : ∀ raw k tx, parseTransactionInput raw k = .ok tx → tx.inputIndex = k :=
    fun raw k tx h => (parseTransactionInput_ok_shape h).1
  unfold parseAndValidateTransactionsForValidation at hvres
  split at hvres
  · exact Except.noConfusion hvres
  obtain ⟨-, -, fprop, fk⟩ := filterLoopGo_spec payload.transactions hidx
    payload.transactions 0 [] [] []
    (List.drop_zero _).symm rfl (fun v hv => absurd hv (List.not_mem_nil v))
  obtain ⟨-, -, -, vprop, vk⟩ := validateLoopGo_spec payload.transactions hidx
    payload.transactions 0 [] [] [] [] vres
    (List.drop_zero _).symm rfl (fun v hv => absurd hv (List.not_mem_nil v)) hvres
  have hku : u.inputIndex = k := hidx _ k u (except_toOption_ok hok)
  constructor
  · intro hnone
    refine ⟨?_, ?_⟩
    · rw [hv]
      exact (fk k (Nat.zero_le k) hk u hok).1 hnone
    · intro hrem
      exact (vk k (Nat.zero_le k) hk u hok).1 hnone hrem
  · intro j hj
    refine ⟨?_, ?_, ?_, ?_, ?_⟩
    · intro hmem
      rw [hv] at hmem
      have h1 := (fprop u hmem).2
      rw [hku, hj] at h1
      exact Option.noConfusion h1
    · rw [hi]
      exact (fk k (Nat.zero_le k) hk u hok).2 j hj
    · intro hmem
      have h1 := (vprop u hmem).2
      rw [hku, hj] at h1
      exact Option.noConfusion h1
    · exact ((vk k (Nat.zero_le k) hk u hok).2 j hj).1
    · exact ((vk k (Nat.zero_le k) hk u hok).2 j hj).2

theorem duplicate_text_dedup_witness :
    ((⟨.raw (⟨.str "2023-02-03 04:05:06", .undef, .str "1", .undef, .undef⟩ : RawRecord),
      "DUPLICATE_TIMESTAMP",
      "Duplicate timestamp with transactions[" ++ jsIntToString 0 ++ "]"⟩ : InvalidTx) ∈
      ([⟨.raw (⟨.str "2023-02-03 04:05:06", .undef, .str "1", .undef, .undef⟩ : RawRecord),
        "DUPLICATE_TIMESTAMP", "Duplicate timestamp with transactions[0]"⟩] :
        List InvalidTx)) ∧
    ((⟨"2023-02-03 04:05:06", 1675377306, 100, 10000, 9900, 9900, 1⟩ : Tx) ∉
      ([⟨"2023-02-03 04:05:06", 1675377306, 100, 10000, 9900, 9900, 0⟩] : List Tx)) := by
  have h := duplicate_text_dedup
    ⟨[⟨.str "2023-02-03 04:05:06", .undef, .str "1", .undef, .undef⟩,
      ⟨.str "2023-02-03 04:05:06", .undef, .str "1", .undef, .undef⟩], none, none, none⟩
    ⟨[⟨"2023-02-03 04:05:06", 1675377306, 100, 10000, 9900, 9900, 0⟩],
      [⟨.raw (⟨.str "2023-02-03 04:05:06", .undef, .str "1", .undef, .undef⟩ : RawRecord),
        "DUPLICATE_TIMESTAMP", "Duplicate timestamp with transactions[0]"⟩], [], [], []⟩
    (by decide)
    ([⟨"2023-02-03 04:05:06", 1675377306, 100, 10000, 9900, 9900, 0⟩],
      [⟨.ser ⟨"2023-02-03 04:05:06", "1.00", "100.00", "99.00", "99.00", "99.00"⟩,
        "DUPLICATE_TIMESTAMP", "Duplicate timestamp with transactions[0]"⟩],
      [⟨"2023-02-03 04:05:06", "1.00", "100.00", "99.00", "99.00", "99.00"⟩])
    (by decide) 1 (by decide)
    ⟨"2023-02-03 04:05:06", 1675377306, 100, 10000, 9900, 9900, 1⟩ (by decide)
  obtain ⟨h1, h2, -⟩ := h.2 0 (by decide)
  exact ⟨h2, h1⟩

/-- C9: a record with a non-string `timestamp` but a string `date`
takes the `date` value as its timestamp text along every parsing path;
only when neither field is a string is the record rejected with a
"timestamp is required" error. -/
theorem timestampLike_fallback (r : RawRecord) (i : Nat) :
    (∀ s, r.timestamp = JsVal.str s → getTimestampField r = .ok s) ∧
    ((∀ s, r.timestamp ≠ JsVal.str s) → ∀ s, r.date = JsVal.str s →
      getTimestampField r = .ok s ∧
      parseTransactionInput r i =
        parseTransactionInput { r with timestamp := JsVal.str s } i ∧
      buildTransactionFromExpense r i =
        buildTransactionFromExpense { r with timestamp := JsVal.str s } i) ∧
    ((∀ s, r.timestamp ≠ JsVal.str s) → (∀ s, r.date ≠ JsVal.str s) →
      getTimestampField r = .error "timestamp is required" ∧
      parseTransactionInput r i =
        .error ("transactions[" ++ jsIntToString i ++ "]" ++ "." ++
          "timestamp is required") ∧
      buildTransactionFromExpense r i =
        .error ("expenses[" ++ jsIntToString i ++ "]" ++ "." ++
          "timestamp is required")) := by
  obtain ⟨rt, rd, ra, rc, rr⟩ := r
  refine ⟨?_, ?_, ?_⟩
  · intro s hs
    subst hs
    rfl
  · intro hne s hds
    subst hds
    cases rt with
    | str t => exact absurd rfl (hne t)
    | numInt n => exact ⟨rfl, rfl, rfl⟩
    | undef => exact ⟨rfl, rfl, rfl⟩
    | other => exact ⟨rfl, rfl, rfl⟩
  · intro hne hnd
    cases rt with
    | str t => exact absurd rfl (hne t)
    | numInt n =>
        cases rd with
        | str t => exact absurd rfl (hnd t)
        | numInt m => exact ⟨rfl, rfl, rfl⟩
        | undef => exact ⟨rfl, rfl, rfl⟩
        | other => exact ⟨rfl, rfl, rfl⟩
    | undef =>
        cases rd with
        | str t => exact absurd rfl (hnd t)
        | numInt m => exact ⟨rfl, rfl, rfl⟩
        | undef => exact ⟨rfl, rfl, rfl⟩
        | other => exact ⟨rfl, rfl, rfl⟩
    | other =>
        cases rd with
        | str t => exact absurd rfl (hnd t)
        | numInt m => exact ⟨rfl, rfl, rfl⟩
        | undef => exact ⟨rfl, rfl, rfl⟩
        | other => exact ⟨rfl, rfl, rfl⟩

theorem timestampLike_fallback_witness :
    getTimestampField ⟨.numInt 5, .str "2023-02-03 04:05:06", .str "1", .undef, .undef⟩ =
      .ok "2023-02-03 04:05:06" ∧
    parseTransactionInput ⟨.numInt 5, .str "2023-02-03 04:05:06", .str "1", .undef, .undef⟩ 0 =
      parseTransactionInput
        ⟨.str "2023-02-03 04:05:06", .str "2023-02-03 04:05:06", .str "1", .undef, .undef⟩ 0 ∧
    parseTransactionInput ⟨.numInt 5, .undef, .str "1", .undef, .undef⟩ 0 =
      .error ("transactions[" ++ jsIntToString 0 ++ "]" ++ "." ++ "timestamp is required") := by
  obtain ⟨hg, hpe, -⟩ :=
    (timestampLike_fallback ⟨.numInt 5, .str "2023-02-03 04:05:06", .str "1", .undef, .undef⟩
      0).2.1 (fun s h => JsVal.noConfusion h) "2023-02-03 04:05:06" rfl
  obtain ⟨-, hpe2, -⟩ :=
    (timestampLike_fallback ⟨.numInt 5, .undef, .str "1", .undef, .undef⟩ 0).2.2
      (fun s h => JsVal.noConfusion h) (fun s h => JsVal.noConfusion h)
  exact ⟨hg, hpe, hpe2⟩

/-- Inversion of `parseForFiltering`: the period components of a
successful result are what the three period parsers returned. -/
theorem parseForFiltering_periods {payload : FilterPayload} {res : FilterParsed}
    (h : parseForFiltering payload = .ok res) :
    parseQPeriods (payload.q.getD []) = .ok res.qPeriods ∧
    parsePPeriods (payload.p.getD []) = .ok res.pPeriods ∧
    parseKPeriods (payload.k.getD []) = .ok res.kPeriods := by
  unfold parseForFiltering at h
  repeat' split at h
  all_goals try exact Except.noConfusion h
  obtain rfl := Except.ok.inj h
  refine ⟨?_, ?_, ?_⟩ <;> assumption

/-- C10: each absent section among q, p and k is treated, on its own,
as the empty list: an absent q (resp. p, k) parses to an empty period
list; whenever q and p are both absent the override and additive steps
leave every valid transaction unchanged at `remanentFinal =
remanentBase`; and whenever k is absent `savingsByDates` is the empty
list — regardless of the other sections. -/
theorem missing_sections_default (payload : FilterPayload)
    (res : FilterParsed) (hres : parseForFiltering payload = .ok res) :
    (payload.q = none → res.qPeriods = []) ∧
    (payload.p = none → res.pPeriods = []) ∧
    (payload.k = none → res.kPeriods = []) ∧
    (payload.q = none → payload.p = none →
      (∀ t ∈ res.validTransactions, t.remanentFinalPaise = t.remanentBasePaise) ∧
      (applyTemporalRules res.validTransactions res.qPeriods res.pPeriods res.kPeriods).1 =
        res.validTransactions) ∧
    (payload.k = none →
      (applyTemporalRules res.validTransactions res.qPeriods res.pPeriods res.kPeriods).2 =
        []) := by
  have hidx : ∀ raw k tx, parseTransactionInput raw k = .ok tx → tx.inputIndex = k :=
    fun raw k tx h => (parseTransactionInput_ok_shape h).1
  obtain ⟨hq, hp, hk⟩ := parseForFiltering_periods hres
  obtain ⟨hvalid, -⟩ := parseForFiltering_components hres
  have hq0 : payload.q = none → res.qPeriods = [] := by
    intro h0
    rw [h0] at hq
    simp only [Option.getD_none] at hq
    exact (Except.ok.inj hq).symm
  have hp0 : payload.p = none → res.pPeriods = [] := by
    intro h0
    rw [h0] at hp
    simp only [Option.getD_none] at hp
    exact (Except.ok.inj hp).symm
  have hk0 : payload.k = none → res.kPeriods = [] := by
    intro h0
    rw [h0] at hk
    simp only [Option.getD_none] at hk
    exact (Except.ok.inj hk).symm
  refine ⟨hq0, hp0, hk0, ?_, ?_⟩
  · intro h0 h1
    constructor
    · intro t ht
      rw [hvalid] at ht
      obtain ⟨-, -, fprop, -⟩ := filterLoopGo_spec payload.transactions hidx
        payload.transactions 0 [] [] []
        (List.drop_zero _).symm rfl (fun v hv => absurd hv (List.not_mem_nil v))
      exact (parseTransactionInput_ok_shape (except_toOption_ok (fprop t ht).1)).2
    · rw [hq0 h0, hp0 h1]
      rfl
  · intro h2
    rw [hk0 h2]
    rfl

theorem missing_sections_default_witness :
    (applyTemporalRules [(⟨"2023-02-03 04:05:06", 1675377306, 100, 10000, 9900, 9900, 0⟩ : Tx)]
      [] []
      [⟨"k-0", 1675377306, 1675377306, "2023-02-03 04:05:06", "2023-02-03 04:05:06", 0⟩]).1 =
      [(⟨"2023-02-03 04:05:06", 1675377306, 100, 10000, 9900, 9900, 0⟩ : Tx)] ∧
    (applyTemporalRules [(⟨"2023-02-03 04:05:06", 1675377306, 100, 10000, 9900, 9900, 0⟩ : Tx)]
      [⟨"q-0", 100, 1675377306, 1675377306, 0⟩]
      [⟨"p-0", 100, 1675377306, 1675377306⟩] []).2 = [] := by
  have hA := missing_sections_default
    ⟨[⟨.str "2023-02-03 04:05:06", .undef, .str "1", .undef, .undef⟩], none, none,
      some [⟨.undef, .undef, .undef, .str "2023-02-03 04:05:06",
        .str "2023-02-03 04:05:06"⟩]⟩
    ⟨[⟨"2023-02-03 04:05:06", 1675377306, 100, 10000, 9900, 9900, 0⟩], [], [], [],
      [⟨"k-0", 1675377306, 1675377306, "2023-02-03 04:05:06", "2023-02-03 04:05:06", 0⟩]⟩
    (by decide)
  have hB := missing_sections_default
    ⟨[⟨.str "2023-02-03 04:05:06", .undef, .str "1", .undef, .undef⟩],
      some [⟨.undef, .str "1", .undef, .str "2023-02-03 04:05:06",
        .str "2023-02-03 04:05:06"⟩],
      some [⟨.undef, .undef, .str "1", .str "2023-02-03 04:05:06",
        .str "2023-02-03 04:05:06"⟩], none⟩
    ⟨[⟨"2023-02-03 04:05:06", 1675377306, 100, 10000, 9900, 9900, 0⟩], [],
      [⟨"q-0", 100, 1675377306, 1675377306, 0⟩],
      [⟨"p-0", 100, 1675377306, 1675377306⟩], []⟩
    (by decide)
  exact ⟨(hA.2.2.2.1 rfl rfl).2, hB.2.2.2.2 rfl⟩
